import Mathlib

/-!
# Verification of the pixel-rect SVG optimizer

A shallow embedding of `src/svg_pixel_rect_optimizer.py`, the merge /
canonicalization pipeline for "pixel art as SVG rects" documents, together
with proofs and refutations of the specification's claims about it.

Modelling conventions:
* Python machine floats are modelled as exact rationals (`ℚ`); `round(x, n)`
  (round-half-to-even) and `f"{x:.4f}"` formatting are modelled by exact
  rational operations.  Non-finite float values (`inf`, `nan`) are treated as
  unparsable.
* Python `dict` (and `collections.defaultdict`) is modelled as an association
  list in insertion order: updating an existing key rewrites it in place,
  a new key is appended at the end, and iteration follows list order —
  exactly the observable semantics of Python 3.7+ dicts.
* Python `str` values are Lean `String`s; `float(s)` is modelled by `pyFloat`
  (sign, decimal digits, optional fraction and exponent), `str(i)` for an
  `int` by `intToStr`.
* XML documents are modelled structurally: an input document is its root
  attributes plus the list of namespace-qualified elements (in document
  order) with their attributes, which is what `xml.etree.ElementTree`
  exposes of the byte stream; serialization to bytes is modelled by a
  deterministic renderer mirroring `ET.tostring`.
-/

/-! ## Association lists with Python-dict semantics -/

/-- Lookup in an association list (first, hence unique, binding). -/
def getA {κ β : Type} [DecidableEq κ] (k : κ) : List (κ × β) → Option β
  | [] => none
  | (k₁, v) :: rest => if k = k₁ then some v else getA k rest

/-- `d[k] = v` on a Python dict: overwrite in place, else append at the end. -/
def setA {κ β : Type} [DecidableEq κ] (k : κ) (v : β) : List (κ × β) → List (κ × β)
  | [] => [(k, v)]
  | (k₁, v₁) :: rest => if k = k₁ then (k₁, v) :: rest else (k₁, v₁) :: setA k v rest

/-- `defaultdict` update: apply `f` to the current value of `k` (default `d`
when absent), in place, appending a fresh binding at the end when missing. -/
def updA {κ β : Type} [DecidableEq κ] (k : κ) (d : β) (f : β → β) : List (κ × β) → List (κ × β)
  | [] => [(k, f d)]
  | (k₁, v) :: rest => if k = k₁ then (k₁, f v) :: rest else (k₁, v) :: updA k d f rest

/-- Lookup with a default (`defaultdict` read; also Python `dict.get(k, d)`). -/
def getD {κ β : Type} [DecidableEq κ] (k : κ) (d : β) (l : List (κ × β)) : β :=
  match getA k l with
  | some v => v
  | none => d

/-- `List.range` shifted to start at an integer: Python `range(a, a + n)`. -/
def intRange (a : ℤ) (n : ℕ) : List ℤ :=
  (List.range n).map (fun i : ℕ => a + (i : ℤ))

/-! ## Numeric string parsing: the model of Python `float()` -/

def isDig (c : Char) : Bool := decide (48 ≤ c.toNat ∧ c.toNat ≤ 57)

def digitVal (c : Char) : ℕ := c.toNat - 48

/-- Value of a most-significant-first digit list. -/
def digitsVal (ds : List Char) : ℕ := ds.foldl (fun a c => 10 * a + digitVal c) 0

def isPySpace (c : Char) : Bool :=
  c = ' ' || c = '\t' || c = '\n' || c = '\r' || c = '\x0b' || c = '\x0c'

/-- Parse an optional exponent part (`e`/`E`, optional sign, digits); the
whole remaining input must be consumed. -/
def pyExp : List Char → Option ℤ
  | [] => some 0
  | c :: rest =>
    if c = 'e' || c = 'E' then
      let (s, rest₁) : ℤ × List Char :=
        match rest with
        | c₁ :: r => if c₁ = '-' then (-1, r) else if c₁ = '+' then (1, r) else (1, rest)
        | [] => (1, [])
      let ds := rest₁.takeWhile isDig
      if ds = [] ∨ rest₁.dropWhile isDig ≠ [] then none
      else some (s * (digitsVal ds : ℤ))
    else none

/-- Model of Python `float(s)` restricted to finite decimal literals:
optional surrounding whitespace, optional sign, integer digits and/or a
fractional part, optional decimal exponent.  `inf`/`nan` spellings and digit
underscores are treated as unparsable (they never normalize to a value the
program distinguishes from the defaults). -/
def pyFloat (s : String) : Option ℚ :=
  let cs := (s.toList.dropWhile isPySpace).reverse.dropWhile isPySpace |>.reverse
  let (sgn, cs₁) : ℚ × List Char :=
    match cs with
    | c :: rest => if c = '-' then (-1, rest) else if c = '+' then (1, rest) else (1, cs)
    | [] => (1, [])
  let ip := cs₁.takeWhile isDig
  let cs₂ := cs₁.dropWhile isDig
  let (fp, cs₃) : List Char × List Char :=
    match cs₂ with
    | c :: rest => if c = '.' then (rest.takeWhile isDig, rest.dropWhile isDig) else ([], cs₂)
    | [] => ([], [])
  if ip = [] ∧ fp = [] then none
  else
    match pyExp cs₃ with
    | none => none
    | some e =>
      let base : ℚ := (digitsVal ip : ℚ) + (digitsVal fp : ℚ) / ((10 ^ fp.length : ℕ) : ℚ)
      some (sgn * (if 0 ≤ e then base * ((10 ^ e.toNat : ℕ) : ℚ)
                   else base / ((10 ^ (-e).toNat : ℕ) : ℚ)))

/-! ## Integer printing: the model of Python `str(int)` -/

/-- Least-significant-first decimal digits, fuelled so that every
recursion is structural (any `fuel > n` is enough since `n / 10 < n`). -/
def natDigitsRevF (fuel : ℕ) (n : ℕ) : List Char :=
  match fuel with
  | 0 => []
  | fuel + 1 =>
    if n < 10 then [Char.ofNat (48 + n)]
    else Char.ofNat (48 + n % 10) :: natDigitsRevF fuel (n / 10)

/-- Least-significant-first decimal digits of a natural number. -/
def natDigitsRev (n : ℕ) : List Char := natDigitsRevF (n + 1) n

def natToStr (n : ℕ) : String := String.mk (natDigitsRev n).reverse

def intToStr (i : ℤ) : String :=
  if i < 0 then "-" ++ natToStr i.natAbs else natToStr i.natAbs

/-! ## Rounding and opacity formatting -/

/-- Round half to even to the nearest integer: the model of Python
`round` on our exact-rational floats. -/
def rhe (q : ℚ) : ℤ :=
  let f := ⌊q⌋
  if q - f < 1 / 2 then f
  else if 1 / 2 < q - f then f + 1
  else if f % 2 = 0 then f else f + 1

/-- `round(q, 6)`. -/
def round6 (q : ℚ) : ℚ := (rhe (q * 1000000) : ℚ) / 1000000

def rstripChar (c : Char) (cs : List Char) : List Char :=
  (cs.reverse.dropWhile (fun x => x = c)).reverse

/-- Zero-padded four-digit decimal rendering of `n < 10000`. -/
def pad4 (n : ℕ) : List Char :=
  let ds := (natDigitsRev n).reverse
  List.replicate (4 - ds.length) '0' ++ ds

/-- `f"{q:.4f}"` for a nonnegative rational. -/
def fmt4 (q : ℚ) : List Char :=
  let n := (rhe (q * 10000)).toNat
  (natDigitsRev (n / 10000)).reverse ++ ['.'] ++ pad4 (n % 10000)

/-- `fmt_opacity` from the source: 4-decimal formatting with trailing zeros
and a trailing decimal point stripped, `"0"` when everything is stripped. -/
def fmtOpacity (q : ℚ) : String :=
  let s := rstripChar '.' (rstripChar '0' (fmt4 q))
  if s = [] then "0" else String.mk s

/-! ## The attribute reader -/

/-- Python `str.strip()` (whitespace on both ends). -/
def pyStrip (cs : List Char) : List Char :=
  ((cs.dropWhile isPySpace).reverse.dropWhile isPySpace).reverse

/-- Python `str.split(sep)` for a one-character separator. -/
def splitOnChar (c : Char) : List Char → List (List Char)
  | [] => [[]]
  | x :: rest =>
    let r := splitOnChar c rest
    if x = c then [] :: r else (x :: r.headD []) :: r.tail

/-- Python `str.split(sep, 1)` for a one-character separator present in the
string: the part before the first occurrence and everything after it. -/
def splitFirst (c : Char) : List Char → Option (List Char × List Char)
  | [] => none
  | x :: rest =>
    if x = c then some ([], rest)
    else
      match splitFirst c rest with
      | none => none
      | some kv => some (x :: kv.1, kv.2)

/-- `parse_style` from the source: split an inline style string on `;`,
strip, keep `key:value` fragments (split at the first `:`, both sides
stripped), silently skip malformed ones. -/
def parseStyle (style : Option String) : List (String × String) :=
  match style with
  | none => []
  | some s =>
    if s = "" then []
    else
      (splitOnChar (Char.ofNat 59) s.toList).foldl
        (fun d part =>
          let part := pyStrip part
          if part = [] then d
          else
            match splitFirst (Char.ofNat 58) part with
            | none => d
            | some kv => setA (String.mk (pyStrip kv.1)) (String.mk (pyStrip kv.2)) d)
        []

/-- `norm_opacity` from the source. -/
def normOpacity (o : Option String) : ℚ :=
  match o with
  | none => 1
  | some s =>
    if s = "" then 1
    else
      match pyFloat s with
      | none => 1
      | some op₀ =>
        let op₁ := if op₀ > 1 then op₀ / 255 else op₀
        let op₂ := if op₁ < 0 then 0 else op₁
        if op₂ > 1 then 1 else op₂

/-- Truncation toward zero: Python `int(float)`. -/
def truncQ (q : ℚ) : ℤ := if 0 ≤ q then ⌊q⌋ else ⌈q⌉

/-- `_as_int` from the source. -/
def asInt (attr : Option String) (default : ℤ) : ℤ :=
  match attr with
  | none => default
  | some s =>
    if s = "" then default
    else
      match pyFloat s with
      | none => default
      | some q => truncQ q

/-! ## The data model -/

/-- A style key: fill color and normalized (rounded) opacity. -/
abbrev Style := String × ℚ

/-- A rectangle `(x, y, w, h, style)` at integer pixel coordinates.  The same
shape serves as the input `RawRect` (after attribute coercion) and as the
output strip / merged rectangle. -/
structure Rect where
  x : ℤ
  y : ℤ
  w : ℤ
  h : ℤ
  style : Style
deriving DecidableEq, Repr

/-- The pixels covered by a rectangle. -/
def inRect (p : ℤ × ℤ) (r : Rect) : Prop :=
  r.x ≤ p.1 ∧ p.1 < r.x + r.w ∧ r.y ≤ p.2 ∧ p.2 < r.y + r.h

instance (p : ℤ × ℤ) (r : Rect) : Decidable (inRect p r) := by
  unfold inRect; infer_instance

/-- The set of pixels attributed to style `s` by a rectangle list. -/
def coveredPix (l : List Rect) (s : Style) : Set (ℤ × ℤ) :=
  { p | ∃ r ∈ l, r.style = s ∧ inRect p r }

/-! ## The pixel expander -/

/-- The row-bucketed coverage map: row `y` ↦ style ↦ covered columns,
all in insertion order. -/
abbrev Rows := List (ℤ × List (Style × List ℤ))

/-- Expansion of one rectangle into the coverage map (the body of the
per-rect loop in `_build_rect_list`, lines 114–117): for each covered row,
append all covered columns to that row's bucket for the rect's style. -/
def expandRect (rows : Rows) (r : Rect) : Rows :=
  (intRange r.y r.h.toNat).foldl
    (fun rows yy =>
      updA yy [] (fun smap => updA r.style [] (fun xs => xs ++ intRange r.x r.w.toNat) smap) rows)
    rows

def expandRows (rs : List Rect) : Rows := rs.foldl expandRect []

/-! ## The merge sweep -/

/-- The adjacency sweep shared by the horizontal and vertical merges
(lines 126–133 and 143–151): consume a value list; a value equal to
`prev + 1` extends the open run, anything else closes it.  Returns
`(start, extent)` pairs. -/
def sweep (start prev : ℤ) : List ℤ → List (ℤ × ℤ)
  | [] => [(start, prev - start + 1)]
  | x :: xs =>
    if x = prev + 1 then sweep start x xs
    else (start, prev - start + 1) :: sweep x x xs

/-- Runs of a (to-be-sorted) value list: `start = prev = xs[0]`, sweep the
tail. -/
def runsOf : List ℤ → List (ℤ × ℤ)
  | [] => []
  | x :: xs => sweep x x xs

/-- Python `sorted` on integers (stable; on integers plain sorting). -/
def pySort (xs : List ℤ) : List ℤ := xs.insertionSort (· ≤ ·)

/-- Horizontal merge (lines 119–133): for each row in insertion order, for
each style bucket in insertion order, sort the columns and emit the maximal
runs as height-1 strips. -/
def mergedH (rows : Rows) : List Rect :=
  rows.flatMap fun yb =>
    yb.2.flatMap fun sb =>
      if sb.2 = [] then []
      else (runsOf (pySort sb.2)).map fun run => ⟨run.1, yb.1, run.2, 1, sb.1⟩

/-- Vertical grouping (lines 137–139): bucket strip rows by
`(x, width, style)` in insertion order. -/
def buildCols (strips : List Rect) : List ((ℤ × ℤ × Style) × List ℤ) :=
  strips.foldl (fun d st => updA (st.x, st.w, st.style) [] (fun ys => ys ++ [st.y]) d) []

/-- Vertical merge (lines 136–151): for each `(x, width, style)` group sort
the rows and emit the maximal vertical runs as taller rectangles. -/
def vmerge (strips : List Rect) : List Rect :=
  (buildCols strips).flatMap fun g =>
    (runsOf (pySort g.2)).map fun run => ⟨g.1.1, run.1, g.1.2.1, run.2, g.1.2.2⟩

/-! ## The canonicalizer -/

/-- Lexicographic order on the Python sort key `(t[1], t[0], t[2], t[3])`,
i.e. `(y, x, w, h)`. -/
def keyLe (a b : Rect) : Prop :=
  a.y < b.y ∨ a.y = b.y ∧ (a.x < b.x ∨ a.x = b.x ∧ (a.w < b.w ∨ a.w = b.w ∧ a.h ≤ b.h))

instance : DecidableRel keyLe := by
  unfold keyLe; infer_instance

instance : IsTotal Rect keyLe := by
  constructor; intro a b; unfold keyLe; omega

instance : IsTrans Rect keyLe := by
  constructor; intro a b c; unfold keyLe; omega

/-- Python stable `sorted(rect_list, key=lambda t: (t[1], t[0], t[2], t[3]))`:
insertion sort with non-strict lexicographic comparison is stable. -/
def canonSort (l : List Rect) : List Rect := l.insertionSort keyLe

/-- `_build_rect_list` on already-coerced rectangles: expand, merge
horizontally, optionally merge vertically, sort. -/
def buildRectList (rs : List Rect) (verticalMerge : Bool) : List Rect :=
  let mh := mergedH (expandRows rs)
  canonSort (if verticalMerge then vmerge mh else mh)

/-! ## Documents -/

def svgNS : String := "http://www.w3.org/2000/svg"

/-- The namespace-qualified rect tag, as `ElementTree` spells it. -/
def rectTag : String := "\x7bhttp://www.w3.org/2000/svg\x7drect"

/-- An element of the input document: its qualified tag and the raw
attribute values `_build_rect_list` consults. -/
structure Elem where
  tag : String
  x : Option String
  y : Option String
  width : Option String
  height : Option String
  fill : Option String
  style : Option String
  opacity : Option String
deriving DecidableEq, Repr

/-- An input document: root attributes plus all elements in document order
(the view `ElementTree` gives of the parsed byte stream). -/
structure InDoc where
  rootAttrs : List (String × String)
  elems : List Elem
deriving DecidableEq, Repr

/-- The attribute reader applied to one rect element
(`_build_rect_list` lines 101–112): numeric coercion with defaults
`0,0,1,1`, nonpositive width/height coerced to `1`, style-string entries
beating direct attributes, fill defaulting to `"#000000"`, opacity
normalized and rounded to 6 decimals. -/
def toRaw (e : Elem) : Rect :=
  let x0 := asInt e.x 0
  let y0 := asInt e.y 0
  let w0 := asInt e.width 1
  let h0 := asInt e.height 1
  let w1 := if w0 ≤ 0 then 1 else w0
  let h1 := if h0 ≤ 0 then 1 else h0
  let st := parseStyle e.style
  let fill :=
    match getA "fill" st with
    | some v => v
    | none =>
      match e.fill with
      | some v => v
      | none => "#000000"
  let opRaw :=
    match getA "opacity" st with
    | some v => some v
    | none => e.opacity
  ⟨x0, y0, w1, h1, (fill, round6 (normOpacity opRaw))⟩

/-- `root.findall(".//svg:rect", NS)`: the namespace-qualified rect
elements, in document order. -/
def findRects (d : InDoc) : List Elem := d.elems.filter (fun e => e.tag = rectTag)

/-- Root attributes carried over to the output
(`_build_rect_list` lines 155–160): the four preserved keys when present
and non-empty, plus the fixed rendering hint. -/
def outRootAttrs (rootAttrs : List (String × String)) : List (String × String) :=
  (["width", "height", "viewBox", "preserveAspectRatio"].foldl
    (fun acc k =>
      match getA k rootAttrs with
      | some v => if v = "" then acc else acc ++ [(k, v)]
      | none => acc)
    [])
  ++ [("shape-rendering", "crispEdges")]

/-! ## The serializer -/

/-- Serialized attributes of one output rect
(`optimize_svg_rects_bytes` lines 174–177): `x,y,width,height,fill` always,
`opacity` only when it differs from 1 by more than `1e-6`. -/
def rectAttrs (r : Rect) : List (String × String) :=
  [("x", intToStr r.x), ("y", intToStr r.y), ("width", intToStr r.w),
   ("height", intToStr r.h), ("fill", r.style.1)]
  ++ (if 1 / 1000000 < |r.style.2 - 1| then [("opacity", fmtOpacity r.style.2)] else [])

/-- The output document: carried-over root attributes and the canonical
rectangle list. -/
structure OutDoc where
  rootAttrs : List (String × String)
  rects : List Rect
deriving DecidableEq, Repr

/-- A single quote character (kept out of string literals). -/
def sQuote : String := String.mk [Char.ofNat 39]

/-- `ElementTree` attribute-value escaping. -/
def escAttr (s : String) : String :=
  String.join (s.toList.map fun c =>
    if c = '&' then "&amp;"
    else if c = '<' then "&lt;"
    else if c = '>' then "&gt;"
    else if c = '"' then "&quot;"
    else if c = '\r' then "&#13;"
    else if c = '\n' then "&#10;"
    else if c = '\t' then "&#09;"
    else String.mk [c])

def renderAttrs (l : List (String × String)) : String :=
  String.join (l.map fun kv => " " ++ kv.1 ++ "=\"" ++ escAttr kv.2 ++ "\"")

/-- The model of `ET.tostring(new_root, encoding="utf-8",
xml_declaration=True)` with the default namespace registered: XML
declaration, default-namespace root carrying the out attributes, one `<g>`
child holding one self-closed `<rect>` per rectangle, attributes in
insertion order. -/
def renderDoc (d : OutDoc) : String :=
  "<?xml version=" ++ sQuote ++ "1.0" ++ sQuote ++ " encoding=" ++ sQuote ++ "utf-8" ++ sQuote ++ "?>\n"
  ++ "<svg xmlns=\"" ++ svgNS ++ "\"" ++ renderAttrs d.rootAttrs ++ "><g>"
  ++ String.join (d.rects.map fun r => "<rect" ++ renderAttrs (rectAttrs r) ++ " />")
  ++ "</g></svg>"

def noRectsMsg : String := "No <rect> elements found. This script expects pixel-rect SVGs."

/-- `_build_rect_list` on a parsed document: fail when the document has no
namespace-qualified rect elements, otherwise read, expand, merge and sort. -/
def buildFromDoc (d : InDoc) (vm : Bool) : Except String (List Rect × List (String × String)) :=
  let rects := findRects d
  if rects = [] then .error noRectsMsg
  else .ok (buildRectList (rects.map toRaw) vm, outRootAttrs d.rootAttrs)

/-- `optimize_svg_rects_bytes` up to serialization structure: the output
document, or the error. -/
def optimizeOutDoc (d : InDoc) (vm : Bool) : Except String OutDoc :=
  match buildFromDoc d vm with
  | .error e => .error e
  | .ok (rl, attrs) => .ok ⟨attrs, rl⟩

/-- `optimize_svg_rects_bytes`: serialized bytes (as a UTF-8 string) and
the rectangle count; no bytes exist on failure. -/
def optimizeBytes (d : InDoc) (vm : Bool) : Except String (String × ℕ) :=
  match optimizeOutDoc d vm with
  | .error e => .error e
  | .ok out => .ok (renderDoc out, out.rects.length)

/-- `ET.parse` applied to the bytes `renderDoc` produced, structurally:
parsing recovers exactly the root attributes and the rect elements with the
attribute strings the serializer wrote (no `style` attribute, `opacity`
only when emitted). -/
def reparseDoc (d : OutDoc) : InDoc :=
  ⟨d.rootAttrs,
   d.rects.map fun r =>
     ⟨rectTag, some (intToStr r.x), some (intToStr r.y), some (intToStr r.w),
      some (intToStr r.h), some r.style.1, none,
      if 1 / 1000000 < |r.style.2 - 1| then some (fmtOpacity r.style.2) else none⟩⟩

/-- The second pipeline run of the idempotence property: optimize, then
optimize the parsed serialized output again. -/
def rerunBytes (d : InDoc) (vm : Bool) : Except String (String × ℕ) :=
  match optimizeOutDoc d vm with
  | .error e => .error e
  | .ok out => optimizeBytes (reparseDoc out) vm

/-! ## The byte compressor (`write_svgz`) -/

def bytesLE4 (n : ℕ) : List ℕ :=
  [n % 256, n / 256 % 256, n / 256 ^ 2 % 256, n / 256 ^ 3 % 256]

def crc32Round (crc : ℕ) : ℕ :=
  if crc % 2 = 1 then Nat.xor (crc / 2) 0xEDB88320 else crc / 2

def crc32Byte (crc b : ℕ) : ℕ := crc32Round^[8] (Nat.xor crc b)

/-- CRC-32 (the gzip trailer checksum). -/
def crc32 (data : List ℕ) : ℕ :=
  Nat.xor 0xFFFFFFFF (data.foldl crc32Byte 0xFFFFFFFF)

/-- Deterministic DEFLATE body model: stored (uncompressed) blocks of at
most 65535 bytes.  zlib's actual deflate stream at a given level is likewise
a pure function of the input bytes and the level; every claim about the
compressor depends only on that determinism, never on the encoding itself,
so the stored-block encoding stands in for the Huffman one. -/
def deflateStoredF (fuel : ℕ) (data : List ℕ) : List ℕ :=
  match fuel with
  | 0 => []
  | fuel + 1 =>
    if data = [] then [1, 0, 0, 255, 255]
    else
      let chunk := data.take 65535
      let rest := data.drop 65535
      (if rest = [] then [1] else [0])
      ++ [chunk.length % 256, chunk.length / 256, 255 - chunk.length % 256, 255 - chunk.length / 256]
      ++ chunk ++ (if rest = [] then [] else deflateStoredF fuel rest)

def deflateStored (data : List ℕ) : List ℕ := deflateStoredF (data.length + 1) data

/-- `max(1, min(9, int(compresslevel)))`. -/
def clampLevel (lvl : ℤ) : ℤ := max 1 (min 9 lvl)

/-- The gzip member `gzip.open(path, "wb", compresslevel=level)` writes:
magic, deflate method, flag byte (`FNAME` set because a file name is
known), the current Unix time `int(time.time())` as the 4-byte little-endian
`MTIME` field, the XFL hint for best/fast levels, OS byte 255, the output
base name, the deflate body, and the CRC-32/length trailer. -/
def gzipBytes (data : List ℕ) (lvl : ℤ) (mtime : ℕ) (fname : List ℕ) : List ℕ :=
  let level := clampLevel lvl
  [31, 139, 8, if fname = [] then 0 else 8]
  ++ bytesLE4 mtime
  ++ [if level = 9 then 2 else if level = 1 then 4 else 0, 255]
  ++ (if fname = [] then [] else fname ++ [0])
  ++ deflateStored data
  ++ bytesLE4 (crc32 data) ++ bytesLE4 data.length

/-- `write_svgz svg_bytes svgz_out compresslevel` invoked at Unix time
`now`: the bytes that end up in the file. -/
def writeSvgz (svgBytes : List ℕ) (fname : List ℕ) (compresslevel : ℤ) (now : ℕ) : List ℕ :=
  gzipBytes svgBytes compresslevel now fname

deriving instance DecidableEq for Except

/-! ## Basic facts about the attribute reader -/

unseal Rat.mul Rat.add Rat.inv Rat.sub in
/-- C7: the serializer emits an `opacity` attribute iff the rectangle's
normalized opacity differs from `1` by more than `1e-6`, with value
`fmt_opacity` (4 decimal places, trailing zeros and point stripped); the
raw opacity `"128"` normalizes and rounds to `0.501961` and is emitted as
`"0.502"`. -/
theorem serializer_opacity_spec :
    (∀ (r : Rect) (v : String),
        ("opacity", v) ∈ rectAttrs r ↔ 1 / 1000000 < |r.style.2 - 1| ∧ v = fmtOpacity r.style.2)
    ∧ round6 (normOpacity (some "128")) = 501961 / 1000000
    ∧ fmtOpacity (501961 / 1000000) = "0.502"
    ∧ 1 / 1000000 < |(501961 : ℚ) / 1000000 - 1| := by
  refine ⟨?_, by decide, by decide, by decide⟩
  intro r v
  constructor
  · intro hm
    rcases List.mem_append.mp hm with h5 | hop
    · simp only [List.mem_cons, List.not_mem_nil, or_false] at h5
      rcases h5 with h | h | h | h | h
      · have hk : "opacity" = "x" := congrArg Prod.fst h
        exact absurd hk (by decide)
      · have hk : "opacity" = "y" := congrArg Prod.fst h
        exact absurd hk (by decide)
      · have hk : "opacity" = "width" := congrArg Prod.fst h
        exact absurd hk (by decide)
      · have hk : "opacity" = "height" := congrArg Prod.fst h
        exact absurd hk (by decide)
      · have hk : "opacity" = "fill" := congrArg Prod.fst h
        exact absurd hk (by decide)
    · by_cases hc : 1 / 1000000 < |r.style.2 - 1|
      · rw [if_pos hc] at hop
        exact ⟨hc, congrArg Prod.snd (List.mem_singleton.mp hop)⟩
      · rw [if_neg hc] at hop
        exact absurd hop (List.not_mem_nil _)
  · rintro ⟨hc, rfl⟩
    refine List.mem_append.mpr (Or.inr ?_)
    rw [if_pos hc]
    exact List.mem_singleton.mpr rfl

/-- Witness for C7 at a rectangle with opacity `0.501961`. -/
theorem serializer_opacity_spec_witness :
    ("opacity", fmtOpacity ((501961 : ℚ) / 1000000))
      ∈ rectAttrs ⟨0, 0, 1, 1, ("red", 501961 / 1000000)⟩ :=
  (serializer_opacity_spec.1 _ _).mpr ⟨serializer_opacity_spec.2.2.2, rfl⟩

/-- C9: numeric attribute coercion: `_as_int` is total, defaults on absent
or unparsable input, truncates a parsed value toward zero; the attribute
reader uses defaults `0,0,1,1` for `x,y,width,height` and coerces a
nonpositive parsed width or height to `1`. -/
theorem numeric_coercion_spec :
    (∀ d : ℤ, asInt none d = d)
    ∧ (∀ (s : String) (d : ℤ), pyFloat s = none → asInt (some s) d = d)
    ∧ (∀ (s : String) (q : ℚ) (d : ℤ), pyFloat s = some q → asInt (some s) d = truncQ q)
    ∧ (∀ q : ℚ, (0 ≤ q → truncQ q = ⌊q⌋) ∧ (q < 0 → truncQ q = ⌈q⌉))
    ∧ (∀ e : Elem,
        (toRaw e).x = asInt e.x 0 ∧ (toRaw e).y = asInt e.y 0
        ∧ (asInt e.width 1 ≤ 0 → (toRaw e).w = 1)
        ∧ (0 < asInt e.width 1 → (toRaw e).w = asInt e.width 1)
        ∧ (asInt e.height 1 ≤ 0 → (toRaw e).h = 1)
        ∧ (0 < asInt e.height 1 → (toRaw e).h = asInt e.height 1)) := by
  have hempty : pyFloat "" = none := rfl
  refine ⟨fun d => rfl, ?_, ?_, ?_, ?_⟩
  · intro s d h
    by_cases hs : s = "" <;> simp [asInt, hs, h]
  · intro s q d h
    have hs : s ≠ "" := by
      intro hs; rw [hs, hempty] at h; exact Option.noConfusion h
    simp [asInt, hs, h]
  · intro q
    constructor
    · intro h; simp [truncQ, h]
    · intro h; simp [truncQ, not_le.mpr h]
  · intro e
    refine ⟨rfl, rfl, ?_, ?_, ?_, ?_⟩
    · intro h
      show (if asInt e.width 1 ≤ 0 then 1 else asInt e.width 1) = 1
      rw [if_pos h]
    · intro h
      show (if asInt e.width 1 ≤ 0 then 1 else asInt e.width 1) = asInt e.width 1
      rw [if_neg (by omega)]
    · intro h
      show (if asInt e.height 1 ≤ 0 then 1 else asInt e.height 1) = 1
      rw [if_pos h]
    · intro h
      show (if asInt e.height 1 ≤ 0 then 1 else asInt e.height 1) = asInt e.height 1
      rw [if_neg (by omega)]

unseal Rat.mul Rat.add Rat.inv Rat.sub in
/-- Witness for C9: `"3.7"` parses to `37/10` and truncates to `3`. -/
theorem numeric_coercion_spec_witness :
    asInt (some "3.7") 0 = truncQ (37 / 10) :=
  numeric_coercion_spec.2.2.1 "3.7" (37 / 10) 0 (by decide)

/-- C8: a document with zero namespace-qualified rect elements makes the
pipeline fail with the `NoRectangles` error; no output bytes exist. -/
theorem no_rects_structural_failure (d : InDoc) (vm : Bool) (h : findRects d = []) :
    optimizeBytes d vm = .error noRectsMsg ∧ optimizeOutDoc d vm = .error noRectsMsg := by
  have hb : buildFromDoc d vm = .error noRectsMsg := by
    simp [buildFromDoc, h]
  constructor
  · simp [optimizeBytes, optimizeOutDoc, hb]
  · simp [optimizeOutDoc, hb]

/-- Witness for C8: a document whose only element is an (unqualified) `g`. -/
theorem no_rects_structural_failure_witness :
    findRects ⟨[], [⟨"g", none, none, none, none, none, none, none⟩]⟩ = []
    ∧ optimizeBytes ⟨[], [⟨"g", none, none, none, none, none, none, none⟩]⟩ true
      = .error noRectsMsg :=
  ⟨by decide, (no_rects_structural_failure _ true (by decide)).1⟩

/-- C10: a rect element with neither a style-string `fill` entry nor a
`fill` attribute is assigned the default fill `"#000000"`, which is the
first component of its style grouping key and is emitted verbatim by the
serializer. -/
theorem default_fill_spec :
    (∀ e : Elem, getA "fill" (parseStyle e.style) = none → e.fill = none →
        (toRaw e).style.1 = "#000000")
    ∧ (∀ r : Rect, ("fill", r.style.1) ∈ rectAttrs r) := by
  constructor
  · intro e h1 h2
    simp only [toRaw, h1, h2]
  · intro r
    refine List.mem_append.mpr (Or.inl ?_)
    simp

/-- Witness for C10: a bare rect element gets fill `"#000000"`. -/
theorem default_fill_spec_witness :
    (toRaw ⟨rectTag, none, none, none, none, none, none, none⟩).style.1 = "#000000" :=
  default_fill_spec.1 ⟨rectTag, none, none, none, none, none, none, none⟩ rfl rfl

/-- C5 (refuting evaluation): `write_svgz` embeds the invocation time in the
gzip header `MTIME` field, so the same bytes at the same level compressed at
Unix times `0` and `1` produce different output bytes. -/
theorem write_svgz_time_dependent :
    writeSvgz [60, 115, 118, 103] [111, 46, 115, 118, 103, 122] 9 0
    ≠ writeSvgz [60, 115, 118, 103] [111, 46, 115, 118, 103, 122] 9 1 := by decide

/-! ## Coverage multisets and their preservation (C1)

Pixel coverage is tracked per style and per row as a multiset of covered
columns; every pipeline stage preserves it (even as a multiset, hence in
particular as a set). -/

/-- The columns rectangle `r` covers in row `y`, as a multiset. -/
def rowCov (r : Rect) (y : ℤ) : Multiset ℤ :=
  if r.y ≤ y ∧ y < r.y + r.h then (intRange r.x r.w.toNat : Multiset ℤ) else 0

/-- Columns covered in row `y` by the rectangles of style `s` in `l`,
with multiplicity. -/
def rowCovList (l : List Rect) (s : Style) (y : ℤ) : Multiset ℤ :=
  (l.map (fun r => if r.style = s then rowCov r y else 0)).sum

/-- Column coverage recorded for `(y, s)` in a `Rows` coverage map. -/
def smapCov (smap : List (Style × List ℤ)) (s : Style) : Multiset ℤ :=
  (smap.map (fun sb => if sb.1 = s then (sb.2 : Multiset ℤ) else 0)).sum

def bucketCov (rows : Rows) (y : ℤ) (s : Style) : Multiset ℤ :=
  (rows.map (fun yb => if yb.1 = y then smapCov yb.2 s else 0)).sum

/-- Total column coverage of a run list. -/
def runsCov (runs : List (ℤ × ℤ)) : Multiset ℤ :=
  (runs.map (fun p => (intRange p.1 p.2.toNat : Multiset ℤ))).sum

theorem mem_intRange (a : ℤ) (n : ℕ) (z : ℤ) :
    z ∈ intRange a n ↔ a ≤ z ∧ z < a + n := by
  unfold intRange
  constructor
  · intro hz
    rcases List.mem_map.mp hz with ⟨i, hi, hzi⟩
    rw [List.mem_range] at hi
    omega
  · intro h
    refine List.mem_map.mpr ⟨(z - a).toNat, ?_, ?_⟩
    · rw [List.mem_range]; omega
    · omega

theorem intRange_nodup (a : ℤ) (n : ℕ) : (intRange a n).Nodup := by
  unfold intRange
  refine List.Nodup.map ?_ (List.nodup_range n)
  intro i j h
  have h2 : a + (i : ℤ) = a + (j : ℤ) := h
  omega

theorem intRange_succ (a : ℤ) (n : ℕ) :
    intRange a (n + 1) = intRange a n ++ [a + n] := by
  unfold intRange
  rw [List.range_succ, List.map_append]
  rfl

theorem intRange_one (a : ℤ) : intRange a 1 = [a] := by
  have h := intRange_succ a 0
  simpa [intRange] using h

/-- The sweep covers exactly the open run plus the remaining input values
(with multiplicity). -/
theorem sweep_cov (l : List ℤ) (start prev : ℤ) (h : start ≤ prev) :
    runsCov (sweep start prev l)
      = (intRange start (prev + 1 - start).toNat : Multiset ℤ) + (l : Multiset ℤ) := by
  induction l generalizing start prev with
  | nil =>
    show runsCov [(start, prev - start + 1)] = _
    unfold runsCov
    simp only [List.map_cons, List.map_nil, List.sum_cons, List.sum_nil, add_zero,
      Multiset.coe_nil]
    rw [show (prev - start + 1) = (prev + 1 - start) by ring]
  | cons x xs ih =>
    show runsCov (if x = prev + 1 then sweep start x xs
        else (start, prev - start + 1) :: sweep x x xs) = _
    by_cases hx : x = prev + 1
    · rw [if_pos hx, ih start x (by omega)]
      have hstep : (x + 1 - start).toNat = (prev + 1 - start).toNat + 1 := by omega
      have hlast : start + ((prev + 1 - start).toNat : ℤ) = x := by omega
      rw [hstep, intRange_succ, hlast, Multiset.coe_add, Multiset.coe_add,
        List.append_assoc]
      rfl
    · rw [if_neg hx]
      have hcons : runsCov ((start, prev - start + 1) :: sweep x x xs)
          = (intRange start (prev - start + 1).toNat : Multiset ℤ) + runsCov (sweep x x xs) := by
        unfold runsCov
        rw [List.map_cons, List.sum_cons]
      rw [hcons, ih x x le_rfl]
      have hone : (x + 1 - x).toNat = 1 := by omega
      rw [hone, intRange_one,
        show (prev - start + 1) = (prev + 1 - start) by ring,
        Multiset.coe_add, Multiset.coe_add, Multiset.coe_add]
      rfl

/-- The run list of a value list covers exactly the values. -/
theorem runsOf_cov (l : List ℤ) : runsCov (runsOf l) = (l : Multiset ℤ) := by
  cases l with
  | nil => rfl
  | cons x xs =>
    show runsCov (sweep x x xs) = _
    rw [sweep_cov xs x x le_rfl]
    have hone : (x + 1 - x).toNat = 1 := by omega
    rw [hone, intRange_one, Multiset.coe_add]
    rfl

theorem pySort_perm (xs : List ℤ) : List.Perm (pySort xs) xs := List.perm_insertionSort _ xs

theorem runsOf_pySort_cov (xs : List ℤ) :
    runsCov (runsOf (pySort xs)) = (xs : Multiset ℤ) := by
  rw [runsOf_cov]
  exact Multiset.coe_eq_coe.mpr (pySort_perm xs)

/-! ### Expansion bookkeeping -/

theorem smapCov_nil (s : Style) : smapCov [] s = 0 := rfl

theorem smapCov_cons (kv : Style × List ℤ) (rest : List (Style × List ℤ)) (s : Style) :
    smapCov (kv :: rest) s = (if kv.1 = s then (kv.2 : Multiset ℤ) else 0) + smapCov rest s := by
  unfold smapCov
  rw [List.map_cons, List.sum_cons]

theorem smapCov_updA (smap : List (Style × List ℤ)) (s₀ s : Style) (cols : List ℤ) :
    smapCov (updA s₀ [] (fun xs => xs ++ cols) smap) s
      = smapCov smap s + (if s₀ = s then (cols : Multiset ℤ) else 0) := by
  induction smap with
  | nil =>
    show smapCov [(s₀, [] ++ cols)] s = _
    rw [smapCov_cons, smapCov_nil]
    simp
  | cons kv rest ih =>
    show smapCov (if s₀ = kv.1 then (kv.1, kv.2 ++ cols) :: rest
        else kv :: updA s₀ [] (fun xs => xs ++ cols) rest) s = _
    by_cases hk : s₀ = kv.1
    · rw [if_pos hk, smapCov_cons, smapCov_cons]
      by_cases hs : kv.1 = s
      · rw [if_pos hs, if_pos hs, if_pos (hk.trans hs), ← Multiset.coe_add]
        abel
      · rw [if_neg hs, if_neg hs, if_neg (fun h => hs (hk ▸ h))]
        abel
    · rw [if_neg hk, smapCov_cons, smapCov_cons, ih]
      abel

theorem bucketCov_nil (y : ℤ) (s : Style) : bucketCov [] y s = 0 := rfl

theorem bucketCov_cons (yb : ℤ × List (Style × List ℤ)) (rest : Rows) (y : ℤ) (s : Style) :
    bucketCov (yb :: rest) y s
      = (if yb.1 = y then smapCov yb.2 s else 0) + bucketCov rest y s := by
  unfold bucketCov
  rw [List.map_cons, List.sum_cons]

theorem bucketCov_updA (rows : Rows) (y₀ : ℤ) (s₀ : Style) (cols : List ℤ) (y : ℤ) (s : Style) :
    bucketCov (updA y₀ [] (fun smap => updA s₀ [] (fun xs => xs ++ cols) smap) rows) y s
      = bucketCov rows y s
        + (if y₀ = y ∧ s₀ = s then (cols : Multiset ℤ) else 0) := by
  induction rows with
  | nil =>
    show bucketCov [(y₀, updA s₀ [] (fun xs => xs ++ cols) [])] y s = _
    rw [bucketCov_cons, bucketCov_nil]
    dsimp only
    rw [add_zero, zero_add]
    by_cases hy : y₀ = y
    · rw [if_pos hy, smapCov_updA, smapCov_nil, zero_add]
      by_cases hs : s₀ = s
      · rw [if_pos hs, if_pos ⟨hy, hs⟩]
      · rw [if_neg hs, if_neg (fun h => hs h.2)]
    · rw [if_neg hy, if_neg (fun h => hy h.1)]
  | cons yb rest ih =>
    show bucketCov (if y₀ = yb.1 then (yb.1, updA s₀ [] (fun xs => xs ++ cols) yb.2) :: rest
        else yb :: updA y₀ [] (fun smap => updA s₀ [] (fun xs => xs ++ cols) smap) rest) y s = _
    by_cases hk : y₀ = yb.1
    · rw [if_pos hk, bucketCov_cons, bucketCov_cons]
      dsimp only
      by_cases hy : yb.1 = y
      · rw [if_pos hy, if_pos hy, smapCov_updA]
        by_cases hs : s₀ = s
        · rw [if_pos hs, if_pos ⟨hk.trans hy, hs⟩]
          abel
        · rw [if_neg hs, if_neg (fun h => hs h.2)]
          abel
      · rw [if_neg hy, if_neg hy, if_neg (fun h => hy (hk ▸ h.1))]
        abel
    · rw [if_neg hk, bucketCov_cons, bucketCov_cons, ih]
      abel

/-- Appending one rectangle's pixels to the coverage map adds exactly its
per-row coverage for its style. -/
theorem bucketCov_expandRect (rows : Rows) (r : Rect) (y : ℤ) (s : Style) :
    bucketCov (expandRect rows r) y s
      = bucketCov rows y s + (if r.style = s then rowCov r y else 0) := by
  unfold expandRect
  have key : ∀ (L : List ℤ), L.Nodup → ∀ (rows₀ : Rows),
      bucketCov (L.foldl (fun acc yy =>
          updA yy [] (fun smap =>
            updA r.style [] (fun xs => xs ++ intRange r.x r.w.toNat) smap) acc) rows₀) y s
        = bucketCov rows₀ y s
          + (if y ∈ L ∧ r.style = s then (intRange r.x r.w.toNat : Multiset ℤ) else 0) := by
    intro L
    induction L with
    | nil =>
      intro _ rows₀
      rw [List.foldl_nil, if_neg (fun h => (List.not_mem_nil y) h.1), add_zero]
    | cons yy L ih =>
      intro hnd rows₀
      have hnin : yy ∉ L := (List.nodup_cons.mp hnd).1
      rw [List.foldl_cons, ih (List.Nodup.of_cons hnd) _, bucketCov_updA]
      by_cases hyy : yy = y
      · subst hyy
        by_cases hs : r.style = s
        · rw [if_pos ⟨rfl, hs⟩, if_neg (fun h => hnin h.1),
            if_pos ⟨List.mem_cons_self yy L, hs⟩, add_zero]
        · rw [if_neg (fun h => hs h.2), if_neg (fun h => hs h.2),
            if_neg (fun h => hs h.2), add_zero, add_zero]
      · rw [if_neg (fun h => hyy h.1), add_zero]
        by_cases hyL : y ∈ L ∧ r.style = s
        · rw [if_pos hyL, if_pos ⟨List.mem_cons_of_mem yy hyL.1, hyL.2⟩]
        · rw [if_neg hyL,
            if_neg (fun h => hyL ⟨(List.mem_cons.mp h.1).resolve_left (fun hc => hyy hc.symm), h.2⟩)]
  rw [key _ (intRange_nodup r.y r.h.toNat) rows]
  have hiff : (y ∈ intRange r.y r.h.toNat) ↔ (r.y ≤ y ∧ y < r.y + r.h) := by
    rw [mem_intRange]
    omega
  unfold rowCov
  congr 1
  by_cases hc : r.y ≤ y ∧ y < r.y + r.h
  · by_cases hs : r.style = s
    · rw [if_pos ⟨hiff.mpr hc, hs⟩, if_pos hs, if_pos hc]
    · rw [if_neg (fun h => hs h.2), if_neg hs]
  · by_cases hs : r.style = s
    · rw [if_neg (fun h => hc (hiff.mp h.1)), if_pos hs, if_neg hc]
    · rw [if_neg (fun h => hs h.2), if_neg hs]

theorem rowCovList_nil (s : Style) (y : ℤ) : rowCovList [] s y = 0 := rfl

theorem rowCovList_cons (r : Rect) (l : List Rect) (s : Style) (y : ℤ) :
    rowCovList (r :: l) s y = (if r.style = s then rowCov r y else 0) + rowCovList l s y := by
  unfold rowCovList
  rw [List.map_cons, List.sum_cons]

theorem rowCovList_append (l₁ l₂ : List Rect) (s : Style) (y : ℤ) :
    rowCovList (l₁ ++ l₂) s y = rowCovList l₁ s y + rowCovList l₂ s y := by
  unfold rowCovList
  rw [List.map_append, List.sum_append]

theorem rowCovList_perm {l₁ l₂ : List Rect} (h : List.Perm l₁ l₂) (s : Style) (y : ℤ) :
    rowCovList l₁ s y = rowCovList l₂ s y := by
  unfold rowCovList
  exact List.Perm.sum_eq (h.map _)

/-- Expanding a rectangle list accumulates exactly its per-row coverage. -/
theorem bucketCov_expandRows (rs : List Rect) (y : ℤ) (s : Style) :
    bucketCov (expandRows rs) y s = rowCovList rs s y := by
  have key : ∀ (l : List Rect) (rows₀ : Rows),
      bucketCov (l.foldl expandRect rows₀) y s = bucketCov rows₀ y s + rowCovList l s y := by
    intro l
    induction l with
    | nil =>
      intro rows₀
      rw [List.foldl_nil, rowCovList_nil, add_zero]
    | cons r l ih =>
      intro rows₀
      rw [List.foldl_cons, ih, bucketCov_expandRect, rowCovList_cons]
      abel
  show bucketCov (rs.foldl expandRect []) y s = _
  rw [key, bucketCov_nil, zero_add]

theorem rowCovList_runStrips (runs : List (ℤ × ℤ)) (y₀ : ℤ) (s₀ s : Style) (y : ℤ) :
    rowCovList (runs.map (fun run => ⟨run.1, y₀, run.2, 1, s₀⟩)) s y
      = if y₀ = y ∧ s₀ = s then runsCov runs else 0 := by
  by_cases hc : y₀ = y ∧ s₀ = s
  · rw [if_pos hc]
    obtain ⟨hy, hs⟩ := hc
    subst hy
    subst hs
    induction runs with
    | nil => rfl
    | cons p runs ih =>
      rw [List.map_cons, rowCovList_cons, ih]
      have h1 : (⟨p.1, y₀, p.2, 1, s₀⟩ : Rect).style = s₀ := rfl
      rw [if_pos h1]
      have h2 : rowCov ⟨p.1, y₀, p.2, 1, s₀⟩ y₀ = (intRange p.1 p.2.toNat : Multiset ℤ) := by
        unfold rowCov
        rw [if_pos (show y₀ ≤ y₀ ∧ y₀ < y₀ + 1 by omega)]
      rw [h2]
      show _ = runsCov (p :: runs)
      unfold runsCov
      rw [List.map_cons, List.sum_cons]
  · rw [if_neg hc]
    induction runs with
    | nil => rfl
    | cons p runs ih =>
      rw [List.map_cons, rowCovList_cons, ih, add_zero]
      by_cases hs : s₀ = s
      · have hy : ¬ y₀ = y := fun h => hc ⟨h, hs⟩
        rw [if_pos (show (⟨p.1, y₀, p.2, 1, s₀⟩ : Rect).style = s from hs)]
        unfold rowCov
        rw [if_neg (show ¬ (y₀ ≤ y ∧ y < y₀ + 1) by omega)]
      · rw [if_neg (show ¬ (⟨p.1, y₀, p.2, 1, s₀⟩ : Rect).style = s from hs)]

theorem rowCovList_rowChunk (y₀ : ℤ) (smap : List (Style × List ℤ)) (s : Style) (y : ℤ) :
    rowCovList (smap.flatMap (fun sb =>
        if sb.2 = [] then []
        else (runsOf (pySort sb.2)).map (fun run => ⟨run.1, y₀, run.2, 1, sb.1⟩))) s y
      = if y₀ = y then smapCov smap s else 0 := by
  induction smap with
  | nil =>
    show (0 : Multiset ℤ) = _
    by_cases hy : y₀ = y
    · rw [if_pos hy, smapCov_nil]
    · rw [if_neg hy]
  | cons sb smap ih =>
    rw [List.flatMap_cons, rowCovList_append, ih, smapCov_cons]
    have hsb : rowCovList (if sb.2 = [] then []
        else (runsOf (pySort sb.2)).map (fun run => ⟨run.1, y₀, run.2, 1, sb.1⟩)) s y
        = if y₀ = y ∧ sb.1 = s then (sb.2 : Multiset ℤ) else 0 := by
      by_cases he : sb.2 = []
      · rw [if_pos he, rowCovList_nil, he]
        by_cases hc : y₀ = y ∧ sb.1 = s
        · rw [if_pos hc]; rfl
        · rw [if_neg hc]
      · rw [if_neg he, rowCovList_runStrips, runsOf_pySort_cov]
    rw [hsb]
    by_cases hy : y₀ = y
    · by_cases hs : sb.1 = s
      · rw [if_pos ⟨hy, hs⟩, if_pos hy, if_pos hy, if_pos hs]
      · rw [if_neg (fun h => hs h.2), if_pos hy, if_pos hy, if_neg hs, zero_add]
    · rw [if_neg (fun h => hy h.1), if_neg hy, if_neg hy, add_zero]

/-- Horizontal merging emits, per row and style, exactly the bucketed
coverage. -/
theorem rowCovList_mergedH (rows : Rows) (s : Style) (y : ℤ) :
    rowCovList (mergedH rows) s y = bucketCov rows y s := by
  induction rows with
  | nil => rfl
  | cons yb rest ih =>
    have hm : mergedH (yb :: rest)
        = (yb.2.flatMap fun sb => if sb.2 = [] then []
            else (runsOf (pySort sb.2)).map (fun run => ⟨run.1, yb.1, run.2, 1, sb.1⟩))
          ++ mergedH rest := by
      unfold mergedH
      rw [List.flatMap_cons]
    rw [hm, rowCovList_append, ih, rowCovList_rowChunk, bucketCov_cons]

/-! ### Vertical-merge bookkeeping -/

theorem count_intRange (a : ℤ) (n : ℕ) (y : ℤ) :
    (intRange a n).count y = if a ≤ y ∧ y < a + n then 1 else 0 := by
  by_cases h : a ≤ y ∧ y < a + n
  · rw [if_pos h]
    exact List.count_eq_one_of_mem (intRange_nodup a n) ((mem_intRange a n y).mpr h)
  · rw [if_neg h]
    exact List.count_eq_zero_of_not_mem (fun hm => h ((mem_intRange a n y).mp hm))

/-- Per-style, per-row coverage recorded in the vertical grouping map:
each group `(x, w, s)` with row list `ys` contributes `count y ys` copies
of its column interval. -/
def colsCov (d : List ((ℤ × ℤ × Style) × List ℤ)) (s : Style) (y : ℤ) : Multiset ℤ :=
  (d.map (fun g => if g.1.2.2 = s
      then (g.2.count y) • (intRange g.1.1 g.1.2.1.toNat : Multiset ℤ) else 0)).sum

theorem colsCov_nil (s : Style) (y : ℤ) : colsCov [] s y = 0 := rfl

theorem colsCov_cons (g : (ℤ × ℤ × Style) × List ℤ) (d : List ((ℤ × ℤ × Style) × List ℤ))
    (s : Style) (y : ℤ) :
    colsCov (g :: d) s y
      = (if g.1.2.2 = s then (g.2.count y) • (intRange g.1.1 g.1.2.1.toNat : Multiset ℤ) else 0)
        + colsCov d s y := by
  unfold colsCov
  rw [List.map_cons, List.sum_cons]

theorem colsCov_updA (d : List ((ℤ × ℤ × Style) × List ℤ)) (k : ℤ × ℤ × Style) (ynew : ℤ)
    (s : Style) (y : ℤ) :
    colsCov (updA k [] (fun ys => ys ++ [ynew]) d) s y
      = colsCov d s y
        + (if k.2.2 = s ∧ ynew = y then (intRange k.1 k.2.1.toNat : Multiset ℤ) else 0) := by
  have hcount : ∀ ys : List ℤ, (ys ++ [ynew]).count y = ys.count y + if ynew = y then 1 else 0 := by
    intro ys
    rw [List.count_append]
    by_cases hy : ynew = y
    · rw [if_pos hy, hy]
      simp [List.count_singleton]
    · rw [if_neg hy]
      simp [List.count_singleton, hy]
  induction d with
  | nil =>
    show colsCov [(k, [] ++ [ynew])] s y = _
    rw [colsCov_cons, colsCov_nil, add_zero, zero_add]
    dsimp only [List.nil_append]
    by_cases hs : k.2.2 = s
    · rw [if_pos hs]
      by_cases hy : ynew = y
      · rw [if_pos ⟨hs, hy⟩]
        have h1 : ([ynew].count y) = 1 := by
          rw [hy]; simp [List.count_singleton]
        rw [h1, one_smul]
      · rw [if_neg (fun h => hy h.2)]
        have h0 : ([ynew].count y) = 0 := by
          simp [List.count_singleton, hy]
        rw [h0, zero_smul]
    · rw [if_neg hs, if_neg (fun h => hs h.1)]
  | cons g d ih =>
    show colsCov (if k = g.1 then (g.1, g.2 ++ [ynew]) :: d
        else g :: updA k [] (fun ys => ys ++ [ynew]) d) s y = _
    by_cases hk : k = g.1
    · rw [if_pos hk, colsCov_cons, colsCov_cons]
      dsimp only
      by_cases hs : g.1.2.2 = s
      · rw [if_pos hs, if_pos hs, hcount]
        by_cases hy : ynew = y
        · rw [if_pos hy, if_pos ⟨hk ▸ hs, hy⟩, add_smul, one_smul, hk]
          abel
        · rw [if_neg hy, if_neg (fun h => hy h.2), add_zero, add_zero]
      · rw [if_neg hs, if_neg hs, if_neg (fun h => hs (hk ▸ h.1)), add_zero]
    · rw [if_neg hk, colsCov_cons, colsCov_cons, ih]
      abel

/-- Grouping height-1 strips by `(x, width, style)` preserves per-row
coverage. -/
theorem colsCov_buildCols (strips : List Rect) (h1 : ∀ st ∈ strips, st.h = 1)
    (s : Style) (y : ℤ) :
    colsCov (buildCols strips) s y = rowCovList strips s y := by
  have key : ∀ (l : List Rect), (∀ st ∈ l, st.h = 1) →
      ∀ (d₀ : List ((ℤ × ℤ × Style) × List ℤ)),
      colsCov (l.foldl (fun d st => updA (st.x, st.w, st.style) [] (fun ys => ys ++ [st.y]) d) d₀) s y
        = colsCov d₀ s y + rowCovList l s y := by
    intro l
    induction l with
    | nil =>
      intro _ d₀
      rw [List.foldl_nil, rowCovList_nil, add_zero]
    | cons st l ih =>
      intro hl d₀
      rw [List.foldl_cons, ih (fun r hr => hl r (List.mem_cons_of_mem st hr)), colsCov_updA,
        rowCovList_cons]
      have hst : st.h = 1 := hl st (List.mem_cons_self st l)
      have hrc : (if (st.x, st.w, st.style).2.2 = s ∧ st.y = y
          then (intRange (st.x, st.w, st.style).1 (st.x, st.w, st.style).2.1.toNat : Multiset ℤ)
          else 0)
          = (if st.style = s then rowCov st y else 0) := by
        dsimp only
        unfold rowCov
        by_cases hs : st.style = s
        · rw [if_pos hs]
          by_cases hy : st.y = y
          · rw [if_pos ⟨hs, hy⟩, if_pos (by omega)]
          · rw [if_neg (fun h => hy h.2), if_neg (by omega)]
        · rw [if_neg (fun h => hs h.1), if_neg hs]
      rw [hrc]
      abel
  show colsCov (strips.foldl _ []) s y = _
  rw [key strips h1 [], colsCov_nil, zero_add]

theorem rowCovList_groupChunk (runs : List (ℤ × ℤ)) (x w : ℤ) (s₀ s : Style) (y : ℤ) :
    rowCovList (runs.map (fun run => ⟨x, run.1, w, run.2, s₀⟩)) s y
      = if s₀ = s
        then (Multiset.count y (runsCov runs)) • (intRange x w.toNat : Multiset ℤ) else 0 := by
  induction runs with
  | nil =>
    show (0 : Multiset ℤ) = _
    by_cases hs : s₀ = s
    · rw [if_pos hs]
      show (0 : Multiset ℤ) = Multiset.count y (0 : Multiset ℤ) • _
      rw [Multiset.count_zero, zero_smul]
    · rw [if_neg hs]
  | cons p runs ih =>
    rw [List.map_cons, rowCovList_cons, ih]
    have hcov : runsCov (p :: runs) = (intRange p.1 p.2.toNat : Multiset ℤ) + runsCov runs := by
      unfold runsCov
      rw [List.map_cons, List.sum_cons]
    have hrc : rowCov ⟨x, p.1, w, p.2, s₀⟩ y
        = (if p.1 ≤ y ∧ y < p.1 + p.2 then (intRange x w.toNat : Multiset ℤ) else 0) := rfl
    by_cases hs : s₀ = s
    · rw [if_pos (show (⟨x, p.1, w, p.2, s₀⟩ : Rect).style = s from hs), if_pos hs, if_pos hs,
        hcov, Multiset.count_add, add_smul, hrc]
      have hcnt : Multiset.count y (intRange p.1 p.2.toNat : Multiset ℤ)
          = if p.1 ≤ y ∧ y < p.1 + p.2 then 1 else 0 := by
        rw [Multiset.coe_count, count_intRange]
        by_cases hc2 : p.1 ≤ y ∧ y < p.1 + p.2
        · rw [if_pos hc2, if_pos (by omega)]
        · rw [if_neg hc2, if_neg (by omega)]
      rw [hcnt]
      by_cases hc : p.1 ≤ y ∧ y < p.1 + p.2
      · rw [if_pos hc, if_pos hc, one_smul]
      · rw [if_neg hc, if_neg hc, zero_smul, zero_add]
    · rw [if_neg (show ¬ (⟨x, p.1, w, p.2, s₀⟩ : Rect).style = s from hs), if_neg hs, if_neg hs,
        zero_add]

/-- The vertical merge preserves per-style, per-row coverage of height-1
strips. -/
theorem rowCovList_vmerge (strips : List Rect) (h1 : ∀ st ∈ strips, st.h = 1) (s : Style)
    (y : ℤ) :
    rowCovList (vmerge strips) s y = rowCovList strips s y := by
  rw [← colsCov_buildCols strips h1 s y]
  unfold vmerge
  generalize buildCols strips = d
  induction d with
  | nil => rfl
  | cons g d ih =>
    rw [List.flatMap_cons, rowCovList_append, ih, rowCovList_groupChunk, colsCov_cons,
      runsOf_pySort_cov, Multiset.coe_count]

theorem mergedH_h_one (rows : Rows) : ∀ st ∈ mergedH rows, st.h = 1 := by
  intro st hst
  unfold mergedH at hst
  rcases List.mem_flatMap.mp hst with ⟨yb, _, h2⟩
  rcases List.mem_flatMap.mp h2 with ⟨sb, _, h4⟩
  by_cases he : sb.2 = []
  · rw [if_pos he] at h4
    exact absurd h4 (List.not_mem_nil st)
  · rw [if_neg he] at h4
    rcases List.mem_map.mp h4 with ⟨run, _, heq⟩
    rw [← heq]

/-- The whole pipeline preserves per-style, per-row pixel coverage, even
with multiplicity. -/
theorem rowCovList_buildRectList (rs : List Rect) (vm : Bool) (s : Style) (y : ℤ) :
    rowCovList (buildRectList rs vm) s y = rowCovList rs s y := by
  unfold buildRectList canonSort
  rw [rowCovList_perm (List.perm_insertionSort keyLe _)]
  cases vm with
  | false =>
    show rowCovList (mergedH (expandRows rs)) s y = _
    rw [rowCovList_mergedH, bucketCov_expandRows]
  | true =>
    show rowCovList (vmerge (mergedH (expandRows rs))) s y = _
    rw [rowCovList_vmerge _ (mergedH_h_one _), rowCovList_mergedH, bucketCov_expandRows]

theorem mem_rowCovList (l : List Rect) (s : Style) (x y : ℤ) :
    x ∈ rowCovList l s y ↔ ∃ r ∈ l, r.style = s ∧ inRect (x, y) r := by
  induction l with
  | nil =>
    rw [rowCovList_nil]
    constructor
    · intro h
      exact absurd h (Multiset.not_mem_zero x)
    · rintro ⟨r, hr, _⟩
      exact absurd hr (List.not_mem_nil r)
  | cons r l ih =>
    rw [rowCovList_cons, Multiset.mem_add]
    constructor
    · rintro (h1 | h2)
      · by_cases hs : r.style = s
        · rw [if_pos hs] at h1
          unfold rowCov at h1
          by_cases hy : r.y ≤ y ∧ y < r.y + r.h
          · rw [if_pos hy] at h1
            rw [Multiset.mem_coe, mem_intRange] at h1
            exact ⟨r, List.mem_cons_self r l, hs, h1.1, by omega, hy.1, hy.2⟩
          · rw [if_neg hy] at h1
            exact absurd h1 (Multiset.not_mem_zero x)
        · rw [if_neg hs] at h1
          exact absurd h1 (Multiset.not_mem_zero x)
      · rcases ih.mp h2 with ⟨r₁, hr₁, hs₁, hin⟩
        exact ⟨r₁, List.mem_cons_of_mem r hr₁, hs₁, hin⟩
    · rintro ⟨r₁, hr₁, hs₁, hin⟩
      rcases List.mem_cons.mp hr₁ with heq | hmem
      · left
        subst heq
        rw [if_pos hs₁]
        unfold rowCov
        obtain ⟨ha, hb, hc, hd⟩ := hin
        rw [if_pos ⟨hc, hd⟩, Multiset.mem_coe, mem_intRange]
        exact ⟨ha, by omega⟩
      · right
        exact ih.mpr ⟨r₁, hmem, hs₁, hin⟩

/-- C1: Pixel-coverage equivalence: for every input rectangle list, style,
and vertical-merge setting, the set of pixels covered by that style in the
pipeline output equals the set covered by it in the input. -/
theorem pixel_coverage_equiv (rs : List Rect) (vm : Bool) (s : Style) :
    coveredPix (buildRectList rs vm) s = coveredPix rs s := by
  ext p
  show (∃ r ∈ buildRectList rs vm, r.style = s ∧ inRect p r)
    ↔ (∃ r ∈ rs, r.style = s ∧ inRect p r)
  rw [← mem_rowCovList (buildRectList rs vm) s p.1 p.2, ← mem_rowCovList rs s p.1 p.2,
    rowCovList_buildRectList]

/-! ## Separation of merged runs (C2, C4)

When no pixel is covered twice by the same style, the buckets are
duplicate-free, the sweep emits strictly separated runs, and the output
rectangles of equal style neither overlap nor touch. -/

/-- Same-style rectangles share no pixel. -/
def PDisj (a b : Rect) : Prop :=
  a.style = b.style → ∀ p : ℤ × ℤ, ¬(inRect p a ∧ inRect p b)

theorem PDisj_symm : Symmetric PDisj := by
  intro a b h hs p hp
  exact h hs.symm p ⟨hp.2, hp.1⟩

/-- Separation of two runs: the first ends strictly before the second
starts, with at least one empty column between them. -/
def RunSep (a b : ℤ × ℤ) : Prop := a.1 + a.2 < b.1 ∧ 1 ≤ a.2 ∧ 1 ≤ b.2

theorem sweep_w_pos (l : List ℤ) (start prev : ℤ) (h : start ≤ prev) :
    ∀ r ∈ sweep start prev l, 1 ≤ r.2 := by
  induction l generalizing start prev with
  | nil =>
    intro r hr
    rcases List.mem_singleton.mp hr with rfl
    dsimp only
    omega
  | cons x xs ih =>
    intro r hr
    have hr2 : r ∈ (if x = prev + 1 then sweep start x xs
        else (start, prev - start + 1) :: sweep x x xs) := hr
    by_cases hx : x = prev + 1
    · rw [if_pos hx] at hr2
      exact ih start x (by omega) r hr2
    · rw [if_neg hx] at hr2
      rcases List.mem_cons.mp hr2 with rfl | hmem
      · dsimp only
        omega
      · exact ih x x le_rfl r hmem

/-- On a strictly increasing tail beyond `prev`, the sweep emits strictly
separated runs starting at or after `start`. -/
theorem sweep_sep (l : List ℤ) (start prev : ℤ) (h : start ≤ prev)
    (hl : List.Chain (· < ·) prev l) :
    List.Pairwise RunSep (sweep start prev l)
      ∧ ∀ r ∈ sweep start prev l, start ≤ r.1 := by
  induction l generalizing start prev with
  | nil =>
    constructor
    · exact List.pairwise_singleton _ _
    · intro r hr
      rcases List.mem_singleton.mp hr with rfl
      exact le_refl start
  | cons x xs ih =>
    rcases List.chain_cons.mp hl with ⟨hpx, hxs⟩
    show List.Pairwise RunSep (if x = prev + 1 then sweep start x xs
        else (start, prev - start + 1) :: sweep x x xs) ∧ _
    by_cases hx : x = prev + 1
    · rw [if_pos hx]
      have hres := ih start x (by omega) hxs
      constructor
      · exact hres.1
      · intro r hr
        have hr2 : r ∈ (if x = prev + 1 then sweep start x xs
            else (start, prev - start + 1) :: sweep x x xs) := hr
        rw [if_pos hx] at hr2
        exact hres.2 r hr2
    · rw [if_neg hx]
      have hres := ih x x le_rfl hxs
      have hsep : ∀ r ∈ sweep x x xs, RunSep (start, prev - start + 1) r := by
        intro r hr
        refine ⟨?_, by dsimp only; omega, sweep_w_pos xs x x le_rfl r hr⟩
        have := hres.2 r hr
        dsimp only
        omega
      constructor
      · exact List.pairwise_cons.mpr ⟨hsep, hres.1⟩
      · intro r hr
        have hr2 : r ∈ (if x = prev + 1 then sweep start x xs
            else (start, prev - start + 1) :: sweep x x xs) := hr
        rw [if_neg hx] at hr2
        rcases List.mem_cons.mp hr2 with rfl | hmem
        · exact le_refl start
        · exact le_trans (by omega) (hres.2 r hmem)

theorem runsOf_w_pos (l : List ℤ) : ∀ r ∈ runsOf l, 1 ≤ r.2 := by
  cases l with
  | nil => intro r hr; exact absurd hr (List.not_mem_nil r)
  | cons x xs => exact sweep_w_pos xs x x le_rfl

theorem runsOf_sep (l : List ℤ) (hl : List.Chain' (· < ·) l) :
    List.Pairwise RunSep (runsOf l) := by
  cases l with
  | nil => exact List.Pairwise.nil
  | cons x xs => exact (sweep_sep xs x x le_rfl hl).1

/-- Sorting a duplicate-free integer list yields a strictly increasing
chain. -/
theorem pySort_chain_lt (xs : List ℤ) (hnd : xs.Nodup) :
    List.Chain' (· < ·) (pySort xs) := by
  have hsorted : List.Sorted (· ≤ ·) (pySort xs) := List.sorted_insertionSort _ xs
  have hnd₂ : (pySort xs).Nodup := (pySort_perm xs).nodup_iff.mpr hnd
  exact List.chain'_iff_pairwise.mpr (hsorted.lt_of_le hnd₂)

/-! ### Buckets as lists -/

/-- The column list stored for `(y, s)` in the coverage map. -/
def getBucket (rows : Rows) (y : ℤ) (s : Style) : List ℤ := getD s [] (getD y [] rows)

theorem getA_updA_same {κ β : Type} [DecidableEq κ] (k : κ) (d : β) (f : β → β)
    (l : List (κ × β)) :
    getA k (updA k d f l) = some (f (getD k d l)) := by
  induction l with
  | nil =>
    show getA k [(k, f d)] = _
    unfold getA getD getA
    rw [if_pos rfl]
  | cons kv rest ih =>
    show getA k (if k = kv.1 then (kv.1, f kv.2) :: rest else kv :: updA k d f rest) = _
    by_cases hk : k = kv.1
    · rw [if_pos hk]
      show (if k = kv.1 then some (f kv.2) else getA k rest) = _
      rw [if_pos hk]
      unfold getD
      show _ = some (f (match getA k (kv :: rest) with | some v => v | none => d))
      show _ = some (f (match (if k = kv.1 then some kv.2 else getA k rest) with
        | some v => v | none => d))
      rw [if_pos hk]
    · rw [if_neg hk]
      show (if k = kv.1 then some kv.2 else getA k (updA k d f rest)) = _
      rw [if_neg hk, ih]
      unfold getD
      show _ = some (f (match (if k = kv.1 then some kv.2 else getA k rest) with
        | some v => v | none => d))
      rw [if_neg hk]

theorem getA_updA_ne {κ β : Type} [DecidableEq κ] (k k₁ : κ) (d : β) (f : β → β)
    (l : List (κ × β)) (h : k₁ ≠ k) :
    getA k₁ (updA k d f l) = getA k₁ l := by
  induction l with
  | nil =>
    show getA k₁ [(k, f d)] = none
    unfold getA
    rw [if_neg h]
    rfl
  | cons kv rest ih =>
    show getA k₁ (if k = kv.1 then (kv.1, f kv.2) :: rest else kv :: updA k d f rest) = _
    by_cases hk : k = kv.1
    · rw [if_pos hk]
      show (if k₁ = kv.1 then some (f kv.2) else getA k₁ rest) = _
      rw [if_neg (fun hc => h (hc.trans hk.symm)),
        show getA k₁ (kv :: rest) = if k₁ = kv.1 then some kv.2 else getA k₁ rest from rfl,
        if_neg (fun hc => h (hc.trans hk.symm))]
    · rw [if_neg hk]
      show (if k₁ = kv.1 then some kv.2 else getA k₁ (updA k d f rest)) = _
      rw [ih]
      rfl

theorem getD_updA_same {κ β : Type} [DecidableEq κ] (k : κ) (d : β) (f : β → β)
    (l : List (κ × β)) :
    getD k d (updA k d f l) = f (getD k d l) := by
  unfold getD
  rw [getA_updA_same]
  rfl

theorem getD_updA_ne {κ β : Type} [DecidableEq κ] (k k₁ : κ) (d d₁ : β) (f : β → β)
    (l : List (κ × β)) (h : k₁ ≠ k) :
    getD k₁ d₁ (updA k d f l) = getD k₁ d₁ l := by
  unfold getD
  rw [getA_updA_ne k k₁ d f l h]

theorem getBucket_expandRect (rows : Rows) (r : Rect) (y : ℤ) (s : Style) :
    getBucket (expandRect rows r) y s
      = getBucket rows y s
        ++ (if r.style = s ∧ r.y ≤ y ∧ y < r.y + r.h
            then intRange r.x r.w.toNat else []) := by
  unfold expandRect
  have key : ∀ (L : List ℤ), L.Nodup → ∀ (rows₀ : Rows),
      getBucket (L.foldl (fun acc yy =>
          updA yy [] (fun smap =>
            updA r.style [] (fun xs => xs ++ intRange r.x r.w.toNat) smap) acc) rows₀) y s
        = getBucket rows₀ y s
          ++ (if y ∈ L ∧ r.style = s then intRange r.x r.w.toNat else []) := by
    intro L
    induction L with
    | nil =>
      intro _ rows₀
      rw [List.foldl_nil, if_neg (fun h => (List.not_mem_nil y) h.1), List.append_nil]
    | cons yy L ih =>
      intro hnd rows₀
      have hnin : yy ∉ L := (List.nodup_cons.mp hnd).1
      rw [List.foldl_cons, ih (List.Nodup.of_cons hnd) _]
      have hstep : getBucket (updA yy []
          (fun smap => updA r.style [] (fun xs => xs ++ intRange r.x r.w.toNat) smap) rows₀) y s
          = getBucket rows₀ y s ++ (if yy = y ∧ r.style = s then intRange r.x r.w.toNat else []) := by
        unfold getBucket
        by_cases hy : yy = y
        · subst hy
          rw [getD_updA_same]
          by_cases hs : r.style = s
          · subst hs
            rw [getD_updA_same, if_pos ⟨rfl, rfl⟩]
          · rw [getD_updA_ne r.style s [] [] _ _ (fun hc => hs hc.symm),
              if_neg (fun h => hs h.2), List.append_nil]
        · rw [getD_updA_ne yy y [] [] _ _ (fun hc => hy hc.symm),
            if_neg (fun h => hy h.1), List.append_nil]
      rw [hstep]
      by_cases hy : yy = y
      · subst hy
        by_cases hs : r.style = s
        · rw [if_pos ⟨rfl, hs⟩, if_neg (fun h => hnin h.1),
            if_pos ⟨List.mem_cons_self yy L, hs⟩, List.append_nil]
        · rw [if_neg (fun h => hs h.2), if_neg (fun h => hs h.2), if_neg (fun h => hs h.2),
            List.append_nil, List.append_nil]
      · rw [if_neg (fun h => hy h.1), List.append_nil]
        by_cases hyL : y ∈ L ∧ r.style = s
        · rw [if_pos hyL, if_pos ⟨List.mem_cons_of_mem yy hyL.1, hyL.2⟩]
        · rw [if_neg hyL,
            if_neg (fun h => hyL ⟨(List.mem_cons.mp h.1).resolve_left (fun hc => hy hc.symm), h.2⟩)]
  rw [key _ (intRange_nodup r.y r.h.toNat) rows]
  have hiff : (y ∈ intRange r.y r.h.toNat) ↔ (r.y ≤ y ∧ y < r.y + r.h) := by
    rw [mem_intRange]
    omega
  by_cases hc : r.style = s ∧ r.y ≤ y ∧ y < r.y + r.h
  · rw [if_pos ⟨hiff.mpr hc.2, hc.1⟩, if_pos hc]
  · rw [if_neg (fun h => hc ⟨h.2, hiff.mp h.1⟩), if_neg hc]

theorem getBucket_expandRows (rs : List Rect) (y : ℤ) (s : Style) :
    getBucket (expandRows rs) y s
      = rs.flatMap (fun r => if r.style = s ∧ r.y ≤ y ∧ y < r.y + r.h
          then intRange r.x r.w.toNat else []) := by
  have key : ∀ (l : List Rect) (rows₀ : Rows),
      getBucket (l.foldl expandRect rows₀) y s
        = getBucket rows₀ y s
          ++ l.flatMap (fun r => if r.style = s ∧ r.y ≤ y ∧ y < r.y + r.h
              then intRange r.x r.w.toNat else []) := by
    intro l
    induction l with
    | nil =>
      intro rows₀
      rw [List.foldl_nil, List.flatMap_nil, List.append_nil]
    | cons r l ih =>
      intro rows₀
      rw [List.foldl_cons, ih, getBucket_expandRect, List.flatMap_cons, List.append_assoc]
  show getBucket (rs.foldl expandRect []) y s = _
  rw [key, show getBucket [] y s = [] from rfl, List.nil_append]

/-- With pairwise pixel-disjoint same-style input rectangles, every bucket
is duplicate-free. -/
theorem getBucket_nodup (rs : List Rect) (hdisj : List.Pairwise PDisj rs) (y : ℤ) (s : Style) :
    (getBucket (expandRows rs) y s).Nodup := by
  rw [getBucket_expandRows]
  rw [List.nodup_flatMap]
  constructor
  · intro r _
    by_cases hc : r.style = s ∧ r.y ≤ y ∧ y < r.y + r.h
    · rw [if_pos hc]; exact intRange_nodup r.x r.w.toNat
    · rw [if_neg hc]; exact List.nodup_nil
  · refine hdisj.imp ?_
    intro a b hab
    intro z hza₀ hzb₀
    have hza : z ∈ (if a.style = s ∧ a.y ≤ y ∧ y < a.y + a.h
        then intRange a.x a.w.toNat else []) := hza₀
    have hzb : z ∈ (if b.style = s ∧ b.y ≤ y ∧ y < b.y + b.h
        then intRange b.x b.w.toNat else []) := hzb₀
    by_cases hca : a.style = s ∧ a.y ≤ y ∧ y < a.y + a.h
    · rw [if_pos hca] at hza
      by_cases hcb : b.style = s ∧ b.y ≤ y ∧ y < b.y + b.h
      · rw [if_pos hcb] at hzb
        rw [mem_intRange] at hza hzb
        refine hab (hca.1.trans hcb.1.symm) (z, y) ⟨?_, ?_⟩
        · exact ⟨hza.1, by omega, hca.2.1, hca.2.2⟩
        · exact ⟨hzb.1, by omega, hcb.2.1, hcb.2.2⟩
      · rw [if_neg hcb] at hzb
        exact absurd hzb (List.not_mem_nil z)
    · rw [if_neg hca] at hza
      exact absurd hza (List.not_mem_nil z)

/-! ### Key uniqueness invariants of the coverage map -/

/-- The keys of an association list are distinct (true of every Python
dict). -/
def KeysND {κ β : Type} (l : List (κ × β)) : Prop := (l.map Prod.fst).Nodup

theorem keys_updA {κ β : Type} [DecidableEq κ] (k : κ) (d : β) (f : β → β) (l : List (κ × β)) :
    ∀ k₁ ∈ (updA k d f l).map Prod.fst, k₁ ∈ l.map Prod.fst ∨ k₁ = k := by
  induction l with
  | nil =>
    intro k₁ h
    rcases List.mem_singleton.mp h with rfl
    exact Or.inr rfl
  | cons kv rest ih =>
    intro k₁ h
    have h2 : k₁ ∈ (if k = kv.1 then (kv.1, f kv.2) :: rest
        else kv :: updA k d f rest).map Prod.fst := h
    by_cases hk : k = kv.1
    · rw [if_pos hk] at h2
      rcases List.mem_cons.mp h2 with heq | hmem
      · exact Or.inl (List.mem_cons.mpr (Or.inl heq))
      · exact Or.inl (List.mem_cons.mpr (Or.inr hmem))
    · rw [if_neg hk] at h2
      rcases List.mem_cons.mp h2 with heq | hmem
      · exact Or.inl (List.mem_cons.mpr (Or.inl heq))
      · rcases ih k₁ hmem with hin | heq
        · exact Or.inl (List.mem_cons.mpr (Or.inr hin))
        · exact Or.inr heq

theorem keysND_updA {κ β : Type} [DecidableEq κ] (k : κ) (d : β) (f : β → β)
    (l : List (κ × β)) (h : KeysND l) : KeysND (updA k d f l) := by
  induction l with
  | nil => exact List.nodup_singleton k
  | cons kv rest ih =>
    show KeysND (if k = kv.1 then (kv.1, f kv.2) :: rest else kv :: updA k d f rest)
    rcases List.nodup_cons.mp h with ⟨hk1, hrest⟩
    by_cases hk : k = kv.1
    · rw [if_pos hk]
      exact List.nodup_cons.mpr ⟨hk1, hrest⟩
    · rw [if_neg hk]
      refine List.nodup_cons.mpr ⟨?_, ih hrest⟩
      intro hmem
      rcases keys_updA k d f rest kv.1 hmem with hin | heq
      · exact hk1 hin
      · exact hk heq.symm

theorem mem_updA {κ β : Type} [DecidableEq κ] (k : κ) (d : β) (f : β → β) (l : List (κ × β)) :
    ∀ e ∈ updA k d f l, e ∈ l ∨ e = (k, f (getD k d l)) := by
  induction l with
  | nil =>
    intro e h
    rcases List.mem_singleton.mp h with rfl
    exact Or.inr rfl
  | cons kv rest ih =>
    intro e h
    have h2 : e ∈ (if k = kv.1 then (kv.1, f kv.2) :: rest else kv :: updA k d f rest) := h
    by_cases hk : k = kv.1
    · rw [if_pos hk] at h2
      rcases List.mem_cons.mp h2 with heq | hmem
      · refine Or.inr ?_
        rw [heq]
        have hget : getD k d (kv :: rest) = kv.2 := by
          unfold getD
          show (match (if k = kv.1 then some kv.2 else getA k rest) with
            | some v => v | none => d) = kv.2
          rw [if_pos hk]
        rw [hget, hk]
      · exact Or.inl (List.mem_cons.mpr (Or.inr hmem))
    · rw [if_neg hk] at h2
      rcases List.mem_cons.mp h2 with heq | hmem
      · exact Or.inl (List.mem_cons.mpr (Or.inl heq))
      · rcases ih e hmem with hin | heq
        · exact Or.inl (List.mem_cons.mpr (Or.inr hin))
        · refine Or.inr ?_
          rw [heq]
          have hget : getD k d (kv :: rest) = getD k d rest := by
            unfold getD
            show (match (if k = kv.1 then some kv.2 else getA k rest) with
              | some v => v | none => d) = _
            rw [if_neg hk]
          rw [hget]

theorem getD_mem_or_default {κ β : Type} [DecidableEq κ] (k : κ) (d : β) (l : List (κ × β)) :
    getD k d l = d ∨ (k, getD k d l) ∈ l := by
  induction l with
  | nil => exact Or.inl rfl
  | cons kv rest ih =>
    have hget : getD k d (kv :: rest)
        = if k = kv.1 then kv.2 else getD k d rest := by
      unfold getD
      show (match (if k = kv.1 then some kv.2 else getA k rest) with
        | some v => v | none => d) = _
      by_cases hk : k = kv.1
      · rw [if_pos hk, if_pos hk]
      · rw [if_neg hk, if_neg hk]
    rw [hget]
    by_cases hk : k = kv.1
    · rw [if_pos hk]
      refine Or.inr (List.mem_cons.mpr (Or.inl ?_))
      rw [hk]
    · rw [if_neg hk]
      rcases ih with hd | hmem
      · exact Or.inl hd
      · exact Or.inr (List.mem_cons.mpr (Or.inr hmem))

theorem getA_of_mem {κ β : Type} [DecidableEq κ] {l : List (κ × β)} (h : KeysND l)
    {kv : κ × β} (hm : kv ∈ l) : getA kv.1 l = some kv.2 := by
  induction l with
  | nil => exact absurd hm (List.not_mem_nil kv)
  | cons hd rest ih =>
    rcases List.nodup_cons.mp h with ⟨hk1, hrest⟩
    rcases List.mem_cons.mp hm with heq | hmem
    · subst heq
      show (if kv.1 = kv.1 then some kv.2 else getA kv.1 rest) = some kv.2
      rw [if_pos rfl]
    · show (if kv.1 = hd.1 then some hd.2 else getA kv.1 rest) = some kv.2
      by_cases hk : kv.1 = hd.1
      · exfalso
        apply hk1
        rw [← hk]
        exact List.mem_map.mpr ⟨kv, hmem, rfl⟩
      · rw [if_neg hk]
        exact ih hrest hmem

/-- Both nesting levels of the coverage map have unique keys. -/
theorem expandRows_keysND (rs : List Rect) :
    KeysND (expandRows rs) ∧ ∀ yb ∈ expandRows rs, KeysND yb.2 := by
  have step : ∀ (rows : Rows) (r : Rect),
      KeysND rows → (∀ yb ∈ rows, KeysND yb.2) →
      KeysND (expandRect rows r) ∧ ∀ yb ∈ expandRect rows r, KeysND yb.2 := by
    intro rows r
    unfold expandRect
    generalize intRange r.y r.h.toNat = L
    induction L generalizing rows with
    | nil =>
      intro h1 h2
      exact ⟨h1, h2⟩
    | cons yy L ih =>
      intro h1 h2
      rw [List.foldl_cons]
      apply ih
      · exact keysND_updA yy [] _ rows h1
      · intro yb hyb
        rcases mem_updA yy [] _ rows yb hyb with hin | heq
        · exact h2 yb hin
        · rw [heq]
          apply keysND_updA
          rcases getD_mem_or_default yy ([] : List (Style × List ℤ)) rows with hd | hmem
          · rw [hd]
            exact List.nodup_nil
          · exact h2 _ hmem
  have key : ∀ (l : List Rect) (rows₀ : Rows),
      KeysND rows₀ → (∀ yb ∈ rows₀, KeysND yb.2) →
      KeysND (l.foldl expandRect rows₀) ∧ ∀ yb ∈ l.foldl expandRect rows₀, KeysND yb.2 := by
    intro l
    induction l with
    | nil =>
      intro rows₀ h1 h2
      exact ⟨h1, h2⟩
    | cons r l ih =>
      intro rows₀ h1 h2
      rw [List.foldl_cons]
      obtain ⟨h3, h4⟩ := step rows₀ r h1 h2
      exact ih _ h3 h4
  exact key rs [] (List.nodup_nil) (fun yb h => absurd h (List.not_mem_nil yb))

/-- Every strip of the horizontal merge is a run of the sorted bucket of
its own row and style. -/
theorem mem_mergedH_run (rows : Rows) (hkr : KeysND rows)
    (hks : ∀ yb ∈ rows, KeysND yb.2) (st : Rect) (hst : st ∈ mergedH rows) :
    (st.x, st.w) ∈ runsOf (pySort (getBucket rows st.y st.style)) ∧ st.h = 1 := by
  unfold mergedH at hst
  rcases List.mem_flatMap.mp hst with ⟨yb, hyb, h2⟩
  rcases List.mem_flatMap.mp h2 with ⟨sb, hsb, h4⟩
  by_cases he : sb.2 = []
  · rw [if_pos he] at h4
    exact absurd h4 (List.not_mem_nil st)
  · rw [if_neg he] at h4
    rcases List.mem_map.mp h4 with ⟨run, hrun, heq⟩
    subst heq
    refine ⟨?_, rfl⟩
    have h5 : getD yb.1 ([] : List (Style × List ℤ)) rows = yb.2 := by
      unfold getD
      rw [getA_of_mem hkr hyb]
    have h6 : getD sb.1 ([] : List ℤ) yb.2 = sb.2 := by
      unfold getD
      rw [getA_of_mem (hks yb hyb) hsb]
    show run ∈ runsOf (pySort (getBucket rows yb.1 sb.1))
    unfold getBucket
    rw [h5, h6]
    exact hrun

/-- Strict horizontal separation of same-style strips in the same row. -/
def HSepStrip (a b : Rect) : Prop :=
  a.style = b.style → a.y = b.y → (a.x + a.w < b.x ∨ b.x + b.w < a.x)

theorem HSepStrip_symm : Symmetric HSepStrip := by
  intro a b h hs hy
  rcases h hs.symm hy.symm with h1 | h1
  · exact Or.inr h1
  · exact Or.inl h1

theorem mergedH_w_pos (rows : Rows) : ∀ st ∈ mergedH rows, 1 ≤ st.w := by
  intro st hst
  unfold mergedH at hst
  rcases List.mem_flatMap.mp hst with ⟨yb, _, h2⟩
  rcases List.mem_flatMap.mp h2 with ⟨sb, _, h4⟩
  by_cases he : sb.2 = []
  · rw [if_pos he] at h4
    exact absurd h4 (List.not_mem_nil st)
  · rw [if_neg he] at h4
    rcases List.mem_map.mp h4 with ⟨run, hrun, heq⟩
    subst heq
    exact runsOf_w_pos _ run hrun

theorem mem_styleChunk {y₀ : ℤ} {sb : Style × List ℤ} {st : Rect}
    (h : st ∈ (if sb.2 = [] then []
      else (runsOf (pySort sb.2)).map (fun run => (⟨run.1, y₀, run.2, 1, sb.1⟩ : Rect)))) :
    st.style = sb.1 ∧ st.y = y₀ := by
  by_cases he : sb.2 = []
  · rw [if_pos he] at h
    exact absurd h (List.not_mem_nil st)
  · rw [if_neg he] at h
    rcases List.mem_map.mp h with ⟨run, _, heq⟩
    subst heq
    exact ⟨rfl, rfl⟩

/-- Under pairwise same-style disjointness of the input, the horizontal
merge output is duplicate-free and the strips of equal style and row are
strictly separated. -/
theorem mergedH_sep (rs : List Rect) (hdisj : List.Pairwise PDisj rs) :
    (mergedH (expandRows rs)).Nodup
      ∧ List.Pairwise HSepStrip (mergedH (expandRows rs)) := by
  obtain ⟨hkr, hks⟩ := expandRows_keysND rs
  have hbucket : ∀ (y : ℤ) (s : Style), (getBucket (expandRows rs) y s).Nodup :=
    fun y s => getBucket_nodup rs hdisj y s
  have hbmem : ∀ yb ∈ expandRows rs, ∀ sb ∈ yb.2, sb.2 = getBucket (expandRows rs) yb.1 sb.1 := by
    intro yb hyb sb hsb
    unfold getBucket
    have h5 : getD yb.1 ([] : List (Style × List ℤ)) (expandRows rs) = yb.2 := by
      unfold getD
      rw [getA_of_mem hkr hyb]
    have h6 : getD sb.1 ([] : List ℤ) yb.2 = sb.2 := by
      unfold getD
      rw [getA_of_mem (hks yb hyb) hsb]
    rw [h5, h6]
  have hnd : (mergedH (expandRows rs)).Nodup := by
    unfold mergedH
    rw [List.nodup_flatMap]
    constructor
    · intro yb hyb
      rw [List.nodup_flatMap]
      constructor
      · intro sb hsb
        by_cases he : sb.2 = []
        · rw [if_pos he]
          exact List.nodup_nil
        · rw [if_neg he]
          have hruns : List.Pairwise RunSep (runsOf (pySort sb.2)) := by
            apply runsOf_sep
            apply pySort_chain_lt
            rw [hbmem yb hyb sb hsb]
            exact hbucket yb.1 sb.1
          have hrnd : (runsOf (pySort sb.2)).Nodup :=
            hruns.imp (fun hsep => by
              intro heq
              rw [heq] at hsep
              obtain ⟨h1, h2, h3⟩ := hsep
              omega)
          refine List.Nodup.map ?_ hrnd
          intro r1 r2 h
          have h1 : r1.1 = r2.1 := congrArg Rect.x h
          have h2 : r1.2 = r2.2 := congrArg Rect.w h
          exact Prod.ext h1 h2
      · have hkeys : List.Pairwise (fun sb1 sb2 : Style × List ℤ => sb1.1 ≠ sb2.1) yb.2 :=
          List.pairwise_map.mp (hks yb hyb)
        refine hkeys.imp ?_
        intro sb1 sb2 hne st h1 h2
        exact hne ((mem_styleChunk h1).1.symm.trans (mem_styleChunk h2).1)
    · have hkeys : List.Pairwise (fun yb1 yb2 : ℤ × List (Style × List ℤ) => yb1.1 ≠ yb2.1)
          (expandRows rs) := List.pairwise_map.mp hkr
      refine hkeys.imp ?_
      intro yb1 yb2 hne st h1 h2
      rcases List.mem_flatMap.mp h1 with ⟨sb1, _, hc1⟩
      rcases List.mem_flatMap.mp h2 with ⟨sb2, _, hc2⟩
      exact hne ((mem_styleChunk hc1).2.symm.trans (mem_styleChunk hc2).2)
  refine ⟨hnd, ?_⟩
  apply hnd.pairwise_of_forall_ne
  intro a ha b hb hne
  intro hstyle hy
  obtain ⟨hra, hha⟩ := mem_mergedH_run _ hkr hks a ha
  obtain ⟨hrb, hhb⟩ := mem_mergedH_run _ hkr hks b hb
  rw [hstyle, hy] at hra
  have hchain : List.Chain' (· < ·) (pySort (getBucket (expandRows rs) b.y b.style)) :=
    pySort_chain_lt _ (hbucket b.y b.style)
  have hruns : List.Pairwise (fun r1 r2 => RunSep r1 r2 ∨ RunSep r2 r1)
      (runsOf (pySort (getBucket (expandRows rs) b.y b.style))) :=
    (runsOf_sep _ hchain).imp Or.inl
  have hrne : (a.x, a.w) ≠ (b.x, b.w) := by
    intro heq
    apply hne
    have hx : a.x = b.x := congrArg Prod.fst heq
    have hw : a.w = b.w := congrArg Prod.snd heq
    cases a
    cases b
    simp only at hx hw hy hstyle hha hhb
    simp [hx, hw, hy, hstyle, hha, hhb]
  have := hruns.forall (fun r1 r2 h => h.symm) hra hrb hrne
  rcases this with ⟨h1, _, _⟩ | ⟨h1, _, _⟩
  · exact Or.inl h1
  · exact Or.inr h1

/-! ### Vertical merge structure -/

theorem getD_buildCols (strips : List Rect) (k : ℤ × ℤ × Style) :
    getD k [] (buildCols strips)
      = (strips.filter (fun st => decide ((st.x, st.w, st.style) = k))).map Rect.y := by
  have key : ∀ (l : List Rect) (d₀ : List ((ℤ × ℤ × Style) × List ℤ)),
      getD k [] (l.foldl (fun d st => updA (st.x, st.w, st.style) [] (fun ys => ys ++ [st.y]) d) d₀)
        = getD k [] d₀ ++ (l.filter (fun st => decide ((st.x, st.w, st.style) = k))).map Rect.y := by
    intro l
    induction l with
    | nil =>
      intro d₀
      rw [List.foldl_nil, List.filter_nil, List.map_nil, List.append_nil]
    | cons st l ih =>
      intro d₀
      rw [List.foldl_cons, ih, List.filter_cons]
      by_cases hk : (st.x, st.w, st.style) = k
      · rw [if_pos (decide_eq_true hk)]
        have hstep : getD k [] (updA (st.x, st.w, st.style) [] (fun ys => ys ++ [st.y]) d₀)
            = getD k [] d₀ ++ [st.y] := by
          rw [← hk, getD_updA_same]
        rw [hstep, List.map_cons, List.append_assoc]
        rfl
      · rw [if_neg (by simpa using hk)]
        have hstep : getD k [] (updA (st.x, st.w, st.style) [] (fun ys => ys ++ [st.y]) d₀)
            = getD k [] d₀ :=
          getD_updA_ne _ _ _ _ _ _ (fun hc => hk hc.symm)
        rw [hstep]
  show getD k [] (strips.foldl _ []) = _
  rw [key, show getD k ([] : List ℤ) [] = [] from rfl, List.nil_append]

theorem buildCols_keysND (strips : List Rect) : KeysND (buildCols strips) := by
  have key : ∀ (l : List Rect) (d₀ : List ((ℤ × ℤ × Style) × List ℤ)), KeysND d₀ →
      KeysND (l.foldl (fun d st => updA (st.x, st.w, st.style) [] (fun ys => ys ++ [st.y]) d) d₀) := by
    intro l
    induction l with
    | nil => intro d₀ h; exact h
    | cons st l ih =>
      intro d₀ h
      rw [List.foldl_cons]
      exact ih _ (keysND_updA _ _ _ _ h)
  exact key strips [] List.nodup_nil

theorem mem_runsCov (runs : List (ℤ × ℤ)) (z : ℤ) :
    z ∈ runsCov runs ↔ ∃ run ∈ runs, z ∈ intRange run.1 run.2.toNat := by
  induction runs with
  | nil =>
    constructor
    · intro h
      exact absurd h (Multiset.not_mem_zero z)
    · rintro ⟨run, hr, _⟩
      exact absurd hr (List.not_mem_nil run)
  | cons p runs ih =>
    have hcov : runsCov (p :: runs) = (intRange p.1 p.2.toNat : Multiset ℤ) + runsCov runs := by
      unfold runsCov
      rw [List.map_cons, List.sum_cons]
    rw [hcov, Multiset.mem_add]
    constructor
    · rintro (h1 | h2)
      · exact ⟨p, List.mem_cons_self p runs, Multiset.mem_coe.mp h1⟩
      · rcases ih.mp h2 with ⟨run, hr, hz⟩
        exact ⟨run, List.mem_cons_of_mem p hr, hz⟩
    · rintro ⟨run, hr, hz⟩
      rcases List.mem_cons.mp hr with rfl | hmem
      · exact Or.inl (Multiset.mem_coe.mpr hz)
      · exact Or.inr (ih.mpr ⟨run, hmem, hz⟩)

theorem mem_of_run_row (l : List ℤ) (run : ℤ × ℤ) (hrun : run ∈ runsOf l) (row : ℤ)
    (hrow : run.1 ≤ row ∧ row < run.1 + run.2) : row ∈ l := by
  have h1 : row ∈ runsCov (runsOf l) := by
    refine (mem_runsCov _ _).mpr ⟨run, hrun, ?_⟩
    rw [mem_intRange]
    omega
  rw [runsOf_cov] at h1
  exact Multiset.mem_coe.mp h1

theorem mem_vmerge_run (strips : List Rect) (r : Rect) (hr : r ∈ vmerge strips) :
    (r.y, r.h) ∈ runsOf (pySort (getD (r.x, r.w, r.style) [] (buildCols strips))) := by
  unfold vmerge at hr
  rcases List.mem_flatMap.mp hr with ⟨g, hg, h2⟩
  rcases List.mem_map.mp h2 with ⟨run, hrun, heq⟩
  subst heq
  have hget : getA g.1 (buildCols strips) = some g.2 :=
    getA_of_mem (buildCols_keysND strips) hg
  have hgd : getD g.1 [] (buildCols strips) = g.2 := by
    unfold getD
    rw [hget]
  show run ∈ runsOf (pySort (getD g.1 [] (buildCols strips)))
  rw [hgd]
  exact hrun

theorem vmerge_h_pos (strips : List Rect) : ∀ r ∈ vmerge strips, 1 ≤ r.h := by
  intro r hr
  unfold vmerge at hr
  rcases List.mem_flatMap.mp hr with ⟨g, _, h2⟩
  rcases List.mem_map.mp h2 with ⟨run, hrun, heq⟩
  subst heq
  exact runsOf_w_pos _ run hrun

/-- Every row covered by a vertically merged rectangle carries the
corresponding height-1 strip in the input strip list. -/
theorem vmerge_covers_strip (strips : List Rect) (h1 : ∀ st ∈ strips, st.h = 1)
    (r : Rect) (hr : r ∈ vmerge strips) (row : ℤ) (hrow : r.y ≤ row ∧ row < r.y + r.h) :
    (⟨r.x, row, r.w, 1, r.style⟩ : Rect) ∈ strips := by
  have hrun := mem_vmerge_run strips r hr
  have hmem : row ∈ pySort (getD (r.x, r.w, r.style) [] (buildCols strips)) :=
    mem_of_run_row _ _ hrun row hrow
  have hmem₂ : row ∈ getD (r.x, r.w, r.style) [] (buildCols strips) :=
    (pySort_perm _).mem_iff.mp hmem
  rw [getD_buildCols] at hmem₂
  rcases List.mem_map.mp hmem₂ with ⟨st, hst, hy⟩
  obtain ⟨hst₂, hpred⟩ := List.mem_filter.mp hst
  have hkey : (st.x, st.w, st.style) = (r.x, r.w, r.style) := of_decide_eq_true hpred
  have hx : st.x = r.x := congrArg Prod.fst hkey
  have hws : (st.w, st.style) = (r.w, r.style) := congrArg Prod.snd hkey
  have hw : st.w = r.w := congrArg Prod.fst hws
  have hs : st.style = r.style := congrArg Prod.snd hws
  have hh : st.h = 1 := h1 st hst₂
  have heq : st = (⟨r.x, row, r.w, 1, r.style⟩ : Rect) := by
    cases st
    simp only at hx hw hs hh hy
    simp [hx, hw, hs, hh, hy]
  rw [← heq]
  exact hst₂

theorem buildCols_ys_nodup (strips : List Rect) (hnd : strips.Nodup)
    (h1 : ∀ st ∈ strips, st.h = 1) (k : ℤ × ℤ × Style) :
    (getD k [] (buildCols strips)).Nodup := by
  rw [getD_buildCols]
  refine List.Nodup.map_on ?_ (hnd.filter _)
  intro s1 hs1 s2 hs2 hyeq
  obtain ⟨hm1, hp1⟩ := List.mem_filter.mp hs1
  obtain ⟨hm2, hp2⟩ := List.mem_filter.mp hs2
  have hk1 : (s1.x, s1.w, s1.style) = k := of_decide_eq_true hp1
  have hk2 : (s2.x, s2.w, s2.style) = k := of_decide_eq_true hp2
  have hkk := hk1.trans hk2.symm
  have hx : s1.x = s2.x := congrArg Prod.fst hkk
  have hws : (s1.w, s1.style) = (s2.w, s2.style) := congrArg Prod.snd hkk
  have hw : s1.w = s2.w := congrArg Prod.fst hws
  have hs : s1.style = s2.style := congrArg Prod.snd hws
  have hh1 : s1.h = 1 := h1 s1 hm1
  have hh2 : s2.h = 1 := h1 s2 hm2
  cases s1
  cases s2
  simp only at hx hw hs hh1 hh2 hyeq
  simp [hx, hw, hs, hh1, hh2, hyeq]

theorem mem_groupChunk {g : (ℤ × ℤ × Style) × List ℤ} {r : Rect}
    (h : r ∈ (runsOf (pySort g.2)).map
      (fun run => (⟨g.1.1, run.1, g.1.2.1, run.2, g.1.2.2⟩ : Rect))) :
    (r.x, r.w, r.style) = g.1 := by
  rcases List.mem_map.mp h with ⟨run, _, heq⟩
  subst heq
  rfl

theorem vmerge_nodup (strips : List Rect) (hnd : strips.Nodup)
    (h1 : ∀ st ∈ strips, st.h = 1) : (vmerge strips).Nodup := by
  unfold vmerge
  rw [List.nodup_flatMap]
  constructor
  · intro g hg
    have hgd : getD g.1 [] (buildCols strips) = g.2 := by
      unfold getD
      rw [getA_of_mem (buildCols_keysND strips) hg]
    have hys : g.2.Nodup := by
      rw [← hgd]
      exact buildCols_ys_nodup strips hnd h1 g.1
    have hruns : List.Pairwise RunSep (runsOf (pySort g.2)) :=
      runsOf_sep _ (pySort_chain_lt _ hys)
    have hrnd : (runsOf (pySort g.2)).Nodup :=
      hruns.imp (fun hsep => by
        intro heq
        rw [heq] at hsep
        obtain ⟨hs1, hs2, hs3⟩ := hsep
        omega)
    refine List.Nodup.map ?_ hrnd
    intro r1 r2 h
    have hy : r1.1 = r2.1 := congrArg Rect.y h
    have hh : r1.2 = r2.2 := congrArg Rect.h h
    exact Prod.ext hy hh
  · have hkeys : List.Pairwise
        (fun g1 g2 : (ℤ × ℤ × Style) × List ℤ => g1.1 ≠ g2.1) (buildCols strips) :=
      List.pairwise_map.mp (buildCols_keysND strips)
    refine hkeys.imp ?_
    intro g1 g2 hne r hr1 hr2
    exact hne ((mem_groupChunk hr1).symm.trans (mem_groupChunk hr2))

/-- Horizontal adjacency of equal-height rectangles in the same rows. -/
def hAdj (a b : Rect) : Prop :=
  a.y = b.y ∧ a.h = b.h ∧ (a.x + a.w = b.x ∨ b.x + b.w = a.x)

/-- Vertical adjacency of equal-width rectangles in the same columns. -/
def vAdj (a b : Rect) : Prop :=
  a.x = b.x ∧ a.w = b.w ∧ (a.y + a.h = b.y ∨ b.y + b.h = a.y)

theorem hAdj_symm : Symmetric hAdj := by
  intro a b ⟨h1, h2, h3⟩
  exact ⟨h1.symm, h2.symm, h3.symm⟩

theorem vAdj_symm : Symmetric vAdj := by
  intro a b ⟨h1, h2, h3⟩
  exact ⟨h1.symm, h2.symm, h3.symm⟩

/-- Vertically merging duplicate-free, horizontally separated, height-1,
positive-width strips yields rectangles of equal style that neither share a
pixel nor touch horizontally or vertically. -/
theorem vmerge_good (strips : List Rect) (hnd : strips.Nodup)
    (hsep : List.Pairwise HSepStrip strips) (h1 : ∀ st ∈ strips, st.h = 1)
    (hw : ∀ st ∈ strips, 1 ≤ st.w) :
    List.Pairwise (fun a b => a.style = b.style →
      (∀ p : ℤ × ℤ, ¬(inRect p a ∧ inRect p b)) ∧ ¬ hAdj a b ∧ ¬ vAdj a b) (vmerge strips) := by
  apply (vmerge_nodup strips hnd h1).pairwise_of_forall_ne
  intro a ha b hb hne hstyle
  have hha := vmerge_h_pos strips a ha
  have hhb := vmerge_h_pos strips b hb
  have hsa0 : (⟨a.x, a.y, a.w, 1, a.style⟩ : Rect) ∈ strips :=
    vmerge_covers_strip strips h1 a ha a.y ⟨le_refl _, by omega⟩
  have hsb0 : (⟨b.x, b.y, b.w, 1, b.style⟩ : Rect) ∈ strips :=
    vmerge_covers_strip strips h1 b hb b.y ⟨le_refl _, by omega⟩
  have hwa : 1 ≤ a.w := hw ⟨a.x, a.y, a.w, 1, a.style⟩ hsa0
  have hwb : 1 ≤ b.w := hw ⟨b.x, b.y, b.w, 1, b.style⟩ hsb0
  by_cases hkey : (a.x, a.w) = (b.x, b.w)
  · have hx : a.x = b.x := congrArg Prod.fst hkey
    have hww : a.w = b.w := congrArg Prod.snd hkey
    have hra := mem_vmerge_run strips a ha
    have hrb := mem_vmerge_run strips b hb
    rw [hstyle, hx, hww] at hra
    have hysnd := buildCols_ys_nodup strips hnd h1 (b.x, b.w, b.style)
    have hruns : List.Pairwise (fun r1 r2 => RunSep r1 r2 ∨ RunSep r2 r1)
        (runsOf (pySort (getD (b.x, b.w, b.style) [] (buildCols strips)))) :=
      (runsOf_sep _ (pySort_chain_lt _ hysnd)).imp Or.inl
    have hrne : (a.y, a.h) ≠ (b.y, b.h) := by
      intro heq
      apply hne
      have hy : a.y = b.y := congrArg Prod.fst heq
      have hh : a.h = b.h := congrArg Prod.snd heq
      cases a
      cases b
      simp only at hx hww hy hh hstyle
      simp [hx, hww, hy, hh, hstyle]
    have hsep2 := hruns.forall (fun r1 r2 h => h.symm) hra hrb hrne
    refine ⟨?_, ?_, ?_⟩
    · intro p hp
      obtain ⟨⟨_, _, hy1, hy2⟩, _, _, hy3, hy4⟩ := hp
      rcases hsep2 with ⟨h5, h6, h7⟩ | ⟨h5, h6, h7⟩ <;>
        (simp only at h5 h6 h7; omega)
    · rintro ⟨_, _, hadj⟩
      rcases hadj with h6 | h6 <;> omega
    · rintro ⟨_, _, hadj⟩
      rcases hsep2 with ⟨h5, _, _⟩ | ⟨h5, _, _⟩ <;> rcases hadj with h6 | h6 <;>
        (simp only at h5; omega)
  · refine ⟨?_, ?_, ?_⟩
    · intro p hp
      obtain ⟨⟨hx1, hx2, hy1, hy2⟩, hx3, hx4, hy3, hy4⟩ := hp
      have hsa : (⟨a.x, p.2, a.w, 1, a.style⟩ : Rect) ∈ strips :=
        vmerge_covers_strip strips h1 a ha p.2 ⟨hy1, hy2⟩
      have hsb : (⟨b.x, p.2, b.w, 1, b.style⟩ : Rect) ∈ strips :=
        vmerge_covers_strip strips h1 b hb p.2 ⟨hy3, hy4⟩
      have hsne : (⟨a.x, p.2, a.w, 1, a.style⟩ : Rect) ≠ ⟨b.x, p.2, b.w, 1, b.style⟩ := by
        intro heq
        apply hkey
        have h1x := congrArg Rect.x heq
        have h1w := congrArg Rect.w heq
        have hxx : a.x = b.x := h1x
        have hww : a.w = b.w := h1w
        rw [hxx, hww]
      have := hsep.forall HSepStrip_symm hsa hsb hsne hstyle rfl
      simp only at this
      rcases this with h5 | h5 <;> omega
    · rintro ⟨hy, hh, hadj⟩
      have hsa : (⟨a.x, a.y, a.w, 1, a.style⟩ : Rect) ∈ strips := hsa0
      have hsb : (⟨b.x, a.y, b.w, 1, b.style⟩ : Rect) ∈ strips := by
        refine vmerge_covers_strip strips h1 b hb a.y ⟨?_, ?_⟩ <;> omega
      have hsne : (⟨a.x, a.y, a.w, 1, a.style⟩ : Rect) ≠ ⟨b.x, a.y, b.w, 1, b.style⟩ := by
        intro heq
        apply hkey
        have h1x := congrArg Rect.x heq
        have h1w := congrArg Rect.w heq
        have hxx : a.x = b.x := h1x
        have hww : a.w = b.w := h1w
        rw [hxx, hww]
      have := hsep.forall HSepStrip_symm hsa hsb hsne hstyle rfl
      simp only at this
      rcases this with h5 | h5 <;> rcases hadj with h6 | h6 <;> omega
    · rintro ⟨hx, hww, _⟩
      exact hkey (by rw [hx, hww])

instance (a b : Rect) : Decidable (hAdj a b) := by
  unfold hAdj
  infer_instance

instance (a b : Rect) : Decidable (vAdj a b) := by
  unfold vAdj
  infer_instance

/-- Full-pipeline separation: with pairwise pixel-disjoint same-style
inputs, same-style output rectangles share no pixel, are never horizontally
adjacent, and (when vertical merge is enabled) never vertically adjacent. -/
theorem buildRectList_sep (rs : List Rect) (vm : Bool)
    (hdisj : List.Pairwise PDisj rs) :
    List.Pairwise (fun a b => a.style = b.style →
      (∀ p : ℤ × ℤ, ¬(inRect p a ∧ inRect p b)) ∧ ¬ hAdj a b
        ∧ (vm = true → ¬ vAdj a b)) (buildRectList rs vm) := by
  have hsym : Symmetric (fun a b : Rect => a.style = b.style →
      (∀ p : ℤ × ℤ, ¬(inRect p a ∧ inRect p b)) ∧ ¬ hAdj a b
        ∧ (vm = true → ¬ vAdj a b)) := by
    intro a b h hs
    obtain ⟨h1, h2, h3⟩ := h hs.symm
    exact ⟨fun p hp => h1 p ⟨hp.2, hp.1⟩, fun hadj => h2 (hAdj_symm hadj),
      fun hvm hvadj => h3 hvm (vAdj_symm hvadj)⟩
  unfold buildRectList canonSort
  apply ((List.perm_insertionSort keyLe _).pairwise_iff (fun {x y} h => hsym h)).mpr
  obtain ⟨hnd, hsep⟩ := mergedH_sep rs hdisj
  cases vm with
  | false =>
    show List.Pairwise _ (mergedH (expandRows rs))
    refine hsep.imp_of_mem ?_
    intro a b ha hb hab hstyle
    have hha : a.h = 1 := mergedH_h_one _ a ha
    have hhb : b.h = 1 := mergedH_h_one _ b hb
    have hwa : 1 ≤ a.w := mergedH_w_pos _ a ha
    have hwb : 1 ≤ b.w := mergedH_w_pos _ b hb
    refine ⟨?_, ?_, ?_⟩
    · intro p hp
      obtain ⟨⟨hx1, hx2, hy1, hy2⟩, hx3, hx4, hy3, hy4⟩ := hp
      have hy : a.y = b.y := by omega
      rcases hab hstyle hy with h5 | h5 <;> omega
    · rintro ⟨hy, _, hadj⟩
      rcases hab hstyle hy with h5 | h5 <;> rcases hadj with h6 | h6 <;> omega
    · intro hvm
      exact absurd hvm Bool.false_ne_true
  | true =>
    show List.Pairwise _ (vmerge (mergedH (expandRows rs)))
    have hgood := vmerge_good _ hnd hsep (mergedH_h_one _) (mergedH_w_pos _)
    refine hgood.imp ?_
    intro a b hab hstyle
    obtain ⟨h1, h2, h3⟩ := hab hstyle
    exact ⟨h1, h2, fun _ => h3⟩

/-- C2 (counterexample): two identical same-style unit input rectangles
place a duplicate column in the bucket and the output contains two
overlapping (identical) rectangles. -/
theorem same_style_overlap_cex :
    ¬ List.Pairwise (fun a b => a.style = b.style →
      ∀ p : ℤ × ℤ, ¬(inRect p a ∧ inRect p b))
      (buildRectList [⟨0, 0, 1, 1, ("red", 1)⟩, ⟨0, 0, 1, 1, ("red", 1)⟩] true) := by
  intro hp
  have hlist : buildRectList [⟨0, 0, 1, 1, ("red", 1)⟩, ⟨0, 0, 1, 1, ("red", 1)⟩] true
      = [⟨0, 0, 1, 1, ("red", 1)⟩, ⟨0, 0, 1, 1, ("red", 1)⟩] := by decide
  rw [hlist] at hp
  have h := (List.pairwise_cons.mp hp).1 _ (List.mem_cons_self _ _) rfl (0, 0)
  exact h ⟨(by decide : inRect (0, 0) ⟨0, 0, 1, 1, ("red", 1)⟩),
    (by decide : inRect (0, 0) ⟨0, 0, 1, 1, ("red", 1)⟩)⟩

/-- C2 (amended): when the same-style input rectangles are pairwise
pixel-disjoint (no duplicate bucket entries), no two output rectangles of
the same style cover a common pixel, with either vertical-merge setting. -/
theorem same_style_no_overlap (rs : List Rect) (vm : Bool)
    (hdisj : List.Pairwise PDisj rs) :
    List.Pairwise (fun a b => a.style = b.style →
      ∀ p : ℤ × ℤ, ¬(inRect p a ∧ inRect p b)) (buildRectList rs vm) :=
  (buildRectList_sep rs vm hdisj).imp (fun h hs => (h hs).1)

/-- Concrete pairwise-disjoint two-rectangle input. -/
theorem pdisjExample :
    List.Pairwise PDisj [(⟨0, 0, 1, 1, ("red", 1)⟩ : Rect), ⟨2, 0, 1, 1, ("red", 1)⟩] := by
  refine List.pairwise_cons.mpr ⟨?_, List.pairwise_singleton _ _⟩
  intro b hb
  rcases List.mem_singleton.mp hb with rfl
  intro _ p hp
  have h1 : (0 : ℤ) ≤ p.1 ∧ p.1 < 0 + 1 ∧ (0 : ℤ) ≤ p.2 ∧ p.2 < 0 + 1 := hp.1
  have h2 : (2 : ℤ) ≤ p.1 ∧ p.1 < 2 + 1 ∧ (0 : ℤ) ≤ p.2 ∧ p.2 < 0 + 1 := hp.2
  omega

/-- Witness for the amended C2 at a concrete disjoint input. -/
theorem same_style_no_overlap_witness :
    List.Pairwise PDisj [(⟨0, 0, 1, 1, ("red", 1)⟩ : Rect), ⟨2, 0, 1, 1, ("red", 1)⟩]
    ∧ List.Pairwise (fun a b => a.style = b.style →
      ∀ p : ℤ × ℤ, ¬(inRect p a ∧ inRect p b))
      (buildRectList [⟨0, 0, 1, 1, ("red", 1)⟩, ⟨2, 0, 1, 1, ("red", 1)⟩] true) :=
  ⟨pdisjExample, same_style_no_overlap _ true pdisjExample⟩

/-- C4 (counterexample): overlapping same-style input rectangles fragment
a contiguous run, leaving two horizontally adjacent unmerged same-style
output rectangles. -/
theorem maximality_cex :
    ¬ List.Pairwise (fun a b => a.style = b.style →
      ¬ hAdj a b ∧ (true = true → ¬ vAdj a b))
      (buildRectList [⟨0, 0, 3, 1, ("red", 1)⟩, ⟨1, 0, 2, 1, ("red", 1)⟩] true) := by decide

/-- C4 (amended): when the same-style input rectangles are pairwise
pixel-disjoint, no two output rectangles of equal style are horizontally
adjacent, nor (when vertical merge is enabled) vertically adjacent. -/
theorem maximality_amended (rs : List Rect) (vm : Bool)
    (hdisj : List.Pairwise PDisj rs) :
    List.Pairwise (fun a b => a.style = b.style →
      ¬ hAdj a b ∧ (vm = true → ¬ vAdj a b)) (buildRectList rs vm) :=
  (buildRectList_sep rs vm hdisj).imp (fun h hs => ⟨(h hs).2.1, (h hs).2.2⟩)

/-- Witness for the amended C4 at a concrete disjoint input. -/
theorem maximality_amended_witness :
    List.Pairwise PDisj [(⟨0, 0, 1, 1, ("red", 1)⟩ : Rect), ⟨2, 0, 1, 1, ("red", 1)⟩]
    ∧ List.Pairwise (fun a b => a.style = b.style →
      ¬ hAdj a b ∧ (true = true → ¬ vAdj a b))
      (buildRectList [⟨0, 0, 1, 1, ("red", 1)⟩, ⟨2, 0, 1, 1, ("red", 1)⟩] true) :=
  ⟨pdisjExample, maximality_amended _ true pdisjExample⟩

/-! ## Round-trip lemmas for serialized numbers (C3)

The serializer prints integers with `str` and opacities with
`fmt_opacity`; the second pipeline run parses them back with
`int(float(·))` and `float(·)`.  These lemmas establish the exact values
recovered. -/

theorem digitsVal_append_singleton (xs : List Char) (c : Char) :
    digitsVal (xs ++ [c]) = 10 * digitsVal xs + digitVal c := by
  unfold digitsVal
  rw [List.foldl_append]
  rfl

theorem char_ofNat_digit_val (k : ℕ) (hk : k < 10) :
    (Char.ofNat (48 + k)).toNat = 48 + k := by
  have hvalid : (48 + k).isValidChar := by
    left
    omega
  rw [Char.ofNat, dif_pos hvalid]
  rfl

theorem digitVal_ofNat (k : ℕ) (hk : k < 10) : digitVal (Char.ofNat (48 + k)) = k := by
  unfold digitVal
  rw [char_ofNat_digit_val k hk]
  omega

theorem isDig_ofNat (k : ℕ) (hk : k < 10) : isDig (Char.ofNat (48 + k)) = true := by
  unfold isDig
  rw [decide_eq_true_iff, char_ofNat_digit_val k hk]
  omega

theorem natDigitsRevF_spec (fuel : ℕ) :
    ∀ n, n < fuel →
      digitsVal ((natDigitsRevF fuel n).reverse) = n
      ∧ (∀ c ∈ natDigitsRevF fuel n, isDig c = true)
      ∧ natDigitsRevF fuel n ≠ [] := by
  induction fuel with
  | zero => intro n hn; omega
  | succ fuel ih =>
    intro n hn
    rw [natDigitsRevF]
    by_cases h10 : n < 10
    · rw [if_pos h10]
      refine ⟨?_, ?_, by simp⟩
      · show 10 * 0 + digitVal (Char.ofNat (48 + n)) = n
        rw [digitVal_ofNat n h10]
        omega
      · intro c hc
        rcases List.mem_singleton.mp hc with rfl
        exact isDig_ofNat n h10
    · rw [if_neg h10]
      have hdiv : n / 10 < fuel := by omega
      obtain ⟨ihv, ihd, _⟩ := ih (n / 10) hdiv
      refine ⟨?_, ?_, by simp⟩
      · rw [List.reverse_cons, digitsVal_append_singleton, ihv,
          digitVal_ofNat (n % 10) (by omega)]
        omega
      · intro c hc
        rcases List.mem_cons.mp hc with rfl | hmem
        · exact isDig_ofNat (n % 10) (by omega)
        · exact ihd c hmem

theorem natDigitsRev_val (n : ℕ) : digitsVal ((natDigitsRev n).reverse) = n :=
  (natDigitsRevF_spec (n + 1) n (by omega)).1

theorem natDigitsRev_isDig (n : ℕ) : ∀ c ∈ natDigitsRev n, isDig c = true :=
  (natDigitsRevF_spec (n + 1) n (by omega)).2.1

theorem natDigitsRev_ne_nil (n : ℕ) : natDigitsRev n ≠ [] :=
  (natDigitsRevF_spec (n + 1) n (by omega)).2.2

theorem isDig_not_space {c : Char} (h : isDig c = true) : isPySpace c = false := by
  have hc : 48 ≤ c.toNat ∧ c.toNat ≤ 57 := by
    have := of_decide_eq_true h
    exact this
  unfold isPySpace
  simp only [Bool.or_eq_false_iff, decide_eq_false_iff_not]
  refine ⟨⟨⟨⟨⟨?_, ?_⟩, ?_⟩, ?_⟩, ?_⟩, ?_⟩ <;>
    (intro heq; subst heq; exact absurd hc (by decide))

theorem dropWhile_eq_self_of_all {p : Char → Bool} {l : List Char}
    (h : ∀ c ∈ l, p c = false) : l.dropWhile p = l := by
  cases l with
  | nil => rfl
  | cons c rest =>
    rw [List.dropWhile_cons, h c (List.mem_cons_self c rest)]
    simp

theorem takeWhile_append_all {p : Char → Bool} {l : List Char} (rest : List Char)
    (h : ∀ c ∈ l, p c = true) :
    (l ++ rest).takeWhile p = l ++ rest.takeWhile p := by
  induction l with
  | nil => rfl
  | cons c t ih =>
    rw [List.cons_append, List.takeWhile_cons, h c (List.mem_cons_self c t), if_pos rfl]
    exact congrArg (c :: ·) (ih (fun c hc => h c (List.mem_cons_of_mem _ hc)))

theorem dropWhile_append_all {p : Char → Bool} {l : List Char} (rest : List Char)
    (h : ∀ c ∈ l, p c = true) :
    (l ++ rest).dropWhile p = rest.dropWhile p := by
  induction l with
  | nil => rfl
  | cons c t ih =>
    rw [List.cons_append, List.dropWhile_cons, h c (List.mem_cons_self c t), if_pos rfl]
    exact ih (fun c hc => h c (List.mem_cons_of_mem _ hc))

theorem takeWhile_all {p : Char → Bool} {l : List Char}
    (h : ∀ c ∈ l, p c = true) : l.takeWhile p = l := by
  have := takeWhile_append_all (l := l) [] h
  simpa using this

theorem dropWhile_all {p : Char → Bool} {l : List Char}
    (h : ∀ c ∈ l, p c = true) : l.dropWhile p = [] := by
  have := dropWhile_append_all (l := l) [] h
  simpa using this

/-- Parsing a plain nonempty digit string yields its decimal value. -/
theorem pyFloat_digits (A : List Char) (hA : A ≠ [])
    (hd : ∀ c ∈ A, isDig c = true) :
    pyFloat (String.mk A) = some ((digitsVal A : ℕ) : ℚ) := by
  obtain ⟨a, t, rfl⟩ := List.exists_cons_of_ne_nil hA
  have hsp : ∀ c ∈ a :: t, isPySpace c = false := fun c hc => isDig_not_space (hd c hc)
  have htl : (String.mk (a :: t)).toList = a :: t := rfl
  unfold pyFloat
  rw [htl, dropWhile_eq_self_of_all hsp,
    dropWhile_eq_self_of_all (fun c hc => hsp c (List.mem_reverse.mp hc)),
    List.reverse_reverse]
  have ha := hd a (List.mem_cons_self a t)
  have hand : (a = '-') = False := by
    refine eq_false ?_
    intro heq; subst heq; exact absurd ha (by decide)
  have hanp : (a = '+') = False := by
    refine eq_false ?_
    intro heq; subst heq; exact absurd ha (by decide)
  simp only [hand, hanp, if_false]
  rw [takeWhile_all hd, dropWhile_all hd]
  have hne : (a :: t = [] ∧ ([] : List Char) = []) = False := by simp
  simp only [hne, if_false, show pyExp [] = some 0 from rfl]
  norm_num [digitsVal]
  exact fun h => List.noConfusion h

/-- Parsing a negated nonempty digit string yields the negated value. -/
theorem pyFloat_neg_digits (A : List Char) (hA : A ≠ [])
    (hd : ∀ c ∈ A, isDig c = true) :
    pyFloat (String.mk (Char.ofNat 45 :: A)) = some (-((digitsVal A : ℕ) : ℚ)) := by
  obtain ⟨a, t, rfl⟩ := List.exists_cons_of_ne_nil hA
  have hsp : ∀ c ∈ a :: t, isPySpace c = false := fun c hc => isDig_not_space (hd c hc)
  have hsp' : ∀ c ∈ Char.ofNat 45 :: a :: t, isPySpace c = false := by
    intro c hc
    rcases List.mem_cons.mp hc with rfl | hc
    · decide
    · exact hsp c hc
  have htl : (String.mk (Char.ofNat 45 :: a :: t)).toList = Char.ofNat 45 :: a :: t := rfl
  unfold pyFloat
  rw [htl, dropWhile_eq_self_of_all hsp',
    dropWhile_eq_self_of_all (fun c hc => hsp' c (List.mem_reverse.mp hc)),
    List.reverse_reverse]
  have hm : (Char.ofNat 45 = '-') = True := by decide
  simp only [hm, if_true]
  rw [takeWhile_all hd, dropWhile_all hd]
  have hne : (a :: t = [] ∧ ([] : List Char) = []) = False := by simp
  simp only [hne, if_false, show pyExp [] = some 0 from rfl]
  norm_num [digitsVal]
  exact fun h => List.noConfusion h

/-- Parsing `A.F` for nonempty digit lists `A`, `F` yields the exact
decimal value. -/
theorem pyFloat_digits_frac (A F : List Char) (hA : A ≠ []) ( _hF : F ≠ [])
    (hdA : ∀ c ∈ A, isDig c = true) (hdF : ∀ c ∈ F, isDig c = true) :
    pyFloat (String.mk (A ++ Char.ofNat 46 :: F)) =
      some ((digitsVal A : ℚ) + (digitsVal F : ℚ) / ((10 ^ F.length : ℕ) : ℚ)) := by
  obtain ⟨a, t, rfl⟩ := List.exists_cons_of_ne_nil hA
  have hsp : ∀ c ∈ (a :: t) ++ Char.ofNat 46 :: F, isPySpace c = false := by
    intro c hc
    rcases List.mem_append.mp hc with hc | hc
    · exact isDig_not_space (hdA c hc)
    · rcases List.mem_cons.mp hc with rfl | hc
      · decide
      · exact isDig_not_space (hdF c hc)
  have htl : (String.mk ((a :: t) ++ Char.ofNat 46 :: F)).toList
      = (a :: t) ++ Char.ofNat 46 :: F := rfl
  unfold pyFloat
  rw [htl, dropWhile_eq_self_of_all hsp,
    dropWhile_eq_self_of_all (fun c hc => hsp c (List.mem_reverse.mp hc)),
    List.reverse_reverse]
  have ha := hdA a (List.mem_cons_self a t)
  have hand : ((a :: t) ++ Char.ofNat 46 :: F = []) = False := by simp
  have hmd : (a = '-') = False := by
    refine eq_false ?_
    intro heq; subst heq; exact absurd ha (by decide)
  have hpd : (a = '+') = False := by
    refine eq_false ?_
    intro heq; subst heq; exact absurd ha (by decide)
  simp only [List.cons_append, hmd, hpd, if_false]
  rw [show (a :: (t ++ Char.ofNat 46 :: F)) = (a :: t) ++ Char.ofNat 46 :: F from rfl,
    takeWhile_append_all _ hdA, dropWhile_append_all _ hdA]
  have hdot : isDig (Char.ofNat 46) = false := by decide
  rw [List.takeWhile_cons, List.dropWhile_cons, hdot]
  simp only [Bool.false_eq_true, if_false, List.append_nil]
  have hdotc : (Char.ofNat 46 = '.') = True := by decide
  simp only [hdotc, if_true]
  rw [takeWhile_all hdF, dropWhile_all hdF]
  have hne : (a :: t = [] ∧ F = []) = False := by simp
  simp only [hne, if_false, show pyExp [] = some 0 from rfl]
  norm_num [digitsVal]

theorem natToStr_as_mk (n : ℕ) : natToStr n = String.mk (natDigitsRev n).reverse := rfl

theorem pyFloat_natToStr (n : ℕ) : pyFloat (natToStr n) = some ((n : ℕ) : ℚ) := by
  rw [natToStr_as_mk,
    pyFloat_digits (natDigitsRev n).reverse
      (by simpa using natDigitsRev_ne_nil n)
      (fun c hc => natDigitsRev_isDig n c (List.mem_reverse.mp hc)),
    natDigitsRev_val]

theorem pyFloat_intToStr (i : ℤ) : pyFloat (intToStr i) = some ((i : ℤ) : ℚ) := by
  unfold intToStr
  by_cases hneg : i < 0
  · rw [if_pos hneg]
    have hmk : "-" ++ natToStr i.natAbs
        = String.mk (Char.ofNat 45 :: (natDigitsRev i.natAbs).reverse) := rfl
    rw [hmk, pyFloat_neg_digits (natDigitsRev i.natAbs).reverse
      (by simpa using natDigitsRev_ne_nil i.natAbs)
      (fun c hc => natDigitsRev_isDig i.natAbs c (List.mem_reverse.mp hc)),
      natDigitsRev_val]
    have h2 : ((i.natAbs : ℕ) : ℚ) = -(i : ℚ) := by
      rw [Int.cast_natAbs]
      exact_mod_cast abs_of_neg hneg
    rw [h2]
    norm_num
  · rw [if_neg hneg, pyFloat_natToStr]
    have h2 : ((i.natAbs : ℕ) : ℚ) = (i : ℚ) := by
      rw [Int.cast_natAbs]
      exact_mod_cast abs_of_nonneg (not_lt.mp hneg)
    rw [h2]

theorem intToStr_ne_empty (i : ℤ) : intToStr i ≠ "" := by
  unfold intToStr
  by_cases hneg : i < 0
  · rw [if_pos hneg]
    intro h
    have : ("-" ++ natToStr i.natAbs).toList = ("" : String).toList := congrArg String.toList h
    have h2 : Char.ofNat 45 :: (natDigitsRev i.natAbs).reverse = [] := this
    exact List.noConfusion h2
  · rw [if_neg hneg]
    intro h
    have : (natToStr i.natAbs).toList = ("" : String).toList := congrArg String.toList h
    have h2 : (natDigitsRev i.natAbs).reverse = [] := this
    exact absurd (List.reverse_eq_nil_iff.mp h2) (natDigitsRev_ne_nil i.natAbs)

theorem truncQ_intCast (i : ℤ) : truncQ ((i : ℤ) : ℚ) = i := by
  unfold truncQ
  by_cases h : (0 : ℚ) ≤ (i : ℚ)
  · rw [if_pos h, Int.floor_intCast]
  · rw [if_neg h, Int.ceil_intCast]

/-- Round trip: serializing an integer coordinate and re-parsing it with
`_as_int` recovers the integer regardless of the default. -/
theorem asInt_intToStr (i d : ℤ) : asInt (some (intToStr i)) d = i := by
  show (if intToStr i = "" then d
    else match pyFloat (intToStr i) with | none => d | some q => truncQ q) = i
  rw [if_neg (intToStr_ne_empty i), pyFloat_intToStr]
  exact truncQ_intCast i

/-! ## Round-half-even bounds and fixed points -/

theorem rhe_intCast (z : ℤ) : rhe ((z : ℤ) : ℚ) = z := by
  unfold rhe
  rw [Int.floor_intCast]
  norm_num

theorem rhe_nonneg {q : ℚ} (h : 0 ≤ q) : 0 ≤ rhe q := by
  have hf : 0 ≤ ⌊q⌋ := Int.floor_nonneg.mpr h
  show 0 ≤ (if q - (⌊q⌋ : ℚ) < 1 / 2 then ⌊q⌋
    else if 1 / 2 < q - (⌊q⌋ : ℚ) then ⌊q⌋ + 1
    else if ⌊q⌋ % 2 = 0 then ⌊q⌋ else ⌊q⌋ + 1)
  split <;> omega

theorem rhe_le {q : ℚ} {M : ℤ} (h : q ≤ (M : ℚ)) : rhe q ≤ M := by
  unfold rhe
  have hf : ⌊q⌋ ≤ M := by
    have := Int.floor_le_floor h
    rwa [Int.floor_intCast] at this
  show (if q - (⌊q⌋ : ℚ) < 1 / 2 then ⌊q⌋
    else if 1 / 2 < q - (⌊q⌋ : ℚ) then ⌊q⌋ + 1
    else if ⌊q⌋ % 2 = 0 then ⌊q⌋ else ⌊q⌋ + 1) ≤ M
  by_cases heq : ⌊q⌋ = M
  · have hq : q - (⌊q⌋ : ℚ) ≤ 0 := by
      rw [heq]
      linarith
    have h1 : q - (⌊q⌋ : ℚ) < 1 / 2 := by linarith
    rw [if_pos h1]
    omega
  · split <;> omega

/-! ## Trailing-zero stripping preserves the decimal value -/

theorem digitsVal_reverse_dropWhile (l : List Char) :
    digitsVal l.reverse
      = digitsVal ((l.dropWhile (fun x => x = '0')).reverse)
          * 10 ^ (l.length - (l.dropWhile (fun x => x = '0')).length)
      ∧ (l.dropWhile (fun x => x = '0')).length ≤ l.length := by
  induction l with
  | nil => simp
  | cons c t ih =>
    rw [List.dropWhile_cons]
    by_cases hc : c = '0'
    · subst hc
      rw [if_pos (by decide)]
      obtain ⟨ihv, ihl⟩ := ih
      constructor
      · rw [List.reverse_cons, digitsVal_append_singleton, ihv]
        have hz : digitVal '0' = 0 := by decide
        rw [hz]
        have hexp : (('0' :: t).length - (t.dropWhile (fun x => x = '0')).length)
            = (t.length - (t.dropWhile (fun x => x = '0')).length) + 1 := by
          simp only [List.length_cons]
          omega
        rw [hexp, pow_succ]
        ring
      · simp only [List.length_cons]
        omega
    · rw [if_neg (by simp [hc])]
      simp

theorem rstripChar_zero_val (ds : List Char) :
    digitsVal ds
      = digitsVal (rstripChar '0' ds)
          * 10 ^ (ds.length - (rstripChar '0' ds).length)
      ∧ (rstripChar '0' ds).length ≤ ds.length := by
  have h := digitsVal_reverse_dropWhile ds.reverse
  rw [List.reverse_reverse] at h
  unfold rstripChar
  obtain ⟨hv, hl⟩ := h
  refine ⟨?_, ?_⟩
  · rw [hv]
    simp [List.length_reverse]
  · simpa [List.length_reverse] using hl

theorem rstripChar_sublist_mem (c : Char) (ds : List Char) :
    ∀ x ∈ rstripChar c ds, x ∈ ds := by
  intro x hx
  unfold rstripChar at hx
  have h1 : x ∈ ds.reverse.dropWhile (fun y => y = c) := List.mem_reverse.mp hx
  exact List.mem_reverse.mp ((List.dropWhile_sublist (l := ds.reverse) (fun y => y = c)).subset h1)

theorem rstripChar_eq_nil_val (ds : List Char) (h : rstripChar '0' ds = []) :
    digitsVal ds = 0 := by
  have := (rstripChar_zero_val ds).1
  rw [h] at this
  simpa [digitsVal] using this

theorem dropWhile_append_of_ne_nil {p : Char → Bool} {l₁ : List Char} (l₂ : List Char)
    (h : l₁.dropWhile p ≠ []) :
    (l₁ ++ l₂).dropWhile p = l₁.dropWhile p ++ l₂ := by
  induction l₁ with
  | nil => exact absurd rfl h
  | cons a t ih =>
    rw [List.cons_append, List.dropWhile_cons, List.dropWhile_cons]
    by_cases ha : p a = true
    · rw [if_pos ha, if_pos ha]
      rw [List.dropWhile_cons, if_pos ha] at h
      exact ih h
    · rw [if_neg ha, if_neg ha, List.cons_append]

theorem rstripChar_append_of_ne_nil (c : Char) (xs ys : List Char)
    (h : rstripChar c ys ≠ []) :
    rstripChar c (xs ++ ys) = xs ++ rstripChar c ys := by
  unfold rstripChar at h ⊢
  have hne : ys.reverse.dropWhile (fun x => x = c) ≠ [] := by
    intro hnil
    rw [hnil] at h
    exact h rfl
  rw [List.reverse_append, dropWhile_append_of_ne_nil _ hne, List.reverse_append,
    List.reverse_reverse]

theorem rstripChar_eq_self_of_all (c : Char) (l : List Char)
    (h : ∀ x ∈ l, x ≠ c) : rstripChar c l = l := by
  unfold rstripChar
  rw [dropWhile_eq_self_of_all (fun x hx => decide_eq_false (h x (List.mem_reverse.mp hx))),
    List.reverse_reverse]

theorem rstripChar_append_all_same (c : Char) (xs ys : List Char)
    (h : ∀ x ∈ ys, x = c) : rstripChar c (xs ++ ys) = rstripChar c xs := by
  unfold rstripChar
  rw [List.reverse_append,
    dropWhile_append_all _ (fun x hx => decide_eq_true (h x (List.mem_reverse.mp hx)))]

theorem digitsVal_replicate_zero_append (k : ℕ) (ds : List Char) :
    digitsVal (List.replicate k '0' ++ ds) = digitsVal ds := by
  induction k with
  | zero => rfl
  | succ k ih =>
    rw [List.replicate_succ, List.cons_append]
    show digitsVal (List.replicate k '0' ++ ds) = digitsVal ds
    exact ih

theorem pad4_val (m : ℕ) : digitsVal (pad4 m) = m := by
  unfold pad4
  rw [digitsVal_replicate_zero_append, natDigitsRev_val]

theorem pad4_isDig (m : ℕ) : ∀ c ∈ pad4 m, isDig c = true := by
  intro c hc
  unfold pad4 at hc
  rcases List.mem_append.mp hc with hc | hc
  · rw [List.eq_of_mem_replicate hc]
    decide
  · exact natDigitsRev_isDig m c (List.mem_reverse.mp hc)

theorem natDigitsRevF_length_le (fuel : ℕ) :
    ∀ n k, n < fuel → n < 10 ^ k → 1 ≤ k → (natDigitsRevF fuel n).length ≤ k := by
  induction fuel with
  | zero => intro n k hn; omega
  | succ fuel ih =>
    intro n k hn hk h1
    rw [natDigitsRevF]
    by_cases h10 : n < 10
    · rw [if_pos h10]
      simpa using h1
    · rw [if_neg h10]
      simp only [List.length_cons]
    -- n ≥ 10 forces k ≥ 2, and n / 10 < 10 ^ (k - 1)
      have hk2 : 2 ≤ k := by
        by_contra hlt
        have hk1 : k = 1 := by omega
        rw [hk1] at hk
        omega
      have hdivk : n / 10 < 10 ^ (k - 1) := by
        have hsplit : 10 ^ k = 10 ^ (k - 1) * 10 := by
          rw [← pow_succ]
          congr 1
          omega
        rw [hsplit] at hk
        omega
      have := ih (n / 10) (k - 1) (by omega) hdivk (by omega)
      omega

theorem pad4_length (m : ℕ) (hm : m < 10000) : (pad4 m).length = 4 := by
  unfold pad4
  have hlen : (natDigitsRev m).length ≤ 4 :=
    natDigitsRevF_length_le (m + 1) m 4 (by omega) (by norm_num; omega) (by omega)
  rw [List.length_append, List.length_replicate, List.length_reverse]
  omega

theorem pad4_zero : pad4 0 = ['0', '0', '0', '0'] := by decide

theorem isDig_ne_dot {c : Char} (h : isDig c = true) : c ≠ '.' := by
  intro heq
  subst heq
  exact absurd h (by decide)

/-- `fmt_opacity` of an in-range opacity parses back (via `float`) to
exactly the 4-decimal rounded value. -/
theorem pyFloat_fmtOpacity (op : ℚ) (h0 : 0 ≤ op) (h1 : op ≤ 1) :
    pyFloat (fmtOpacity op) = some ((rhe (op * 10000) : ℚ) / 10000) := by
  have hN0 : 0 ≤ rhe (op * 10000) := rhe_nonneg (by positivity)
  have hN : rhe (op * 10000) ≤ 10000 := by
    refine rhe_le (M := 10000) ?_
    push_cast
    linarith
  set n : ℕ := (rhe (op * 10000)).toNat with hn
  have hncast : ((n : ℕ) : ℚ) = ((rhe (op * 10000) : ℤ) : ℚ) := by
    rw [hn]
    exact_mod_cast congrArg (Int.cast : ℤ → ℚ) (Int.toNat_of_nonneg hN0)
  have hn4 : n ≤ 10000 := by omega
  have hfmt : fmt4 op = (natDigitsRev (n / 10000)).reverse ++ ['.'] ++ pad4 (n % 10000) := rfl
  set A : List Char := (natDigitsRev (n / 10000)).reverse with hA
  set F : List Char := pad4 (n % 10000) with hF
  have hAne : A ≠ [] := by
    rw [hA]
    simpa using natDigitsRev_ne_nil (n / 10000)
  have hAdig : ∀ c ∈ A, isDig c = true := by
    intro c hc
    rw [hA] at hc
    exact natDigitsRev_isDig (n / 10000) c (List.mem_reverse.mp hc)
  have hAval : digitsVal A = n / 10000 := by
    rw [hA, natDigitsRev_val]
  have hFdig : ∀ c ∈ F, isDig c = true := fun c hc => pad4_isDig (n % 10000) c hc
  have hm : n % 10000 < 10000 := Nat.mod_lt n (by norm_num)
  have hFlen : F.length = 4 := pad4_length (n % 10000) hm
  have hFval : digitsVal F = n % 10000 := pad4_val (n % 10000)
  unfold fmtOpacity
  rw [hfmt]
  by_cases hmz : n % 10000 = 0
  · -- fractional part is all zeros; everything after the point strips away
    have hFzero : F = ['0', '0', '0', '0'] := by
      rw [hF, hmz, pad4_zero]
    have hstep1 : rstripChar '0' (A ++ ['.'] ++ F) = rstripChar '0' (A ++ ['.']) := by
      rw [rstripChar_append_all_same '0' (A ++ ['.']) F]
      intro x hx
      rw [hFzero] at hx
      simp only [List.mem_cons, List.not_mem_nil, or_false] at hx
      rcases hx with rfl | rfl | rfl | rfl <;> rfl
    have hdotstrip : rstripChar '0' ['.'] = ['.'] := by decide
    have hstep2 : rstripChar '0' (A ++ ['.']) = A ++ ['.'] := by
      rw [rstripChar_append_of_ne_nil '0' A ['.'] (by rw [hdotstrip]; simp), hdotstrip]
    have hstep3 : rstripChar '.' (A ++ ['.']) = A := by
      rw [rstripChar_append_all_same '.' A ['.'] (by intro x hx; simpa using hx),
        rstripChar_eq_self_of_all '.' A (fun x hx => isDig_ne_dot (hAdig x hx))]
    rw [hstep1, hstep2, hstep3]
    show pyFloat (if A = [] then "0" else String.mk A) = _
    rw [if_neg hAne, pyFloat_digits A hAne hAdig, hAval]
    congr 1
    have hdvd : 10000 * (n / 10000) = n := by omega
    rw [← hncast]
    rw [eq_div_iff (by norm_num : (10000 : ℚ) ≠ 0)]
    exact_mod_cast (by omega : n / 10000 * 10000 = n)
  · -- nonzero fractional part: at least one fractional digit survives
    set F' : List Char := rstripChar '0' F with hF'
    have hF'ne : F' ≠ [] := by
      intro hnil
      exact hmz (by rw [← hFval, rstripChar_eq_nil_val F (hF' ▸ hnil)])
    have hF'dig : ∀ c ∈ F', isDig c = true := by
      intro c hc
      exact hFdig c (rstripChar_sublist_mem '0' F c (hF' ▸ hc))
    obtain ⟨hFsplit, hF'len⟩ := rstripChar_zero_val F
    have hstep1 : rstripChar '0' (A ++ ['.'] ++ F) = A ++ ['.'] ++ F' := by
      rw [rstripChar_append_of_ne_nil '0' (A ++ ['.']) F (hF' ▸ hF'ne), ← hF']
    have hstep2 : rstripChar '.' (A ++ ['.'] ++ F') = A ++ ['.'] ++ F' := by
      have hself : rstripChar '.' F' = F' :=
        rstripChar_eq_self_of_all '.' F' (fun x hx => isDig_ne_dot (hF'dig x hx))
      rw [rstripChar_append_of_ne_nil '.' (A ++ ['.']) F' (by rw [hself]; exact hF'ne), hself]
    have hne2 : A ++ ['.'] ++ F' ≠ [] := by simp
    have hcons : A ++ ['.'] ++ F' = A ++ '.' :: F' := by
      rw [List.append_assoc]
      rfl
    have hdot46 : ('.' : Char) = Char.ofNat 46 := by decide
    rw [hstep1, hstep2]
    show pyFloat (if A ++ ['.'] ++ F' = [] then "0"
      else String.mk (A ++ ['.'] ++ F')) = _
    rw [if_neg hne2, hcons, hdot46,
      pyFloat_digits_frac A F' hAne hF'ne hAdig hF'dig, hAval]
    congr 1
    -- arithmetic: A + F'/10^l = n/10000 with F' * 10^(4-l) = n % 10000
    have hl4 : F'.length ≤ 4 := by
      rw [← hFlen]
      exact hF'len
    have hkey : (n / 10000 : ℕ) * 10000 + digitsVal F' * 10 ^ (4 - F'.length) = n := by
      have h2 : digitsVal F' * 10 ^ (4 - F'.length) = n % 10000 := by
        rw [← hFval, hFsplit, hFlen]
      rw [h2]
      omega
    have hQ0 : ((10 : ℚ) ^ F'.length) ≠ 0 := pow_ne_zero _ (by norm_num)
    have hPQ : (10 : ℚ) ^ (4 - F'.length) * (10 : ℚ) ^ F'.length = 10000 := by
      rw [← pow_add]
      have : 4 - F'.length + F'.length = 4 := by omega
      rw [this]
      norm_num
    have hkeyQ : ((n / 10000 : ℕ) : ℚ) * 10000
        + (digitsVal F' : ℚ) * (10 : ℚ) ^ (4 - F'.length) = (n : ℚ) := by
      exact_mod_cast hkey
    rw [← hncast]
    have hcast10 : (((10 ^ F'.length : ℕ) : ℚ)) = (10 : ℚ) ^ F'.length := by push_cast; ring
    rw [hcast10]
    field_simp
    linear_combination ((10 : ℚ) ^ F'.length) * hkeyQ - (digitsVal F' : ℚ) * hPQ

theorem fmtOpacity_ne_empty (op : ℚ) : fmtOpacity op ≠ "" := by
  show (if rstripChar '.' (rstripChar '0' (fmt4 op)) = [] then "0"
    else String.mk (rstripChar '.' (rstripChar '0' (fmt4 op)))) ≠ ""
  by_cases hX : rstripChar '.' (rstripChar '0' (fmt4 op)) = []
  · rw [if_pos hX]
    decide
  · rw [if_neg hX]
    intro h
    have h2 : rstripChar '.' (rstripChar '0' (fmt4 op)) = [] := congrArg String.toList h
    exact hX h2

theorem normOpacity_some (s : String) :
    normOpacity (some s)
      = (if s = "" then 1
        else match pyFloat s with
          | none => 1
          | some op₀ =>
            if (if (if op₀ > 1 then op₀ / 255 else op₀) < 0 then (0:ℚ)
                else if op₀ > 1 then op₀ / 255 else op₀) > 1 then (1:ℚ)
            else if (if op₀ > 1 then op₀ / 255 else op₀) < 0 then (0:ℚ)
                else if op₀ > 1 then op₀ / 255 else op₀) := rfl

theorem clampQ_bounds (q : ℚ) :
    0 ≤ (if (if (if q > 1 then q / 255 else q) < 0 then (0:ℚ) else if q > 1 then q / 255 else q) > 1
        then (1:ℚ)
        else if (if q > 1 then q / 255 else q) < 0 then (0:ℚ) else if q > 1 then q / 255 else q)
      ∧ (if (if (if q > 1 then q / 255 else q) < 0 then (0:ℚ) else if q > 1 then q / 255 else q) > 1
        then (1:ℚ)
        else if (if q > 1 then q / 255 else q) < 0 then (0:ℚ) else if q > 1 then q / 255 else q) ≤ 1 := by
  set a := if q > 1 then q / 255 else q with ha
  set b := if a < 0 then (0:ℚ) else a with hb
  have hb0 : 0 ≤ b := by
    rw [hb]
    by_cases hn : a < 0
    · rw [if_pos hn]
    · rw [if_neg hn]
      exact not_lt.mp hn
  constructor
  · by_cases h1 : b > 1
    · rw [if_pos h1]
      norm_num
    · rw [if_neg h1]
      exact hb0
  · by_cases h1 : b > 1
    · rw [if_pos h1]
    · rw [if_neg h1]
      exact not_lt.mp h1

theorem clampQ_eval_of_unit (v : ℚ) (h0 : 0 ≤ v) (h1 : v ≤ 1) :
    (if (if (if v > 1 then v / 255 else v) < 0 then (0:ℚ) else if v > 1 then v / 255 else v) > 1
      then (1:ℚ)
      else if (if v > 1 then v / 255 else v) < 0 then (0:ℚ) else if v > 1 then v / 255 else v)
    = v := by
  rw [show (if v > 1 then v / 255 else v) = v from if_neg (not_lt.mpr h1)]
  rw [show (if v < 0 then (0:ℚ) else v) = v from if_neg (not_lt.mpr h0)]
  rw [if_neg (not_lt.mpr h1)]

theorem normOpacity_bounds (o : Option String) :
    0 ≤ normOpacity o ∧ normOpacity o ≤ 1 := by
  cases o with
  | none =>
    show (0:ℚ) ≤ 1 ∧ (1:ℚ) ≤ 1
    norm_num
  | some s =>
    simp only [normOpacity]
    by_cases hs : s = ""
    · rw [if_pos hs]
      norm_num
    · rw [if_neg hs]
      cases hp : pyFloat s with
      | none => norm_num
      | some q => exact clampQ_bounds q

theorem round6_bounds {q : ℚ} (h0 : 0 ≤ q) (h1 : q ≤ 1) :
    0 ≤ round6 q ∧ round6 q ≤ 1 := by
  unfold round6
  have hlo : 0 ≤ rhe (q * 1000000) := rhe_nonneg (by positivity)
  have hhi : rhe (q * 1000000) ≤ 1000000 := by
    refine rhe_le (M := 1000000) ?_
    push_cast
    linarith
  constructor
  · positivity
  · rw [div_le_one (by norm_num)]
    exact_mod_cast hhi

theorem normOpacity_fmtOpacity (op : ℚ) (h0 : 0 ≤ op) (h1 : op ≤ 1) :
    normOpacity (some (fmtOpacity op)) = ((rhe (op * 10000) : ℤ) : ℚ) / 10000 := by
  have hN0 : 0 ≤ rhe (op * 10000) := rhe_nonneg (by positivity)
  have hN : rhe (op * 10000) ≤ 10000 := by
    refine rhe_le (M := 10000) ?_
    push_cast
    linarith
  have hv0 : 0 ≤ ((rhe (op * 10000) : ℤ) : ℚ) / 10000 := by positivity
  have hv1 : ((rhe (op * 10000) : ℤ) : ℚ) / 10000 ≤ 1 := by
    rw [div_le_one (by norm_num)]
    exact_mod_cast hN
  rw [normOpacity_some, if_neg (fmtOpacity_ne_empty op), pyFloat_fmtOpacity op h0 h1]
  exact clampQ_eval_of_unit _ hv0 hv1

theorem round6_div10000 (N : ℤ) : round6 ((N : ℚ) / 10000) = (N : ℚ) / 10000 := by
  unfold round6
  have harg : ((N : ℚ) / 10000) * 1000000 = ((N * 100 : ℤ) : ℚ) := by
    push_cast
    ring
  rw [harg, rhe_intCast]
  push_cast
  ring

theorem fmt4_congr {q₁ q₂ : ℚ} (h : rhe (q₁ * 10000) = rhe (q₂ * 10000)) :
    fmt4 q₁ = fmt4 q₂ := by
  unfold fmt4
  rw [h]

theorem fmtOpacity_congr {q₁ q₂ : ℚ} (h : rhe (q₁ * 10000) = rhe (q₂ * 10000)) :
    fmtOpacity q₁ = fmtOpacity q₂ := by
  unfold fmtOpacity
  rw [fmt4_congr h]

theorem fmtOpacity_roundtrip_stable (op : ℚ) :
    fmtOpacity (((rhe (op * 10000) : ℤ) : ℚ) / 10000) = fmtOpacity op := by
  refine fmtOpacity_congr ?_
  have harg : (((rhe (op * 10000) : ℤ) : ℚ) / 10000) * 10000
      = ((rhe (op * 10000) : ℤ) : ℚ) := by
    field_simp
  rw [harg, rhe_intCast]

theorem opacity_band_iff (N : ℤ) (h1 : N ≤ 10000) :
    (1 / 1000000 < |(N : ℚ) / 10000 - 1|) ↔ N ≠ 10000 := by
  have hle : (N : ℚ) / 10000 - 1 ≤ 0 := by
    have : (N : ℚ) ≤ 10000 := by exact_mod_cast h1
    rw [sub_nonpos, div_le_one (by norm_num)]
    exact this
  rw [abs_of_nonpos hle]
  constructor
  · intro h heq
    rw [heq] at h
    norm_num at h
  · intro h
    have hN : N ≤ 9999 := by omega
    have hq : (N : ℚ) ≤ 9999 := by exact_mod_cast hN
    rw [neg_sub, lt_sub_iff_add_lt]
    linarith

/-! ## The value an output opacity reparses to -/

/-- Opacity after one serialize/parse round trip: unchanged when the
attribute is omitted it reads back as exactly `1`; when emitted it reads
back as the 4-decimal rounding. -/
def opRT (op : ℚ) : ℚ :=
  if 1 / 1000000 < |op - 1| then ((rhe (op * 10000) : ℤ) : ℚ) / 10000 else 1

theorem round6_one : round6 (1 : ℚ) = 1 := by
  unfold round6
  rw [show ((1 : ℚ) * 1000000) = ((1000000 : ℤ) : ℚ) by norm_num, rhe_intCast]
  norm_num

/-- Re-reading a serialized rectangle recovers its geometry exactly and
its opacity up to `opRT`. -/
theorem toRaw_reparsed (r : Rect) (hw : 1 ≤ r.w) (hh : 1 ≤ r.h)
    (h0 : 0 ≤ r.style.2) (h1 : r.style.2 ≤ 1) :
    toRaw ⟨rectTag, some (intToStr r.x), some (intToStr r.y), some (intToStr r.w),
      some (intToStr r.h), some r.style.1, none,
      if 1 / 1000000 < |r.style.2 - 1| then some (fmtOpacity r.style.2) else none⟩
    = ⟨r.x, r.y, r.w, r.h, (r.style.1, opRT r.style.2)⟩ := by
  unfold toRaw
  simp only [asInt_intToStr]
  rw [if_neg (by omega : ¬ r.w ≤ 0), if_neg (by omega : ¬ r.h ≤ 0)]
  have hps : parseStyle none = [] := rfl
  simp only [hps]
  rw [show getA "fill" ([] : List (String × String)) = none from rfl,
    show getA "opacity" ([] : List (String × String)) = none from rfl]
  unfold opRT
  by_cases hband : 1 / 1000000 < |r.style.2 - 1|
  · rw [if_pos hband, if_pos hband, normOpacity_fmtOpacity r.style.2 h0 h1,
      round6_div10000]
  · rw [if_neg hband, if_neg hband]
    show (⟨r.x, r.y, r.w, r.h, (r.style.1, round6 (normOpacity none))⟩ : Rect) = _
    rw [show normOpacity none = 1 from rfl, round6_one]

/-! ## Root-attribute carry-over is idempotent -/

/-- The contribution of one candidate root key. -/
def pickRoot (rootAttrs : List (String × String)) (k : String) :
    Option (String × String) :=
  match getA k rootAttrs with
  | some v => if v = "" then none else some (k, v)
  | none => none

theorem rootStep_eq (rootAttrs : List (String × String)) (k : String)
    (acc : List (String × String)) :
    (match getA k rootAttrs with
      | some v => if v = "" then acc else acc ++ [(k, v)]
      | none => acc)
    = acc ++ (pickRoot rootAttrs k).toList := by
  unfold pickRoot
  cases getA k rootAttrs with
  | none => simp
  | some v =>
    by_cases hemp : v = "" <;> simp [hemp]

theorem outRootAttrs_foldl_filterMap (rootAttrs : List (String × String)) :
    ∀ (ks : List String) (acc : List (String × String)),
      ks.foldl
        (fun acc k =>
          match getA k rootAttrs with
          | some v => if v = "" then acc else acc ++ [(k, v)]
          | none => acc)
        acc
      = acc ++ ks.filterMap (pickRoot rootAttrs) := by
  intro ks
  induction ks with
  | nil => intro acc; simp
  | cons k ks ih =>
    intro acc
    rw [List.foldl_cons, rootStep_eq, ih, List.filterMap_cons]
    cases hp : pickRoot rootAttrs k with
    | none => simp
    | some b => simp

theorem outRootAttrs_eq (rootAttrs : List (String × String)) :
    outRootAttrs rootAttrs
      = (["width", "height", "viewBox", "preserveAspectRatio"].filterMap
          (pickRoot rootAttrs))
        ++ [("shape-rendering", "crispEdges")] := by
  unfold outRootAttrs
  rw [outRootAttrs_foldl_filterMap]
  rfl

theorem getA_append {κ β : Type} [DecidableEq κ] (k : κ) (l₁ l₂ : List (κ × β)) :
    getA k (l₁ ++ l₂)
      = match getA k l₁ with
        | some v => some v
        | none => getA k l₂ := by
  induction l₁ with
  | nil => rfl
  | cons kv rest ih =>
    obtain ⟨k₁, v⟩ := kv
    show (if k = k₁ then some v else getA k (rest ++ l₂)) = _
    by_cases hk : k = k₁
    · rw [if_pos hk]
      show _ = (match (if k = k₁ then some v else getA k rest) with
        | some v => some v
        | none => getA k l₂)
      rw [if_pos hk]
    · rw [if_neg hk]
      show _ = (match (if k = k₁ then some v else getA k rest) with
        | some v => some v
        | none => getA k l₂)
      rw [if_neg hk]
      exact ih

theorem getA_eq_none_of_not_key {κ β : Type} [DecidableEq κ] (k : κ)
    (l : List (κ × β)) (h : ∀ kv ∈ l, kv.1 ≠ k) : getA k l = none := by
  induction l with
  | nil => rfl
  | cons kv rest ih =>
    obtain ⟨k₁, v⟩ := kv
    show (if k = k₁ then some v else getA k rest) = none
    rw [if_neg (fun heq => h (k₁, v) (List.mem_cons_self _ rest) heq.symm)]
    exact ih (fun kv hkv => h kv (List.mem_cons_of_mem _ hkv))

theorem pickRoot_eq (rootAttrs : List (String × String)) (k : String) :
    pickRoot rootAttrs k
      = (getA k rootAttrs).bind (fun v => if v = "" then none else some (k, v)) := by
  unfold pickRoot
  cases getA k rootAttrs <;> rfl

theorem getA_filterMap_not_mem (rootAttrs : List (String × String)) (k : String)
    (ks : List String) (h : k ∉ ks) :
    getA k (ks.filterMap (pickRoot rootAttrs)) = none := by
  refine getA_eq_none_of_not_key k _ ?_
  intro kv hkv
  obtain ⟨k₁, hk₁, hpick⟩ := List.mem_filterMap.mp hkv
  rw [pickRoot_eq] at hpick
  cases hv : getA k₁ rootAttrs with
  | none =>
    rw [hv, Option.none_bind] at hpick
    exact absurd hpick (by simp)
  | some v =>
    rw [hv, Option.some_bind] at hpick
    by_cases hemp : v = ""
    · rw [if_pos hemp] at hpick
      exact absurd hpick (by simp)
    · rw [if_neg hemp] at hpick
      obtain rfl := Option.some.inj hpick
      intro heq
      exact h (heq ▸ hk₁)

theorem getA_filterMap_pick (rootAttrs : List (String × String)) (k : String)
    (ks : List String) (hnd : ks.Nodup) (hmem : k ∈ ks) :
    getA k (ks.filterMap (pickRoot rootAttrs))
      = (getA k rootAttrs).bind (fun v => if v = "" then none else some v) := by
  induction ks with
  | nil => exact absurd hmem (List.not_mem_nil k)
  | cons k₁ ks ih =>
    rw [List.filterMap_cons]
    rcases List.mem_cons.mp hmem with rfl | hmem₂
    · -- head is our key
      have hknot : k ∉ ks := (List.nodup_cons.mp hnd).1
      rw [pickRoot_eq]
      cases hv : getA k rootAttrs with
      | none =>
        rw [Option.none_bind, Option.none_bind]
        exact getA_filterMap_not_mem rootAttrs k ks hknot
      | some v =>
        rw [Option.some_bind, Option.some_bind]
        by_cases hemp : v = ""
        · rw [if_pos hemp, if_pos hemp]
          exact getA_filterMap_not_mem rootAttrs k ks hknot
        · rw [if_neg hemp, if_neg hemp]
          show (if k = k then some v else getA k (ks.filterMap (pickRoot rootAttrs)))
            = some v
          rw [if_pos rfl]
    · -- our key sits in the tail
      have hne : k₁ ≠ k := fun heq => (List.nodup_cons.mp hnd).1 (heq ▸ hmem₂)
      have ihv := ih (List.nodup_cons.mp hnd).2 hmem₂
      cases hp : pickRoot rootAttrs k₁ with
      | none => exact ihv
      | some b =>
        have hbk : b.1 = k₁ := by
          rw [pickRoot_eq] at hp
          cases hv : getA k₁ rootAttrs with
          | none =>
            rw [hv, Option.none_bind] at hp
            exact absurd hp (by simp)
          | some v =>
            rw [hv, Option.some_bind] at hp
            by_cases hemp : v = ""
            · rw [if_pos hemp] at hp
              exact absurd hp (by simp)
            · rw [if_neg hemp] at hp
              rw [← Option.some.inj hp]
        show (if k = b.1 then some b.2 else getA k (ks.filterMap (pickRoot rootAttrs)))
          = _
        rw [if_neg (fun heq => hne ((hbk ▸ heq : k = k₁)).symm)]
        exact ihv

theorem getA_outRootAttrs (rootAttrs : List (String × String)) (k : String)
    (hmem : k ∈ ["width", "height", "viewBox", "preserveAspectRatio"]) :
    getA k (outRootAttrs rootAttrs)
      = (getA k rootAttrs).bind (fun v => if v = "" then none else some v) := by
  rw [outRootAttrs_eq, getA_append,
    getA_filterMap_pick rootAttrs k _ (by decide) hmem]
  have hksr : k ≠ "shape-rendering" := by
    simp only [List.mem_cons, List.not_mem_nil, or_false] at hmem
    rcases hmem with rfl | rfl | rfl | rfl <;> decide
  have hsr : getA k [("shape-rendering", "crispEdges")] = none := by
    refine getA_eq_none_of_not_key k _ ?_
    intro kv hkv
    rcases List.mem_singleton.mp hkv with rfl
    exact fun heq => hksr heq.symm
  cases hv : getA k rootAttrs with
  | none =>
    rw [Option.none_bind]
    exact hsr
  | some v =>
    rw [Option.some_bind]
    by_cases hemp : v = ""
    · rw [if_pos hemp]
      exact hsr
    · rw [if_neg hemp]

theorem pickRoot_outRootAttrs (rootAttrs : List (String × String)) (k : String)
    (hmem : k ∈ ["width", "height", "viewBox", "preserveAspectRatio"]) :
    pickRoot (outRootAttrs rootAttrs) k = pickRoot rootAttrs k := by
  rw [pickRoot_eq, pickRoot_eq, getA_outRootAttrs rootAttrs k hmem]
  cases hv : getA k rootAttrs with
  | none => rfl
  | some v =>
    rw [Option.some_bind]
    by_cases hemp : v = ""
    · rw [if_pos hemp, Option.none_bind, Option.some_bind, if_pos hemp]
    · rw [if_neg hemp, Option.some_bind, if_neg hemp]

theorem outRootAttrs_idem (rootAttrs : List (String × String)) :
    outRootAttrs (outRootAttrs rootAttrs) = outRootAttrs rootAttrs := by
  have h1 := pickRoot_outRootAttrs rootAttrs "width" (by decide)
  have h2 := pickRoot_outRootAttrs rootAttrs "height" (by decide)
  have h3 := pickRoot_outRootAttrs rootAttrs "viewBox" (by decide)
  have h4 := pickRoot_outRootAttrs rootAttrs "preserveAspectRatio" (by decide)
  rw [outRootAttrs_eq (outRootAttrs rootAttrs)]
  simp only [List.filterMap_cons, List.filterMap_nil, h1, h2, h3, h4]
  rw [outRootAttrs_eq rootAttrs]
  simp only [List.filterMap_cons, List.filterMap_nil]

/-! ## Style substitution and count machinery for the idempotence proof -/

/-- Replace a rectangle's style, keeping all geometry. -/
def restyle (t : Style) (r : Rect) : Rect := ⟨r.x, r.y, r.w, r.h, t⟩

theorem restyle_of_style (t : Style) (r : Rect) (h : r.style = t) : restyle t r = r := by
  unfold restyle
  cases r
  simp_all

theorem count_flatMap {α β : Type} [DecidableEq β] (f : α → List β) (l : List α) (b : β) :
    (l.flatMap f).count b = (l.map (fun a => (f a).count b)).sum := by
  induction l with
  | nil => rfl
  | cons a l ih =>
    rw [List.flatMap_cons, List.count_append, ih, List.map_cons, List.sum_cons]

theorem pySort_eq_of_perm {xs ys : List ℤ} (h : List.Perm xs ys) :
    pySort xs = pySort ys := by
  refine List.eq_of_perm_of_sorted ?_ (List.sorted_insertionSort _ xs)
    (List.sorted_insertionSort _ ys)
  exact (List.perm_insertionSort _ xs).trans (h.trans (List.perm_insertionSort _ ys).symm)

/-- The bucket list of the expanded coverage map, as a multiset, is the
row-coverage multiset of the input. -/
theorem getBucket_expandRows_coe (rs : List Rect) (y : ℤ) (s : Style) :
    ((getBucket (expandRows rs) y s : List ℤ) : Multiset ℤ) = rowCovList rs s y := by
  rw [getBucket_expandRows]
  induction rs with
  | nil => rfl
  | cons r l ih =>
    rw [List.flatMap_cons, rowCovList_cons]
    rw [show (((if r.style = s ∧ r.y ≤ y ∧ y < r.y + r.h then intRange r.x r.w.toNat else [])
        ++ l.flatMap (fun r => if r.style = s ∧ r.y ≤ y ∧ y < r.y + r.h
            then intRange r.x r.w.toNat else []) : List ℤ) : Multiset ℤ)
      = ((if r.style = s ∧ r.y ≤ y ∧ y < r.y + r.h
          then intRange r.x r.w.toNat else [] : List ℤ) : Multiset ℤ)
        + ((l.flatMap (fun r => if r.style = s ∧ r.y ≤ y ∧ y < r.y + r.h
            then intRange r.x r.w.toNat else []) : List ℤ) : Multiset ℤ)
      from (Multiset.coe_add _ _).symm, ih]
    congr 1
    by_cases hs : r.style = s
    · unfold rowCov
      by_cases hy : r.y ≤ y ∧ y < r.y + r.h
      · rw [if_pos ⟨hs, hy.1, hy.2⟩, if_pos hs, if_pos hy]
      · rw [if_neg (by tauto), if_pos hs, if_neg hy]
        rfl
    · rw [if_neg (by tauto), if_neg hs]
      rfl

/-- Under a uniform input style, every style bucket key of the expanded
coverage map is that style. -/
theorem expandRows_style_keys (rs : List Rect) (t : Style)
    (hu : ∀ r ∈ rs, r.style = t) :
    ∀ yb ∈ expandRows rs, ∀ sb ∈ yb.2, sb.1 = t := by
  have step : ∀ (rows : Rows) (r : Rect), r.style = t →
      (∀ yb ∈ rows, ∀ sb ∈ yb.2, sb.1 = t) →
      (∀ yb ∈ expandRect rows r, ∀ sb ∈ yb.2, sb.1 = t) := by
    intro rows r hr
    unfold expandRect
    generalize intRange r.y r.h.toNat = L
    induction L generalizing rows with
    | nil =>
      intro h yb hyb
      exact h yb hyb
    | cons yy L ih =>
      intro h
      rw [List.foldl_cons]
      apply ih
      intro yb hyb sb hsb
      rcases mem_updA yy [] _ rows yb hyb with hin | heq
      · exact h yb hin sb hsb
      · rw [heq] at hsb
        rcases mem_updA r.style [] _ _ sb hsb with hin2 | heq2
        · rcases getD_mem_or_default yy ([] : List (Style × List ℤ)) rows with hd | hmem
          · rw [hd] at hin2
            exact absurd hin2 (List.not_mem_nil sb)
          · exact h _ hmem sb hin2
        · rw [heq2]
          exact hr
  have key : ∀ (l : List Rect) (rows₀ : Rows), (∀ r ∈ l, r.style = t) →
      (∀ yb ∈ rows₀, ∀ sb ∈ yb.2, sb.1 = t) →
      (∀ yb ∈ l.foldl expandRect rows₀, ∀ sb ∈ yb.2, sb.1 = t) := by
    intro l
    induction l with
    | nil =>
      intro rows₀ _ h
      exact h
    | cons r l ih =>
      intro rows₀ hl h
      rw [List.foldl_cons]
      exact ih _ (fun r hr => hl r (List.mem_cons_of_mem _ hr))
        (step rows₀ r (hl r (List.mem_cons_self r l)) h)
  exact key rs [] hu (fun yb h => absurd h (List.not_mem_nil yb))

/-- Every horizontal strip's style is a style-bucket key of its row. -/
theorem mergedH_style_mem (rows : Rows) (st : Rect) (hst : st ∈ mergedH rows) :
    ∃ yb ∈ rows, ∃ sb ∈ yb.2, st.style = sb.1 := by
  unfold mergedH at hst
  rcases List.mem_flatMap.mp hst with ⟨yb, hyb, h2⟩
  rcases List.mem_flatMap.mp h2 with ⟨sb, hsb, h4⟩
  by_cases he : sb.2 = []
  · rw [if_pos he] at h4
    exact absurd h4 (List.not_mem_nil st)
  · rw [if_neg he] at h4
    rcases List.mem_map.mp h4 with ⟨run, _, heq⟩
    subst heq
    exact ⟨yb, hyb, sb, hsb, rfl⟩

theorem mergedH_uniform (rs : List Rect) (t : Style) (hu : ∀ r ∈ rs, r.style = t) :
    ∀ st ∈ mergedH (expandRows rs), st.style = t := by
  intro st hst
  rcases mergedH_style_mem _ st hst with ⟨yb, hyb, sb, hsb, heq⟩
  rw [heq]
  exact expandRows_style_keys rs t hu yb hyb sb hsb

/-- Every vertical-merge group key comes from a strip. -/
theorem buildCols_key_mem (strips : List Rect) :
    ∀ g ∈ buildCols strips, ∃ st ∈ strips, g.1 = (st.x, st.w, st.style) := by
  suffices h : ∀ (l : List Rect) (d₀ : List ((ℤ × ℤ × Style) × List ℤ)),
      (∀ g ∈ d₀, ∃ st ∈ strips, g.1 = (st.x, st.w, st.style)) →
      (∀ st ∈ l, st ∈ strips) →
      ∀ g ∈ l.foldl (fun d st => updA (st.x, st.w, st.style) [] (fun ys => ys ++ [st.y]) d) d₀,
        ∃ st ∈ strips, g.1 = (st.x, st.w, st.style) by
    exact h strips [] (fun g hg => absurd hg (List.not_mem_nil g)) (fun st hst => hst)
  intro l
  induction l with
  | nil =>
    intro d₀ hd _ g hg
    exact hd g hg
  | cons st l ih =>
    intro d₀ hd hsub g hg
    rw [List.foldl_cons] at hg
    refine ih _ ?_ (fun st' hst' => hsub st' (List.mem_cons_of_mem _ hst')) g hg
    intro g₁ hg₁
    rcases mem_updA _ [] _ d₀ g₁ hg₁ with hin | heq
    · exact hd g₁ hin
    · rw [heq]
      exact ⟨st, hsub st (List.mem_cons_self st l), rfl⟩

theorem vmerge_style_mem (strips : List Rect) (r : Rect) (hr : r ∈ vmerge strips) :
    ∃ st ∈ strips, r.style = st.style := by
  unfold vmerge at hr
  rcases List.mem_flatMap.mp hr with ⟨g, hg, h2⟩
  rcases buildCols_key_mem strips g hg with ⟨st, hst, hkey⟩
  have h3 := mem_groupChunk h2
  refine ⟨st, hst, ?_⟩
  rw [hkey] at h3
  have := congrArg (fun p : ℤ × ℤ × Style => p.2.2) h3
  exact this

theorem buildRectList_uniform (rs : List Rect) (vm : Bool) (t : Style)
    (hu : ∀ r ∈ rs, r.style = t) :
    ∀ r ∈ buildRectList rs vm, r.style = t := by
  intro r hr
  unfold buildRectList at hr
  have hr2 := (List.perm_insertionSort keyLe _).subset hr
  cases vm with
  | false =>
    rw [if_neg (by simp)] at hr2
    exact mergedH_uniform rs t hu r hr2
  | true =>
    rw [if_pos rfl] at hr2
    rcases vmerge_style_mem _ r hr2 with ⟨st, hst, heq⟩
    rw [heq]
    exact mergedH_uniform rs t hu st hst

theorem vmerge_w_pos (strips : List Rect) (hw : ∀ st ∈ strips, 1 ≤ st.w) :
    ∀ r ∈ vmerge strips, 1 ≤ r.w := by
  intro r hr
  unfold vmerge at hr
  rcases List.mem_flatMap.mp hr with ⟨g, hg, h2⟩
  rcases buildCols_key_mem strips g hg with ⟨st, hst, hkey⟩
  have h3 := mem_groupChunk h2
  rw [hkey] at h3
  have hwid : r.w = st.w := congrArg (fun p : ℤ × ℤ × Style => p.2.1) h3
  rw [hwid]
  exact hw st hst

/-- Every output rectangle has positive width and height. -/
theorem buildRectList_pos (rs : List Rect) (vm : Bool) :
    ∀ r ∈ buildRectList rs vm, 1 ≤ r.w ∧ 1 ≤ r.h := by
  intro r hr
  unfold buildRectList at hr
  have hr2 := (List.perm_insertionSort keyLe _).subset hr
  cases vm with
  | false =>
    rw [if_neg (by simp)] at hr2
    refine ⟨mergedH_w_pos _ r hr2, ?_⟩
    rw [mergedH_h_one _ r hr2]
  | true =>
    rw [if_pos rfl] at hr2
    exact ⟨vmerge_w_pos _ (mergedH_w_pos _) r hr2, vmerge_h_pos _ r hr2⟩

theorem buildRectList_ne_nil (rs : List Rect) (vm : Bool) (hne : rs ≠ [])
    (hpos : ∀ r ∈ rs, 1 ≤ r.w ∧ 1 ≤ r.h) :
    buildRectList rs vm ≠ [] := by
  obtain ⟨r₀, l, rfl⟩ := List.exists_cons_of_ne_nil hne
  have hmem : r₀.x ∈ rowCovList (r₀ :: l) r₀.style r₀.y := by
    rw [mem_rowCovList]
    obtain ⟨hw, hh⟩ := hpos r₀ (List.mem_cons_self r₀ l)
    exact ⟨r₀, List.mem_cons_self r₀ l, rfl, le_refl _, by omega, le_refl _, by omega⟩
  rw [← rowCovList_buildRectList (r₀ :: l) vm] at hmem
  rw [mem_rowCovList] at hmem
  obtain ⟨r, hr, _⟩ := hmem
  intro hnil
  rw [hnil] at hr
  exact absurd hr (List.not_mem_nil r)

theorem getA_cons {κ β : Type} [DecidableEq κ] (k : κ) (kv : κ × β) (l : List (κ × β)) :
    getA k (kv :: l) = if k = kv.1 then some kv.2 else getA k l := rfl

theorem getD_cons {κ β : Type} [DecidableEq κ] (k : κ) (d : β) (kv : κ × β)
    (l : List (κ × β)) :
    getD k d (kv :: l) = if k = kv.1 then kv.2 else getD k d l := by
  unfold getD
  rw [getA_cons]
  by_cases hc : k = kv.1
  · rw [if_pos hc, if_pos hc]
  · rw [if_neg hc, if_neg hc]

theorem getD_eq_default_of_not_key {κ β : Type} [DecidableEq κ] (k : κ) (d : β)
    (l : List (κ × β)) (h : ∀ kv ∈ l, kv.1 ≠ k) : getD k d l = d := by
  unfold getD
  rw [getA_eq_none_of_not_key k l h]

theorem count_map_mkStrip (runs : List (ℤ × ℤ)) (y₀ : ℤ) (s₀ : Style) (st : Rect)
    (hy : st.y = y₀) (hh : st.h = 1) (hs : st.style = s₀) :
    ((runs.map (fun run => (⟨run.1, y₀, run.2, 1, s₀⟩ : Rect))).count st)
      = runs.count (st.x, st.w) := by
  induction runs with
  | nil => rfl
  | cons run runs ih =>
    rw [List.map_cons, List.count_cons, List.count_cons, ih]
    congr 1
    by_cases heq : (st.x, st.w) = run
    · have hx : st.x = run.1 := congrArg Prod.fst heq
      have hw : st.w = run.2 := congrArg Prod.snd heq
      have h1 : ((⟨run.1, y₀, run.2, 1, s₀⟩ : Rect) == st) = true := by
        rw [beq_iff_eq]
        cases st
        simp_all
      have h2 : (run == (st.x, st.w)) = true := by
        rw [beq_iff_eq, ← heq]
      rw [if_pos h1, if_pos h2]
    · have h1 : ¬ ((⟨run.1, y₀, run.2, 1, s₀⟩ : Rect) == st) = true := by
        rw [beq_iff_eq]
        intro hre
        refine heq ?_
        have hx : run.1 = st.x := congrArg Rect.x hre
        have hw : run.2 = st.w := congrArg Rect.w hre
        cases run
        simp_all
      have h2 : ¬ (run == (st.x, st.w)) = true := by
        rw [beq_iff_eq]
        intro hre
        exact heq (hre.symm)
      rw [if_neg h1, if_neg h2]

theorem count_rowChunk (smap : List (Style × List ℤ)) (hk : KeysND smap) (y₀ : ℤ)
    (st : Rect) (hy : st.y = y₀) (hh : st.h = 1) :
    ((smap.flatMap (fun sb => if sb.2 = [] then []
        else (runsOf (pySort sb.2)).map
          (fun run => (⟨run.1, y₀, run.2, 1, sb.1⟩ : Rect)))).count st)
      = (runsOf (pySort (getD st.style [] smap))).count (st.x, st.w) := by
  induction smap with
  | nil => rfl
  | cons sb smap ih =>
    rw [List.flatMap_cons, List.count_append]
    have hknd : KeysND smap := (List.nodup_cons.mp hk).2
    have hknot : sb.1 ∉ smap.map Prod.fst := (List.nodup_cons.mp hk).1
    have hgetD : getD st.style ([] : List ℤ) (sb :: smap)
        = if st.style = sb.1 then sb.2 else getD st.style [] smap :=
      getD_cons st.style [] sb smap
    by_cases hssb : st.style = sb.1
    · rw [hgetD, if_pos hssb]
      have htail : ((smap.flatMap (fun sb => if sb.2 = [] then []
          else (runsOf (pySort sb.2)).map
            (fun run => (⟨run.1, y₀, run.2, 1, sb.1⟩ : Rect)))).count st) = 0 := by
        rw [List.count_eq_zero]
        intro hmem
        rcases List.mem_flatMap.mp hmem with ⟨sb', hsb', hchunk⟩
        have hstyle := (mem_styleChunk hchunk).1
        exact hknot (hssb ▸ hstyle ▸ List.mem_map_of_mem Prod.fst hsb')
      rw [htail, add_zero]
      by_cases he : sb.2 = []
      · rw [if_pos he, he]
        rfl
      · rw [if_neg he]
        exact count_map_mkStrip _ y₀ sb.1 st hy hh hssb
    · rw [hgetD, if_neg hssb]
      have hhead : ((if sb.2 = [] then []
          else (runsOf (pySort sb.2)).map
            (fun run => (⟨run.1, y₀, run.2, 1, sb.1⟩ : Rect))).count st) = 0 := by
        rw [List.count_eq_zero]
        intro hmem
        exact hssb (mem_styleChunk hmem).1
      rw [hhead, zero_add]
      exact ih hknd

theorem count_mergedH (rows : Rows) (hkr : KeysND rows)
    (hks : ∀ yb ∈ rows, KeysND yb.2) (st : Rect) (hh : st.h = 1) :
    ((mergedH rows).count st)
      = (runsOf (pySort (getBucket rows st.y st.style))).count (st.x, st.w) := by
  induction rows with
  | nil => rfl
  | cons yb rest ih =>
    unfold mergedH
    rw [List.flatMap_cons, List.count_append]
    have hknd : KeysND rest := (List.nodup_cons.mp hkr).2
    have hknot : yb.1 ∉ rest.map Prod.fst := (List.nodup_cons.mp hkr).1
    have hgetRow : getD st.y ([] : List (Style × List ℤ)) (yb :: rest)
        = if st.y = yb.1 then yb.2 else getD st.y [] rest :=
      getD_cons st.y [] yb rest
    by_cases hyy : st.y = yb.1
    · have htail : ((mergedH rest).count st) = 0 := by
        have hbr : getBucket rest st.y st.style = [] := by
          unfold getBucket
          rw [getD_eq_default_of_not_key st.y [] rest
            (fun kv hkv heq => hknot (hyy ▸ heq ▸ List.mem_map_of_mem Prod.fst hkv))]
          rfl
        have := ih hknd (fun yb h => hks yb (List.mem_cons_of_mem _ h))
        rw [this, hbr]
        rfl
      show ((yb.2.flatMap fun sb => if sb.2 = [] then []
          else (runsOf (pySort sb.2)).map
            (fun run => (⟨run.1, yb.1, run.2, 1, sb.1⟩ : Rect))).count st)
          + ((mergedH rest).count st) = _
      rw [htail, add_zero,
        count_rowChunk yb.2 (hks yb (List.mem_cons_self yb rest)) yb.1 st hyy hh]
      unfold getBucket
      rw [hgetRow, if_pos hyy]
    · have hhead : ((yb.2.flatMap fun sb => if sb.2 = [] then []
          else (runsOf (pySort sb.2)).map
            (fun run => (⟨run.1, yb.1, run.2, 1, sb.1⟩ : Rect))).count st) = 0 := by
        rw [List.count_eq_zero]
        intro hmem
        rcases List.mem_flatMap.mp hmem with ⟨sb', hsb', hchunk⟩
        exact hyy (mem_styleChunk hchunk).2
      show ((yb.2.flatMap fun sb => if sb.2 = [] then []
          else (runsOf (pySort sb.2)).map
            (fun run => (⟨run.1, yb.1, run.2, 1, sb.1⟩ : Rect))).count st)
          + ((mergedH rest).count st) = _
      rw [hhead, zero_add, ih hknd (fun yb h => hks yb (List.mem_cons_of_mem _ h))]
      unfold getBucket
      rw [hgetRow, if_neg hyy]

theorem count_mergedH_h_ne (rows : Rows) (st : Rect) (hh : st.h ≠ 1) :
    ((mergedH rows).count st) = 0 := by
  rw [List.count_eq_zero]
  intro hmem
  exact hh (mergedH_h_one rows st hmem)

theorem count_map_mkVert (runs : List (ℤ × ℤ)) (x₀ w₀ : ℤ) (s₀ : Style) (r : Rect)
    (hx : r.x = x₀) (hw : r.w = w₀) (hs : r.style = s₀) :
    ((runs.map (fun run => (⟨x₀, run.1, w₀, run.2, s₀⟩ : Rect))).count r)
      = runs.count (r.y, r.h) := by
  induction runs with
  | nil => rfl
  | cons run runs ih =>
    rw [List.map_cons, List.count_cons, List.count_cons, ih]
    congr 1
    by_cases heq : (r.y, r.h) = run
    · have hy : r.y = run.1 := congrArg Prod.fst heq
      have hhh : r.h = run.2 := congrArg Prod.snd heq
      have h1 : ((⟨x₀, run.1, w₀, run.2, s₀⟩ : Rect) == r) = true := by
        rw [beq_iff_eq]
        cases r
        simp_all
      have h2 : (run == (r.y, r.h)) = true := by
        rw [beq_iff_eq, ← heq]
      rw [if_pos h1, if_pos h2]
    · have h1 : ¬ ((⟨x₀, run.1, w₀, run.2, s₀⟩ : Rect) == r) = true := by
        rw [beq_iff_eq]
        intro hre
        refine heq ?_
        have hy : run.1 = r.y := congrArg Rect.y hre
        have hhh : run.2 = r.h := congrArg Rect.h hre
        cases run
        simp_all
      have h2 : ¬ (run == (r.y, r.h)) = true := by
        rw [beq_iff_eq]
        intro hre
        exact heq (hre.symm)
      rw [if_neg h1, if_neg h2]

theorem count_vmerge (strips : List Rect) (r : Rect) :
    ((vmerge strips).count r)
      = (runsOf (pySort (getD (r.x, r.w, r.style) [] (buildCols strips)))).count (r.y, r.h) := by
  suffices key : ∀ (d : List ((ℤ × ℤ × Style) × List ℤ)), KeysND d →
      ((d.flatMap (fun g => (runsOf (pySort g.2)).map
          (fun run => (⟨g.1.1, run.1, g.1.2.1, run.2, g.1.2.2⟩ : Rect)))).count r)
        = (runsOf (pySort (getD (r.x, r.w, r.style) [] d))).count (r.y, r.h) by
    exact key (buildCols strips) (buildCols_keysND strips)
  intro d
  induction d with
  | nil =>
    intro _
    rfl
  | cons g rest ih =>
    intro hknd
    rw [List.flatMap_cons, List.count_append, getD_cons]
    have hnotin : g.1 ∉ rest.map Prod.fst := (List.nodup_cons.mp hknd).1
    by_cases hkey : (r.x, r.w, r.style) = g.1
    · rw [if_pos hkey]
      have htail : ((rest.flatMap (fun g => (runsOf (pySort g.2)).map
          (fun run => (⟨g.1.1, run.1, g.1.2.1, run.2, g.1.2.2⟩ : Rect)))).count r) = 0 := by
        rw [List.count_eq_zero]
        intro hmem
        rcases List.mem_flatMap.mp hmem with ⟨g', hg', hchunk⟩
        have hk2 := mem_groupChunk hchunk
        exact hnotin (hkey ▸ hk2 ▸ List.mem_map_of_mem Prod.fst hg')
      rw [htail, add_zero]
      exact count_map_mkVert _ _ _ _ r
        (congrArg (fun p : ℤ × ℤ × Style => p.1) hkey)
        (congrArg (fun p : ℤ × ℤ × Style => p.2.1) hkey)
        (congrArg (fun p : ℤ × ℤ × Style => p.2.2) hkey)
    · rw [if_neg hkey]
      have hhead : (((runsOf (pySort g.2)).map
          (fun run => (⟨g.1.1, run.1, g.1.2.1, run.2, g.1.2.2⟩ : Rect))).count r) = 0 := by
        rw [List.count_eq_zero]
        intro hmem
        exact hkey (mem_groupChunk hmem)
      rw [hhead, zero_add]
      exact ih (List.nodup_cons.mp hknd).2

theorem count_map_restyle (t t' : Style) (l : List Rect) (hu : ∀ x ∈ l, x.style = t)
    (r : Rect) (hr : r.style = t) :
    ((l.map (restyle t')).count (restyle t' r)) = l.count r := by
  induction l with
  | nil => rfl
  | cons x l ih =>
    rw [List.map_cons, List.count_cons, List.count_cons,
      ih (fun x hx => hu x (List.mem_cons_of_mem _ hx))]
    congr 1
    have hx := hu x (List.mem_cons_self x l)
    by_cases heq : x = r
    · subst heq
      rw [if_pos (beq_iff_eq.mpr rfl), if_pos (beq_iff_eq.mpr rfl)]
    · have h1 : ¬ (restyle t' x == restyle t' r) = true := by
        rw [beq_iff_eq]
        intro hre
        refine heq ?_
        unfold restyle at hre
        have h1 := congrArg Rect.x hre
        have h2 := congrArg Rect.y hre
        have h3 := congrArg Rect.w hre
        have h4 := congrArg Rect.h hre
        cases x
        cases r
        simp_all
      rw [if_neg h1, if_neg (fun hre => heq (beq_iff_eq.mp hre))]

theorem count_map_restyle_ne (t' : Style) (l : List Rect) (r : Rect)
    (hr : r.style ≠ t') : ((l.map (restyle t')).count r) = 0 := by
  rw [List.count_eq_zero]
  intro hmem
  rcases List.mem_map.mp hmem with ⟨x, _, heq⟩
  exact hr (by rw [← heq]; rfl)

theorem getBucket_uniform_ne (rs : List Rect) (t' : Style)
    (hu : ∀ r ∈ rs, r.style = t') (y : ℤ) (s : Style) (hs : s ≠ t') :
    getBucket (expandRows rs) y s = [] := by
  rw [getBucket_expandRows]
  induction rs with
  | nil => rfl
  | cons r l ih =>
    rw [List.flatMap_cons,
      if_neg (fun hc => hs ((hu r (List.mem_cons_self r l)) ▸ hc.1.symm)),
      List.nil_append]
    exact ih (fun r hr => hu r (List.mem_cons_of_mem _ hr))

/-- With uniform input styles and equal per-row coverage, the horizontal
merges of two inputs agree up to the style relabeling, as multisets. -/
theorem mergedH_restyle_perm (rs₁ rs₂ : List Rect) (t t' : Style)
    (hu₁ : ∀ r ∈ rs₁, r.style = t) (hu₂ : ∀ r ∈ rs₂, r.style = t')
    (hcov : ∀ y, rowCovList rs₂ t' y = rowCovList rs₁ t y) :
    List.Perm (mergedH (expandRows rs₂)) ((mergedH (expandRows rs₁)).map (restyle t')) := by
  rw [List.perm_iff_count]
  intro st
  obtain ⟨hk₁, hks₁⟩ := expandRows_keysND rs₁
  obtain ⟨hk₂, hks₂⟩ := expandRows_keysND rs₂
  by_cases hh : st.h = 1
  · by_cases hst : st.style = t'
    · -- styles match: counts through the bucket multisets
      set st₀ : Rect := restyle t st with hst₀
      have hre : restyle t' st₀ = st := by
        rw [hst₀]
        unfold restyle
        cases st
        simp_all
      have hbucket : pySort (getBucket (expandRows rs₂) st.y st.style)
          = pySort (getBucket (expandRows rs₁) st₀.y st₀.style) := by
        refine pySort_eq_of_perm ?_
        rw [← Multiset.coe_eq_coe, getBucket_expandRows_coe, getBucket_expandRows_coe]
        show rowCovList rs₂ st.style st.y = rowCovList rs₁ st₀.style st₀.y
        rw [hst, show st₀.style = t from rfl, show st₀.y = st.y from rfl]
        exact hcov st.y
      rw [count_mergedH _ hk₂ hks₂ st hh, hbucket]
      show List.count (st₀.x, st₀.w)
        (runsOf (pySort (getBucket (expandRows rs₁) st₀.y st₀.style))) = _
      rw [← count_mergedH _ hk₁ hks₁ st₀ (show st₀.h = 1 from hh), ← hre,
        count_map_restyle t t' _ (mergedH_uniform rs₁ t hu₁) st₀ rfl]
    · -- style absent on both sides
      rw [count_mergedH _ hk₂ hks₂ st hh,
        getBucket_uniform_ne rs₂ t' hu₂ st.y st.style hst,
        count_map_restyle_ne t' _ st hst]
      rfl
  · rw [count_mergedH_h_ne _ st hh]
    refine (List.count_eq_zero.mpr ?_).symm
    intro hmem
    rcases List.mem_map.mp hmem with ⟨x, hx, heq⟩
    refine hh ?_
    rw [← heq, show (restyle t' x).h = x.h from rfl]
    exact mergedH_h_one _ x hx

theorem vmerge_uniform (strips : List Rect) (t : Style)
    (hu : ∀ st ∈ strips, st.style = t) : ∀ z ∈ vmerge strips, z.style = t := by
  intro z hz
  rcases vmerge_style_mem _ z hz with ⟨st', hst', heq⟩
  rw [heq]
  exact hu st' hst'

/-- The vertical merge commutes (as a multiset) with a uniform style
relabeling of its strips. -/
theorem vmerge_restyle_perm (strips₁ strips₂ : List Rect) (t t' : Style)
    (hu₁ : ∀ st ∈ strips₁, st.style = t)
    (hperm : List.Perm strips₂ (strips₁.map (restyle t'))) :
    List.Perm (vmerge strips₂) ((vmerge strips₁).map (restyle t')) := by
  rw [List.perm_iff_count]
  intro r
  by_cases hst : r.style = t'
  · set r₀ : Rect := restyle t r with hr₀
    have hre : restyle t' r₀ = r := by
      rw [hr₀]
      unfold restyle
      cases r
      simp_all
    have hfil : ((strips₁.map (restyle t')).filter
          (fun st => decide ((st.x, st.w, st.style) = (r.x, r.w, r.style)))).map Rect.y
        = (strips₁.filter
            (fun st => decide ((st.x, st.w, st.style) = (r₀.x, r₀.w, r₀.style)))).map Rect.y := by
      rw [List.filter_map, List.map_map]
      rw [show Rect.y ∘ restyle t' = Rect.y from rfl]
      congr 1
      refine List.filter_congr ?_
      intro st hst₁
      have hsty := hu₁ st hst₁
      show decide (((restyle t' st).x, (restyle t' st).w, (restyle t' st).style)
          = (r.x, r.w, r.style))
        = decide ((st.x, st.w, st.style) = (r₀.x, r₀.w, r₀.style))
      rw [decide_eq_decide]
      show ((st.x, st.w, t') = (r.x, r.w, r.style)) ↔ _
      rw [hst, hsty]
      show _ ↔ ((st.x, st.w, t) = (r.x, r.w, t))
      constructor
      · intro h
        have h1 := congrArg (fun p : ℤ × ℤ × Style => p.1) h
        have h2 := congrArg (fun p : ℤ × ℤ × Style => p.2.1) h
        simp_all
      · intro h
        have h1 := congrArg (fun p : ℤ × ℤ × Style => p.1) h
        have h2 := congrArg (fun p : ℤ × ℤ × Style => p.2.1) h
        simp_all
    have hys : pySort ((strips₂.filter
          (fun st => decide ((st.x, st.w, st.style) = (r.x, r.w, r.style)))).map Rect.y)
        = pySort (getD (r₀.x, r₀.w, r₀.style) [] (buildCols strips₁)) := by
      rw [getD_buildCols]
      refine pySort_eq_of_perm ?_
      have h1 := (hperm.filter
        (fun st => decide ((st.x, st.w, st.style) = (r.x, r.w, r.style)))).map Rect.y
      rw [hfil] at h1
      exact h1
    rw [count_vmerge strips₂ r, getD_buildCols, hys]
    show List.count (r₀.y, r₀.h)
      (runsOf (pySort (getD (r₀.x, r₀.w, r₀.style) [] (buildCols strips₁)))) = _
    rw [← count_vmerge strips₁ r₀, ← hre,
      count_map_restyle t t' _ (vmerge_uniform strips₁ t hu₁) r₀ rfl]
  · rw [count_vmerge strips₂ r, getD_buildCols]
    have hnil : strips₂.filter
        (fun st => decide ((st.x, st.w, st.style) = (r.x, r.w, r.style))) = [] := by
      rw [List.filter_eq_nil_iff]
      intro st hmem
      have hst' : st.style = t' := by
        rcases List.mem_map.mp (hperm.subset hmem) with ⟨x, _, heq⟩
        rw [← heq]
        rfl
      intro hdec
      have h := of_decide_eq_true hdec
      have h2 := congrArg (fun p : ℤ × ℤ × Style => p.2.2) h
      have h3 : st.style = r.style := h2
      rw [hst'] at h3
      exact hst h3.symm
    rw [hnil, count_map_restyle_ne t' _ r hst]
    rfl

/-- The sort key of an output rectangle: `(y, x, w, h)`. -/
def rectKey (r : Rect) : ℤ × ℤ × ℤ × ℤ := (r.y, r.x, r.w, r.h)

/-- Lexicographic comparison of sort keys. -/
def Le4 (a b : ℤ × ℤ × ℤ × ℤ) : Prop :=
  a.1 < b.1 ∨ a.1 = b.1 ∧ (a.2.1 < b.2.1 ∨ a.2.1 = b.2.1
    ∧ (a.2.2.1 < b.2.2.1 ∨ a.2.2.1 = b.2.2.1 ∧ a.2.2.2 ≤ b.2.2.2))

instance : IsAntisymm (ℤ × ℤ × ℤ × ℤ) Le4 := by
  constructor
  intro a b h1 h2
  obtain ⟨a1, a2, a3, a4⟩ := a
  obtain ⟨b1, b2, b3, b4⟩ := b
  unfold Le4 at h1 h2
  simp only [Prod.mk.injEq]
  dsimp only at h1 h2
  omega

theorem keyLe_iff_le4 (a b : Rect) : keyLe a b ↔ Le4 (rectKey a) (rectKey b) := by
  unfold keyLe Le4 rectKey
  dsimp only
  omega

theorem sorted_map_rectKey {l : List Rect} (h : List.Sorted keyLe l) :
    List.Sorted Le4 (l.map rectKey) := by
  rw [List.Sorted, List.pairwise_map]
  exact h.imp (fun hab => (keyLe_iff_le4 _ _).mp hab)

theorem eq_of_rectKey_map (t' : Style) :
    ∀ (l₁ l₂ : List Rect), (∀ r ∈ l₁, r.style = t') → (∀ r ∈ l₂, r.style = t') →
      l₁.map rectKey = l₂.map rectKey → l₁ = l₂ := by
  intro l₁
  induction l₁ with
  | nil =>
    intro l₂ _ _ h
    cases l₂ with
    | nil => rfl
    | cons r l => exact absurd h (by simp)
  | cons r₁ l₁ ih =>
    intro l₂ hu₁ hu₂ h
    cases l₂ with
    | nil => exact absurd h (by simp)
    | cons r₂ l₂ =>
      rw [List.map_cons, List.map_cons] at h
      have hhead : rectKey r₁ = rectKey r₂ := (List.cons.injEq _ _ _ _ ▸ h).1
      have htail : l₁.map rectKey = l₂.map rectKey := (List.cons.injEq _ _ _ _ ▸ h).2
      have hr : r₁ = r₂ := by
        have hs₁ := hu₁ r₁ (List.mem_cons_self r₁ l₁)
        have hs₂ := hu₂ r₂ (List.mem_cons_self r₂ l₂)
        unfold rectKey at hhead
        have h1 := congrArg (fun p : ℤ × ℤ × ℤ × ℤ => p.1) hhead
        have h2 := congrArg (fun p : ℤ × ℤ × ℤ × ℤ => p.2.1) hhead
        have h3 := congrArg (fun p : ℤ × ℤ × ℤ × ℤ => p.2.2.1) hhead
        have h4 := congrArg (fun p : ℤ × ℤ × ℤ × ℤ => p.2.2.2) hhead
        cases r₁
        cases r₂
        simp_all
      rw [hr, ih l₂ (fun r hr => hu₁ r (List.mem_cons_of_mem _ hr))
        (fun r hr => hu₂ r (List.mem_cons_of_mem _ hr)) htail]

/-- Two sorted, uniformly-styled rectangle lists that agree as multisets
are equal: the sort key determines everything except the (shared) style. -/
theorem sorted_unique_uniform (t' : Style) (l₁ l₂ : List Rect)
    (hperm : List.Perm l₁ l₂) (hs₁ : List.Sorted keyLe l₁)
    (hs₂ : List.Sorted keyLe l₂) (hu : ∀ r ∈ l₁, r.style = t') : l₁ = l₂ := by
  have hu₂ : ∀ r ∈ l₂, r.style = t' := fun r hr => hu r (hperm.symm.subset hr)
  refine eq_of_rectKey_map t' l₁ l₂ hu hu₂ ?_
  exact List.eq_of_perm_of_sorted (hperm.map rectKey)
    (sorted_map_rectKey hs₁) (sorted_map_rectKey hs₂)

theorem sorted_map_restyle {t' : Style} {l : List Rect}
    (h : List.Sorted keyLe l) : List.Sorted keyLe (l.map (restyle t')) := by
  rw [List.Sorted, List.pairwise_map]
  exact h.imp (fun hab => hab)

/-- Sorting commutes with the style relabeling up to the multiset argument:
the canonical sort of anything perm-equal to the relabeled pre-list is the
relabeled canonical sort. -/
theorem canonSort_restyle (pre₁ pre₂ : List Rect) (t t' : Style)
    ( _hu₁ : ∀ r ∈ pre₁, r.style = t)
    (hperm : List.Perm pre₂ (pre₁.map (restyle t'))) :
    canonSort pre₂ = (canonSort pre₁).map (restyle t') := by
  refine sorted_unique_uniform t' _ _ ?_ ?_ ?_ ?_
  · refine (List.perm_insertionSort keyLe pre₂).trans (hperm.trans ?_)
    exact (List.perm_insertionSort keyLe pre₁).symm.map (restyle t')
  · exact List.sorted_insertionSort keyLe pre₂
  · exact sorted_map_restyle (List.sorted_insertionSort keyLe pre₁)
  · intro r hr
    have hr2 := (List.perm_insertionSort keyLe pre₂).subset hr
    rcases List.mem_map.mp (hperm.subset hr2) with ⟨x, _, heq⟩
    rw [← heq]
    rfl

/-- buildRectList maps uniformly-styled inputs with equal per-row coverage
to the same output up to the style relabeling. -/
theorem buildRectList_restyle (rs₁ rs₂ : List Rect) (vm : Bool) (t t' : Style)
    (hu₁ : ∀ r ∈ rs₁, r.style = t) (hu₂ : ∀ r ∈ rs₂, r.style = t')
    (hcov : ∀ y, rowCovList rs₂ t' y = rowCovList rs₁ t y) :
    buildRectList rs₂ vm = (buildRectList rs₁ vm).map (restyle t') := by
  have hperm := mergedH_restyle_perm rs₁ rs₂ t t' hu₁ hu₂ hcov
  cases vm with
  | false =>
    show canonSort (mergedH (expandRows rs₂)) = (canonSort (mergedH (expandRows rs₁))).map _
    exact canonSort_restyle _ _ t t' (mergedH_uniform rs₁ t hu₁) hperm
  | true =>
    show canonSort (vmerge (mergedH (expandRows rs₂)))
      = (canonSort (vmerge (mergedH (expandRows rs₁)))).map _
    refine canonSort_restyle _ _ t t' (vmerge_uniform _ t (mergedH_uniform rs₁ t hu₁)) ?_
    exact vmerge_restyle_perm _ _ t t' (mergedH_uniform rs₁ t hu₁) hperm

theorem rowCov_restyle (t' : Style) (r : Rect) (y : ℤ) :
    rowCov (restyle t' r) y = rowCov r y := rfl

theorem rowCovList_map_restyle (t t' : Style) (l : List Rect)
    (hu : ∀ r ∈ l, r.style = t) (y : ℤ) :
    rowCovList (l.map (restyle t')) t' y = rowCovList l t y := by
  induction l with
  | nil => rfl
  | cons r l ih =>
    rw [List.map_cons, rowCovList_cons, rowCovList_cons,
      ih (fun r hr => hu r (List.mem_cons_of_mem _ hr))]
    congr 1
    rw [if_pos (show (restyle t' r).style = t' from rfl),
      if_pos (hu r (List.mem_cons_self r l)), rowCov_restyle]

theorem toRaw_pos (e : Elem) : 1 ≤ (toRaw e).w ∧ 1 ≤ (toRaw e).h := by
  constructor
  · show 1 ≤ (if asInt e.width 1 ≤ 0 then 1 else asInt e.width 1)
    split <;> omega
  · show 1 ≤ (if asInt e.height 1 ≤ 0 then 1 else asInt e.height 1)
    split <;> omega

theorem toRaw_style2_shape (e : Elem) :
    ∃ o : Option String, (toRaw e).style.2 = round6 (normOpacity o) := by
  cases ho : getA "opacity" (parseStyle e.style) with
  | none =>
    refine ⟨e.opacity, ?_⟩
    simp only [toRaw]
    rw [ho]
  | some v =>
    refine ⟨some v, ?_⟩
    simp only [toRaw]
    rw [ho]

theorem toRaw_op_bounds (e : Elem) :
    0 ≤ (toRaw e).style.2 ∧ (toRaw e).style.2 ≤ 1 := by
  obtain ⟨o, heq⟩ := toRaw_style2_shape e
  rw [heq]
  obtain ⟨h0, h1⟩ := normOpacity_bounds o
  exact round6_bounds h0 h1

theorem optimizeOutDoc_ok (d : InDoc) (vm : Bool) (hne : findRects d ≠ []) :
    optimizeOutDoc d vm
      = .ok ⟨outRootAttrs d.rootAttrs, buildRectList ((findRects d).map toRaw) vm⟩ := by
  unfold optimizeOutDoc buildFromDoc
  rw [if_neg hne]

theorem findRects_reparse (out : OutDoc) :
    findRects (reparseDoc out) = (reparseDoc out).elems := by
  unfold findRects
  refine List.filter_eq_self.mpr ?_
  intro e he
  unfold reparseDoc at he
  rcases List.mem_map.mp he with ⟨r, _, heq⟩
  rw [← heq]
  exact decide_eq_true rfl

theorem rectAttrs_restyle (r : Rect) (s : String) (op : ℚ)
    (hsty : r.style = (s, op)) ( _h0 : 0 ≤ op) (h1 : op ≤ 1)
    (hband : 1 / 1000000 < |op - 1| → rhe (op * 10000) ≠ 10000) :
    rectAttrs (restyle (s, opRT op) r) = rectAttrs r := by
  unfold rectAttrs
  rw [show (restyle (s, opRT op) r).x = r.x from rfl,
    show (restyle (s, opRT op) r).y = r.y from rfl,
    show (restyle (s, opRT op) r).w = r.w from rfl,
    show (restyle (s, opRT op) r).h = r.h from rfl,
    show (restyle (s, opRT op) r).style = (s, opRT op) from rfl, hsty]
  show _ ++ (if 1 / 1000000 < |opRT op - 1| then [("opacity", fmtOpacity (opRT op))] else [])
    = _ ++ (if 1 / 1000000 < |op - 1| then [("opacity", fmtOpacity op)] else [])
  congr 1
  unfold opRT
  by_cases hb : 1 / 1000000 < |op - 1|
  · rw [if_pos hb, if_pos hb]
    have hN : rhe (op * 10000) ≤ 10000 := by
      refine rhe_le (M := 10000) ?_
      push_cast
      linarith
    have hb2 : 1 / 1000000 < |((rhe (op * 10000) : ℤ) : ℚ) / 10000 - 1| :=
      (opacity_band_iff (rhe (op * 10000)) hN).mpr (hband hb)
    rw [if_pos hb2, fmtOpacity_roundtrip_stable]
  · rw [if_neg hb, if_neg hb]
    have hb2 : ¬ (1 / 1000000 < |(1 : ℚ) - 1|) := by norm_num
    rw [if_neg hb2]

theorem optimizeBytes_of_ok {d : InDoc} {vm : Bool} {out : OutDoc}
    (h : optimizeOutDoc d vm = .ok out) :
    optimizeBytes d vm = .ok (renderDoc out, out.rects.length) := by
  unfold optimizeBytes
  rw [h]

theorem rerunBytes_of_ok {d : InDoc} {vm : Bool} {out : OutDoc}
    (h : optimizeOutDoc d vm = .ok out) :
    rerunBytes d vm = optimizeBytes (reparseDoc out) vm := by
  unfold rerunBytes
  rw [h]

/-- A single re-serialized element. -/
def elemOf (r : Rect) : Elem :=
  ⟨rectTag, some (intToStr r.x), some (intToStr r.y), some (intToStr r.w),
    some (intToStr r.h), some r.style.1, none,
    if 1 / 1000000 < |r.style.2 - 1| then some (fmtOpacity r.style.2) else none⟩

theorem reparseDoc_elems (out : OutDoc) :
    (reparseDoc out).elems = out.rects.map elemOf := rfl

/-- C3 (amended): byte idempotence for single-style documents away from the
opacity rounding band.  For any parsed document whose rect elements all
read back as one common style, and whose common opacity either equals 1
within the serializer's 1e-6 tolerance or does not round to exactly
1.0000 at 4 decimals, re-running the pipeline on the parsed serialized
output yields byte-identical output with the same rectangle count. -/
theorem idempotence_amended (d : InDoc) (vm : Bool) (s : String) (op : ℚ)
    (hne : findRects d ≠ [])
    (hstyle : ∀ e ∈ findRects d, (toRaw e).style = (s, op))
    (hband : 1 / 1000000 < |op - 1| → rhe (op * 10000) ≠ 10000) :
    rerunBytes d vm = optimizeBytes d vm := by
  obtain ⟨e₀, he₀⟩ := List.exists_mem_of_ne_nil (findRects d) hne
  have hopb : 0 ≤ op ∧ op ≤ 1 := by
    have h := toRaw_op_bounds e₀
    rw [hstyle e₀ he₀] at h
    exact h
  set rs₁ := (findRects d).map toRaw with hrs₁
  have hu₁ : ∀ r ∈ rs₁, r.style = (s, op) := by
    intro r hr
    rcases List.mem_map.mp hr with ⟨e, he, heq⟩
    rw [← heq]
    exact hstyle e he
  set rl1 := buildRectList rs₁ vm with hrl1
  have hu₁' : ∀ r ∈ rl1, r.style = (s, op) := buildRectList_uniform rs₁ vm (s, op) hu₁
  have hok := optimizeOutDoc_ok d vm hne
  have hrs₁ne : rs₁ ≠ [] := by
    intro h
    exact hne (List.map_eq_nil_iff.mp h)
  have hpos₁ : ∀ r ∈ rs₁, 1 ≤ r.w ∧ 1 ≤ r.h := by
    intro r hr
    rcases List.mem_map.mp hr with ⟨e, _, heq⟩
    rw [← heq]
    exact toRaw_pos e
  have hrl1ne : rl1 ≠ [] := buildRectList_ne_nil rs₁ vm hrs₁ne hpos₁
  set out1 : OutDoc := ⟨outRootAttrs d.rootAttrs, rl1⟩ with hout1
  have hfr2 : findRects (reparseDoc out1) = rl1.map elemOf := by
    rw [findRects_reparse, reparseDoc_elems]
  have hfr2ne : findRects (reparseDoc out1) ≠ [] := by
    rw [hfr2]
    intro h
    exact hrl1ne (List.map_eq_nil_iff.mp h)
  have hmap2 : (findRects (reparseDoc out1)).map toRaw = rl1.map (restyle (s, opRT op)) := by
    rw [hfr2, List.map_map]
    refine List.map_congr_left ?_
    intro r hr
    have hsty := hu₁' r hr
    obtain ⟨hw, hh⟩ := buildRectList_pos rs₁ vm r hr
    have hrt := toRaw_reparsed r hw hh
      (by rw [hsty]; exact hopb.1) (by rw [hsty]; exact hopb.2)
    show toRaw (elemOf r) = restyle (s, opRT op) r
    rw [show elemOf r = (⟨rectTag, some (intToStr r.x), some (intToStr r.y),
      some (intToStr r.w), some (intToStr r.h), some r.style.1, none,
      if 1 / 1000000 < |r.style.2 - 1| then some (fmtOpacity r.style.2) else none⟩ : Elem)
      from rfl, hrt]
    show (⟨r.x, r.y, r.w, r.h, (r.style.1, opRT r.style.2)⟩ : Rect) = restyle (s, opRT op) r
    rw [hsty]
    rfl
  have hcov : ∀ y, rowCovList (rl1.map (restyle (s, opRT op))) (s, opRT op) y
      = rowCovList rs₁ (s, op) y := by
    intro y
    rw [rowCovList_map_restyle (s, op) _ rl1 hu₁' y, hrl1]
    exact rowCovList_buildRectList rs₁ vm (s, op) y
  have hu₂ : ∀ r ∈ rl1.map (restyle (s, opRT op)), r.style = (s, opRT op) := by
    intro r hr
    rcases List.mem_map.mp hr with ⟨x, _, heq⟩
    rw [← heq]
    rfl
  have hbuild2 : buildRectList ((findRects (reparseDoc out1)).map toRaw) vm
      = rl1.map (restyle (s, opRT op)) := by
    rw [hmap2, buildRectList_restyle rs₁ (rl1.map (restyle (s, opRT op))) vm
      (s, op) (s, opRT op) hu₁ hu₂ hcov, ← hrl1]
  have hok2 : optimizeOutDoc (reparseDoc out1) vm
      = .ok ⟨outRootAttrs d.rootAttrs, rl1.map (restyle (s, opRT op))⟩ := by
    rw [optimizeOutDoc_ok (reparseDoc out1) vm hfr2ne, hbuild2]
    rw [show outRootAttrs (reparseDoc out1).rootAttrs = outRootAttrs d.rootAttrs
      from outRootAttrs_idem d.rootAttrs]
  have hrender : renderDoc ⟨outRootAttrs d.rootAttrs, rl1.map (restyle (s, opRT op))⟩
      = renderDoc out1 := by
    unfold renderDoc
    rw [List.map_map]
    have hjoin : rl1.map ((fun r => "<rect" ++ renderAttrs (rectAttrs r) ++ " />")
          ∘ restyle (s, opRT op))
        = rl1.map (fun r => "<rect" ++ renderAttrs (rectAttrs r) ++ " />") := by
      refine List.map_congr_left ?_
      intro r hr
      show "<rect" ++ renderAttrs (rectAttrs (restyle (s, opRT op) r)) ++ " />" = _
      rw [rectAttrs_restyle r s op (hu₁' r hr) hopb.1 hopb.2 hband]
    rw [hjoin]
  rw [rerunBytes_of_ok hok, optimizeBytes_of_ok hok2, optimizeBytes_of_ok hok]
  rw [show (⟨outRootAttrs d.rootAttrs, rl1.map (restyle (s, opRT op))⟩ : OutDoc).rects
      = rl1.map (restyle (s, opRT op)) from rfl, show out1.rects = rl1 from rfl]
  rw [show (⟨outRootAttrs d.rootAttrs, rl1.map (restyle (s, opRT op))⟩ : OutDoc)
      = ⟨outRootAttrs d.rootAttrs, rl1.map (restyle (s, opRT op))⟩ from rfl, hrender]
  rw [List.length_map]

set_option maxRecDepth 10000 in
unseal Rat.mul Rat.add Rat.inv Rat.sub in
/-- C3 counterexample: a single rect with raw opacity `0.99996` (within the
serializer's 1e-6 tolerance band after 4-decimal formatting) is emitted as
`opacity="1"` on the first run; the second run parses that as exactly 1 and
omits the attribute, so the two outputs differ byte-for-byte. -/
theorem idempotence_cex :
    rerunBytes ⟨[("width", "10")],
        [⟨rectTag, some "0", some "0", none, none, some "red", none, some "0.99996"⟩]⟩ true
      ≠ optimizeBytes ⟨[("width", "10")],
        [⟨rectTag, some "0", some "0", none, none, some "red", none, some "0.99996"⟩]⟩ true := by
  decide

set_option maxRecDepth 10000 in
unseal Rat.mul Rat.add Rat.inv Rat.sub in
/-- The amended idempotence theorem applies to a concrete one-rect document
with fill `red` and opacity exactly 1. -/
theorem idempotence_amended_witness :
    rerunBytes ⟨[("width", "10")],
        [⟨rectTag, some "0", some "0", none, none, some "red", none, none⟩]⟩ true
      = optimizeBytes ⟨[("width", "10")],
        [⟨rectTag, some "0", some "0", none, none, some "red", none, none⟩]⟩ true :=
  idempotence_amended _ true "red" 1 (by decide) (by decide)
    (fun h => absurd h (by decide))
